import Mathlib

/-!
MS2109 stereo patch: a shallow embedding of `MS2109_stereo_fix.cpp`.

The C++ program talks to the capture chip through two Win32 calls,
`HidD_SetFeature` and `HidD_GetFeature`, on a global handle `ms2109`, and keeps
one global `max_eeprom_address`.  Here the chip behind the handle is a
parameter (`Device`), the globals are fields of `World`, and every transport
call and every line printed on `stderr` is appended to `World.trace`, so that
statements about which commands were issued can be made.

Machine integers are natural numbers with explicit reductions: `uint8_t`
modulo `2^8`, `uint16_t` modulo `2^16`, `uint32_t` modulo `2^32`.
-/

namespace MS2109

/-! ## Data model -/

/-- The 9-byte HID feature report `struct feature_report` (source lines 175-181). -/
structure feature_report where
  report_id : Nat
  cmd : Nat
  address_hi : Nat
  address_lo : Nat
  data : List Nat
deriving DecidableEq, Repr

/-- The lines the program prints on `stderr`, one constructor per format string
of the functions embedded here; the formatted arguments are not part of the model. -/
inductive Msg where
  /-- "Failed to read EEPROM @ %04X" -/
  | failed_read_eeprom
  /-- "Failed to set EEPROM read address %04X" -/
  | failed_set_eeprom_read_address
  /-- "Failed to verify EEPROM @ %04X after writing (expected %02X actual %02X)" -/
  | failed_verify_eeprom
  /-- "Failed to write EEPROM @ %04X" -/
  | failed_write_eeprom
  /-- "Failed to read XDATA @ %04X" -/
  | failed_read_xdata
  /-- "Failed to set XDATA read address %04X" -/
  | failed_set_xdata_read_address
  /-- "Failed to write XDATA %04X" -/
  | failed_write_xdata
  /-- "Failed to recognize EEPROM signature (%04X)" -/
  | failed_recognize_signature
  /-- "Invalid data size found: %04X" -/
  | invalid_data_size
  /-- "Current data size: %04X bytes" -/
  | current_data_size
  /-- "Current data size is too large to fit audio descriptor patch" -/
  | data_size_too_large
  /-- "Unexpected bytestream, don't know how to patch this: %08X%02X" -/
  | unexpected_bytestream
  /-- "This device may have already been patched." -/
  | may_have_been_patched
  /-- "Found Patch_Common start, DPTR immediate is %04X" -/
  | found_patch_common
  /-- "Adding audio descriptor patch code" -/
  | adding_patch_code
  /-- "Updating header checksum (%04X)" -/
  | updating_header_checksum
  /-- "Updating data checksum (%04X)" -/
  | updating_data_checksum
  /-- "Updating code size %04X bytes" -/
  | updating_code_size
  /-- "Overwriting initial opcode" -/
  | overwriting_initial_opcode
  /-- "Patching is complete!" -/
  | patching_complete
  /-- "Failed to read audio format channels" -/
  | failed_read_channels
  /-- "Failed to read audio format sampling rate" -/
  | failed_read_rate
  /-- "Audio format channels was not 1 (%d)" -/
  | channels_not_1
  /-- "Audio format sampling rate was not 96000 (%d)" -/
  | rate_not_96000
  /-- "Failed to identify MS2109 chip (%02X:%02X:%02X)" -/
  | failed_identify_chip
  /-- "MS2109 firmware patcher, searching for device..." -/
  | searching_for_device
  /-- "Found MS2109 device, VID %04X PID %04X bcdVersion %04X" (printed by `find_device`) -/
  | found_device
  /-- "Failed to find MS2109 device" -/
  | failed_find_device
  /-- " could not confirm MS2109 chip ID!" -/
  | could_not_confirm_chip
  /-- " could not find mono USB audio format descriptor in XDATA; is device already patched?" -/
  | could_not_find_mono
  /-- "Attempting to patch device" -/
  | attempting_to_patch
  /-- "Attempting to uninstall current USB driver for ... using pnputil. ..." -/
  | attempting_uninstall
  /-- "Old USB driver has been uninstalled." -/
  | driver_uninstalled
  /-- "Failed to execute pnputil; you may need to manually uninstall the USB drivers ..." -/
  | failed_pnputil
  /-- "Make sure to unplug/replug device for the patch to take effect!" -/
  | unplug_replug
deriving DecidableEq, Repr

/-- One observable action of the program: a transport call with the report
buffer it was given, or a line on `stderr`. -/
inductive Event where
  | SetFeature (rep : feature_report)
  | GetFeature (rep : feature_report)
  | stderr (m : Msg)
deriving DecidableEq, Repr

/-- The chip behind the handle `ms2109`, with state `σ`: how it answers
`HidD_SetFeature` (accepted or not) and `HidD_GetFeature` (the report it fills
in, or failure).  Any behaviour at all is a `Device`. -/
structure Device (σ : Type) where
  set : σ → feature_report → Bool × σ
  get : σ → feature_report → Option feature_report × σ

/-- Program state: the device, the global `max_eeprom_address` (source line 43)
and the trace of observable actions so far. -/
structure World (σ : Type) where
  dev : σ
  max_eeprom_address : Nat
  trace : List Event

variable {σ : Type}

/-- `fprintf(stderr, ...)`: appends the line to the trace. -/
def fprintf (m : Msg) (w : World σ) : World σ :=
  { w with trace := w.trace ++ [Event.stderr m] }

/-- `HidD_SetFeature(ms2109, &rep, sizeof(rep))`. -/
def HidD_SetFeature (d : Device σ) (rep : feature_report) (w : World σ) : Bool × World σ :=
  ((d.set w.dev rep).1,
   { w with dev := (d.set w.dev rep).2, trace := w.trace ++ [Event.SetFeature rep] })

/-- `HidD_GetFeature(ms2109, &rep, sizeof(rep))`: on success the buffer is
replaced by the device's answer. -/
def HidD_GetFeature (d : Device σ) (rep : feature_report) (w : World σ) :
    Option feature_report × World σ :=
  ((d.get w.dev rep).1,
   { w with dev := (d.get w.dev rep).2, trace := w.trace ++ [Event.GetFeature rep] })

/-! ## MemoryBus (source lines 175-287) -/

/-- `rep.data[i]`, a `uint8_t`. -/
def data_byte (rep : feature_report) (i : Nat) : Nat :=
  rep.data.getD i 0 % 256

/-- The decoding loop of `read_eeprom` (lines 194-197) for a value type of
`sz` bytes: `val = 0; for i < sizeof(c): val = (val << 8) | rep.data[i]`. -/
def decode (sz : Nat) (rep : feature_report) : Nat :=
  (List.range sz).foldl (fun val i => ((val <<< 8) ||| data_byte rep i) % 2 ^ (8 * sz)) 0

/-- The report built by `read_eeprom` (lines 186-191). -/
def read_eeprom_report (max_eeprom_address address : Nat) : feature_report :=
  { report_id := 0, cmd := 0xE5,
    address_hi := (address >>> 8) % 256, address_lo := address % 256,
    data := [0, 0, 0, 0, (max_eeprom_address >>> 12) % 256] }

/-- `template <class c> read_eeprom(uint16_t address, c& val)` with
`sz = sizeof(c)`; `none` is the `false` return, which leaves `val` untouched. -/
def read_eeprom (d : Device σ) (sz : Nat) (address : Nat) (w : World σ) :
    Option Nat × World σ :=
  if address ≥ w.max_eeprom_address then (none, w) else
  let rep := read_eeprom_report w.max_eeprom_address address
  match HidD_SetFeature d rep w with
  | (true, w) =>
    match HidD_GetFeature d rep w with
    | (some rep, w) => (some (decode sz rep), w)
    | (none, w) => (none, fprintf Msg.failed_read_eeprom w)
  | (false, w) => (none, fprintf Msg.failed_set_eeprom_read_address w)

def read_eeprom_byte (d : Device σ) (address : Nat) (w : World σ) : Option Nat × World σ :=
  read_eeprom d 1 address w

def read_eeprom_word (d : Device σ) (address : Nat) (w : World σ) : Option Nat × World σ :=
  read_eeprom d 2 address w

def read_eeprom_dword (d : Device σ) (address : Nat) (w : World σ) : Option Nat × World σ :=
  read_eeprom d 4 address w

/-- The report built by `write_eeprom_byte` (lines 220-226). -/
def write_eeprom_report (max_eeprom_address address src : Nat) : feature_report :=
  { report_id := 0, cmd := 0xE6,
    address_hi := (address >>> 8) % 256, address_lo := address % 256,
    data := [src % 256, 0, 0, 0, (max_eeprom_address >>> 12) % 256] }

/-- `write_eeprom_byte(uint16_t address, uint8_t src)` (lines 218-239). -/
def write_eeprom_byte (d : Device σ) (address src : Nat) (w : World σ) : Bool × World σ :=
  if address ≥ w.max_eeprom_address then (false, w) else
  match HidD_SetFeature d (write_eeprom_report w.max_eeprom_address address src) w with
  | (true, w) =>
    match read_eeprom_byte d address w with
    | (none, w) => (false, w)
    | (some b, w) =>
      if b ≠ src then (false, fprintf Msg.failed_verify_eeprom w) else (true, w)
  | (false, w) => (false, fprintf Msg.failed_write_eeprom w)

/-- `write_eeprom_word(uint16_t address, uint16_t src)` (lines 241-247). -/
def write_eeprom_word (d : Device σ) (address src : Nat) (w : World σ) : Bool × World σ :=
  match write_eeprom_byte d address ((src >>> 8) % 256) w with
  | (false, w) => (false, w)
  | (true, w) =>
    match write_eeprom_byte d ((address + 1) % 65536) (src % 256) w with
    | (false, w) => (false, w)
    | (true, w) => (true, w)

/-- The report built by `read_xdata_byte` (lines 250-254). -/
def read_xdata_report (address : Nat) : feature_report :=
  { report_id := 0, cmd := 0xB5,
    address_hi := (address >>> 8) % 256, address_lo := address % 256,
    data := [0, 0, 0, 0, 0] }

/-- `read_xdata_byte(uint16_t address, uint8_t& val)` (lines 249-264). -/
def read_xdata_byte (d : Device σ) (address : Nat) (w : World σ) : Option Nat × World σ :=
  let rep := read_xdata_report address
  match HidD_SetFeature d rep w with
  | (true, w) =>
    match HidD_GetFeature d rep w with
    | (some rep, w) => (some (data_byte rep 0), w)
    | (none, w) => (none, fprintf Msg.failed_read_xdata w)
  | (false, w) => (none, fprintf Msg.failed_set_xdata_read_address w)

/-- `read_xdata_word(uint16_t address, uint16_t& val)` (lines 266-273): the byte
at `address` is the high byte. -/
def read_xdata_word (d : Device σ) (address : Nat) (w : World σ) : Option Nat × World σ :=
  match read_xdata_byte d address w with
  | (none, w) => (none, w)
  | (some d1, w) =>
    match read_xdata_byte d ((address + 1) % 65536) w with
    | (none, w) => (none, w)
    | (some d0, w) => (some (((d1 <<< 8) ||| d0) % 65536), w)

/-- The report built by `write_xdata_byte` (lines 276-281). -/
def write_xdata_report (address val : Nat) : feature_report :=
  { report_id := 0, cmd := 0xB6,
    address_hi := (address >>> 8) % 256, address_lo := address % 256,
    data := [val % 256, 0, 0, 0, 0] }

/-- `write_xdata_byte(uint16_t address, uint8_t val)` (lines 275-287). -/
def write_xdata_byte (d : Device σ) (address val : Nat) (w : World σ) : Bool × World σ :=
  match HidD_SetFeature d (write_xdata_report address val) w with
  | (true, w) => (true, w)
  | (false, w) => (false, fprintf Msg.failed_write_xdata w)

/-- The bytes of a report in the order of the fields of `struct feature_report`,
all of type `uint8_t`: what `HidD_SetFeature` sends. -/
def feature_report.bytes (rep : feature_report) : List Nat :=
  [rep.report_id, rep.cmd, rep.address_hi, rep.address_lo] ++ rep.data

/-! ## DeviceIdentity (source lines 289-359) -/

/-- `has_mono_descriptor()` (lines 289-314). -/
def has_mono_descriptor (d : Device σ) (w : World σ) : Bool × World σ :=
  match read_xdata_byte d 0xC4C5 w with
  | (none, w) => (false, fprintf Msg.failed_read_channels w)
  | (some audio_format_channels, w) =>
  match read_xdata_byte d 0xC4C9 w with
  | (none, w) => (false, fprintf Msg.failed_read_rate w)
  | (some rate0, w) =>
  match read_xdata_byte d 0xC4CA w with
  | (none, w) => (false, fprintf Msg.failed_read_rate w)
  | (some rate1, w) =>
  match read_xdata_byte d 0xC4CB w with
  | (none, w) => (false, fprintf Msg.failed_read_rate w)
  | (some rate2, w) =>
  if audio_format_channels ≠ 1 then (false, fprintf Msg.channels_not_1 w) else
  if rate0 ≠ 0x00 ∨ rate1 ≠ 0x77 ∨ rate2 ≠ 0x01 then (false, fprintf Msg.rate_not_96000 w) else
  (true, w)

/-- `identify_ms2109()` (lines 347-359); the reads are chained by `&&`. -/
def identify_ms2109 (d : Device σ) (w : World σ) : Bool × World σ :=
  match read_xdata_byte d 0xF800 w with
  | (none, w) => (false, fprintf Msg.failed_identify_chip w)
  | (some id0, w) =>
  match read_xdata_byte d 0xF801 w with
  | (none, w) => (false, fprintf Msg.failed_identify_chip w)
  | (some id1, w) =>
  match read_xdata_byte d 0xF802 w with
  | (none, w) => (false, fprintf Msg.failed_identify_chip w)
  | (some id2, w) =>
  if id0 = 0xA7 ∧ id1 = 0x10 ∧ id2 = 0x9A then (true, w)
  else (false, fprintf Msg.failed_identify_chip w)


/-- The assignment `max_eeprom_address = k`. -/
def set_max_eeprom_address (k : Nat) (w : World σ) : World σ :=
  { w with max_eeprom_address := k }

/-- `identify_eeprom()`; the new value of the global `max_eeprom_address` is in
the returned world.  `read(..., d) && d == K` is `r.1 = some K`. -/
def identify_eeprom (d : Device σ) (w : World σ) : Bool × World σ :=
  -- lines 320-325
  let r := read_xdata_word d 0xCBD0 w
  let w : World σ :=
    if r.1 = some 0xA55A then set_max_eeprom_address 0x800 r.2
    else if r.1 = some 0x9669 then set_max_eeprom_address 0x1000 r.2
    else r.2
  -- lines 327-333
  let r := read_eeprom_word d 0 w
  if (r.1 = some 0xA55A ∧ r.2.max_eeprom_address = 0x800)
      ∨ (r.1 = some 0x9669 ∧ r.2.max_eeprom_address = 0x1000) then (true, r.2) else
  -- lines 335-337
  let r := read_eeprom_word d 0 (set_max_eeprom_address 0x800 r.2)
  if r.1 = some 0xA55A then (true, r.2) else
  -- lines 339-341
  let r := read_eeprom_word d 0 (set_max_eeprom_address 0x1000 r.2)
  if r.1 = some 0x9669 then (true, r.2) else
  -- lines 343-344
  (false, fprintf Msg.failed_recognize_signature r.2)

/-! ## PatchEngine (source lines 362-484) -/

/-- The array `audio_format_patch` as initialised (lines 366-383). -/
def audio_format_patch : List Nat :=
  [ 0xEF,
    0xB4, 0x02, 17,
    0x90, 0xC4, 0xC5,
    0xF0,
    0x90, 0xC4, 0xC9,
    0x74, 0x80,
    0xF0,
    0xA3,
    0x74, 0xBB,
    0xF0,
    0xA3,
    0xE4,
    0xF0,
    0x90, 0x00, 0x00,
    0x22 ]

/-- Modulus of `size_t`, the type in which the comparison of line 402 is made
(`sizeof` is unsigned).  The program is a 32-bit Windows build; once
`identify_eeprom` has succeeded the subtraction does not wrap under any width. -/
def size_t_modulus : Nat := 2 ^ 32

/-- What the validation part of `attempt_patch` hands to the writing part. -/
structure Validated where
  data_size : Nat
  hdr_sum : Nat
  data_sum : Nat
  /-- The value of `op` after line 423, the immediate of the first instruction. -/
  op : Nat
deriving DecidableEq, Repr

/-- Lines 385-425 of `attempt_patch`: identification, reads and checks.
`Sum.inl c` is `return c`. -/
def attempt_patch_validate (d : Device σ) (w : World σ) : (Int ⊕ Validated) × World σ :=
  match identify_eeprom d w with
  | (false, w) => (Sum.inl (-3), w)
  | (true, w) =>
  match read_eeprom_word d 2 w with
  | (none, w) => (Sum.inl (-4), fprintf Msg.invalid_data_size w)
  | (some data_size, w) =>
  if data_size < 5 then (Sum.inl (-4), fprintf Msg.invalid_data_size w) else
  let w := fprintf Msg.current_data_size w
  match read_eeprom_word d ((data_size + 0x30) % 65536) w with
  | (none, w) => (Sum.inl (-5), w)
  | (some hdr_sum, w) =>
  match read_eeprom_word d ((data_size + 0x32) % 65536) w with
  | (none, w) => (Sum.inl (-6), w)
  | (some data_sum, w) =>
  if data_size >
      (w.max_eeprom_address + size_t_modulus - 0x38 - audio_format_patch.length)
        % size_t_modulus then
    (Sum.inl (-7), fprintf Msg.data_size_too_large w) else
  match read_eeprom_dword d 0x30 w with
  | (none, w) => (Sum.inl (-8), w)
  | (some op, w) =>
  match read_eeprom_byte d 0x34 w with
  | (none, w) => (Sum.inl (-8), w)
  | (some op2, w) =>
  if (op &&& 0xFF0000FF) ≠ 0x900000EF ∨ op2 ≠ 0xF0 then
    let w := fprintf Msg.unexpected_bytestream w
    let w := if (op &&& 0xFF0000FF) = 0x120000EF then fprintf Msg.may_have_been_patched w else w
    (Sum.inl (-9), w)
  else
  let op := (op >>> 8) % 65536
  (Sum.inr { data_size := data_size, hdr_sum := hdr_sum, data_sum := data_sum, op := op },
   fprintf Msg.found_patch_common w)

/-- The loop of lines 455-459: writes the bytes of the patch at
`data_size + 0x30`, incrementing `data_size`; `none` is `return -10`, otherwise
the final `data_size`. -/
def write_patch (d : Device σ) : List Nat → Nat → World σ → Option Nat × World σ
  | [], data_size, w => (some data_size, w)
  | b :: bs, data_size, w =>
    match write_eeprom_byte d ((data_size + 0x30) % 65536) b w with
    | (false, w) => (none, w)
    | (true, w) => write_patch d bs ((data_size + 1) % 65536) w

/-- Lines 428-431: the data checksum absorbs the four old checksum bytes. -/
def data_sum_absorbed (hdr_sum data_sum : Nat) : Nat :=
  (data_sum + (hdr_sum >>> 8) + hdr_sum % 256 + (data_sum >>> 8) + data_sum % 256) % 65536

/-- Lines 430-431: the old `data_size` bytes leave the header checksum. -/
def hdr_sum_reduced (hdr_sum data_size : Nat) : Nat :=
  let hdr_sum := (hdr_sum + 65536 - (data_size >>> 8)) % 65536
  (hdr_sum + 65536 - data_size % 256) % 65536

/-- Lines 438-443: the data checksum after the opcode change and the patch. -/
def data_sum_patched (data_sum patch_offset : Nat) : Nat :=
  let data_sum := (data_sum + 65536 - 0x90 + 0x12) % 65536
  let data_sum := (data_sum + (patch_offset >>> 8)) % 65536
  let data_sum := (data_sum + patch_offset % 256) % 65536
  audio_format_patch.foldl (fun s b => (s + b) % 65536) data_sum

/-- Lines 450-451: the original DPTR immediate goes into the last but two and
last but one bytes of the patch. -/
def audio_format_patch_with (op : Nat) : List Nat :=
  (audio_format_patch.set (audio_format_patch.length - 3) ((op >>> 8) % 256)).set
    (audio_format_patch.length - 2) (op % 256)

/-- Lines 426-483 of `attempt_patch`: checksum arithmetic and the writes. -/
def attempt_patch_write (d : Device σ) (v : Validated) (w : World σ) : Int × World σ :=
  let data_sum := data_sum_absorbed v.hdr_sum v.data_sum
  let hdr_sum := hdr_sum_reduced v.hdr_sum v.data_size
  let data_size := (v.data_size + 4) % 65536
  let patch_offset := (0xCC00 + data_size) % 65536
  let data_sum := data_sum_patched data_sum patch_offset
  let w := fprintf Msg.adding_patch_code w
  match write_patch d (audio_format_patch_with v.op) data_size w with
  | (none, w) => (-10, w)
  | (some data_size, w) =>
  let hdr_sum := (hdr_sum + (data_size >>> 8)) % 65536
  let hdr_sum := (hdr_sum + data_size % 256) % 65536
  let w := fprintf Msg.updating_header_checksum w
  match write_eeprom_word d ((data_size + 0x30) % 65536) hdr_sum w with
  | (false, w) => (-11, w)
  | (true, w) =>
  let w := fprintf Msg.updating_data_checksum w
  match write_eeprom_word d ((data_size + 0x32) % 65536) data_sum w with
  | (false, w) => (-12, w)
  | (true, w) =>
  let w := fprintf Msg.updating_code_size w
  match write_eeprom_word d 2 data_size w with
  | (false, w) => (-13, w)
  | (true, w) =>
  let w := fprintf Msg.overwriting_initial_opcode w
  match write_eeprom_byte d 0x30 0x12 w with
  | (false, w) => (-14, w)
  | (true, w) =>
  match write_eeprom_word d 0x31 patch_offset w with
  | (false, w) => (-14, w)
  | (true, w) => (0, fprintf Msg.patching_complete w)

/-- `attempt_patch()` (lines 362-484). -/
def attempt_patch (d : Device σ) (w : World σ) : Int × World σ :=
  match attempt_patch_validate d w with
  | (Sum.inl c, w) => (c, w)
  | (Sum.inr v, w) => attempt_patch_write d v w

/-- Lines 426-475 of `attempt_patch` on their own: the writing part up to and
including the write of the new `code_size`.  `Sum.inl c` is `return c`;
`Sum.inr patch_offset` means that line 476 was reached, with the EEPROM in the
state of the comment of line 472.  `attempt_patch_write_eq_stage` shows that
`attempt_patch_write` is this followed by `attempt_patch_activate`. -/
def attempt_patch_stage (d : Device σ) (v : Validated) (w : World σ) : (Int ⊕ Nat) × World σ :=
  let data_sum := data_sum_absorbed v.hdr_sum v.data_sum
  let hdr_sum := hdr_sum_reduced v.hdr_sum v.data_size
  let data_size := (v.data_size + 4) % 65536
  let patch_offset := (0xCC00 + data_size) % 65536
  let data_sum := data_sum_patched data_sum patch_offset
  let w := fprintf Msg.adding_patch_code w
  match write_patch d (audio_format_patch_with v.op) data_size w with
  | (none, w) => (Sum.inl (-10), w)
  | (some data_size, w) =>
  let hdr_sum := (hdr_sum + (data_size >>> 8)) % 65536
  let hdr_sum := (hdr_sum + data_size % 256) % 65536
  let w := fprintf Msg.updating_header_checksum w
  match write_eeprom_word d ((data_size + 0x30) % 65536) hdr_sum w with
  | (false, w) => (Sum.inl (-11), w)
  | (true, w) =>
  let w := fprintf Msg.updating_data_checksum w
  match write_eeprom_word d ((data_size + 0x32) % 65536) data_sum w with
  | (false, w) => (Sum.inl (-12), w)
  | (true, w) =>
  let w := fprintf Msg.updating_code_size w
  match write_eeprom_word d 2 data_size w with
  | (false, w) => (Sum.inl (-13), w)
  | (true, w) => (Sum.inr patch_offset, w)

/-- Lines 477-483 of `attempt_patch`: the overwrite of the first opcode. -/
def attempt_patch_activate (d : Device σ) (patch_offset : Nat) (w : World σ) : Int × World σ :=
  let w := fprintf Msg.overwriting_initial_opcode w
  match write_eeprom_byte d 0x30 0x12 w with
  | (false, w) => (-14, w)
  | (true, w) =>
  match write_eeprom_word d 0x31 patch_offset w with
  | (false, w) => (-14, w)
  | (true, w) => (0, fprintf Msg.patching_complete w)

/-! ## Orchestrator (source lines 487-555) -/

/-- What the platform calls outside the core did in a run: whether
`find_device()` left a handle in `ms2109`, whether it left an instance name in
`ms2109_instance`, and whether `ShellExecute` of `pnputil` succeeded. -/
structure Host where
  found : Bool
  instance_name : Bool
  pnputil : Bool
deriving DecidableEq, Repr

/-- Lines 496-520 of `main`: the value of `ret`. -/
def main_ret (d : Device σ) (w : World σ) : Int × World σ :=
  match identify_ms2109 d w with
  | (false, w) => (-200, fprintf Msg.could_not_confirm_chip w)
  | (true, w) =>
  match has_mono_descriptor d w with
  | (false, w) => (-300, fprintf Msg.could_not_find_mono w)
  | (true, w) =>
    let w := fprintf Msg.attempting_to_patch w
    -- lines 513-516: `restore_f002`
    match read_xdata_byte d 0xF002 w with
    | (none, w) => attempt_patch d w
    | (some f002, w) =>
      if f002 ≠ 0 then
        match write_xdata_byte d 0xF002 0 w with
        | (false, w) => attempt_patch d w
        | (true, w) =>
          -- lines 518-519
          match attempt_patch d w with
          | (ret, w) => (ret, (write_xdata_byte d 0xF002 f002 w).2)
      else attempt_patch d w

/-- `main()` (lines 487-555), with the platform calls answered by `h`. -/
def main (d : Device σ) (h : Host) (w : World σ) : Int × World σ :=
  let w := fprintf Msg.searching_for_device w
  -- `find_device()`
  if h.found = false then (-100, fprintf Msg.failed_find_device w) else
  let w := fprintf Msg.found_device w
  match main_ret d w with
  | (ret, w) =>
    -- lines 522-551: `CloseHandle`, and the driver removal after a success
    let w :=
      if ret = 0 ∧ h.instance_name = true then
        let w := fprintf Msg.attempting_uninstall w
        if h.pnputil = true then fprintf Msg.driver_uninstalled w
        else fprintf Msg.failed_pnputil w
      else w
    -- line 553
    let w := if ret = 0 then fprintf Msg.unplug_replug w else w
    (ret, w)

/-! ## The environment: a chip with a faithful EEPROM -/

/-- State of a well-behaved chip: the EEPROM content, the XDATA content and
the last command report it accepted. -/
structure Chip where
  eeprom : Nat → Nat
  xdata : Nat → Nat
  last : feature_report

/-- The 16-bit address carried by a report. -/
def report_address (rep : feature_report) : Nat :=
  rep.address_hi * 256 + rep.address_lo

/-- A chip on which every transport call succeeds and every read returns the
last value written (the hardware is not part of the repository; this is the
behaviour the program expects of it).  A write command stores `data[0]` at
the report address; a get after a read command answers with the bytes stored
from the report address on. -/
def faithful : Device Chip where
  set s rep :=
    if rep.cmd = 0xE6 then
      (true, { s with eeprom := Function.update s.eeprom (report_address rep) (rep.data.getD 0 0),
                      last := rep })
    else if rep.cmd = 0xB6 then
      (true, { s with xdata := Function.update s.xdata (report_address rep) (rep.data.getD 0 0),
                      last := rep })
    else (true, { s with last := rep })
  get s _ :=
    let a := report_address s.last
    let m := if s.last.cmd = 0xE5 then s.eeprom else s.xdata
    (some { s.last with data := [m a, m (a + 1), m (a + 2), m (a + 3), m (a + 4)] }, s)

/-- A chip whose EEPROM is write-protected: as `faithful`, but a write command
is accepted without changing the content. -/
def write_protected : Device Chip where
  set s rep := (true, { s with last := rep })
  get := faithful.get

/-! ## Vocabulary of the statements -/

/-- The events appended to the trace between two worlds. -/
def issued (w w' : World σ) : List Event := w'.trace.drop w.trace.length

/-- The trace of `w'` extends that of `w`, and every write-EEPROM command
(`cmd = 0xE6`) among the new events targets an address in `S`. -/
def Ext (S : Nat → Prop) (w w' : World σ) : Prop :=
  ∃ l, w'.trace = w.trace ++ l ∧
    ∀ e ∈ l, ∀ rep, e = Event.SetFeature rep → rep.cmd = 0xE6 → S (report_address rep)

/-- As `Ext`, and the global `max_eeprom_address` is unchanged. -/
def Step (S : Nat → Prop) (w w' : World σ) : Prop :=
  w'.max_eeprom_address = w.max_eeprom_address ∧ Ext S w w'

/-- The big-endian 16-bit word stored at `a`, `a + 1` of an image. -/
def word (m : Nat → Nat) (a : Nat) : Nat := m a * 256 + m (a + 1)

/-- The sum of the `len` bytes of an image from address `lo` on. -/
def sumBytes (m : Nat → Nat) (lo : Nat) : Nat → Nat
  | 0 => 0
  | len + 1 => sumBytes m lo len + m (lo + len)

/-- Two worlds of a `Chip` with the same EEPROM content, XDATA content and
`max_eeprom_address`. -/
def Same (w w' : World Chip) : Prop :=
  w'.dev.eeprom = w.dev.eeprom ∧ w'.dev.xdata = w.dev.xdata ∧
    w'.max_eeprom_address = w.max_eeprom_address

/-! ## Concrete chips and images used to exercise the statements -/

/-- A chip whose header area is write-protected: as `faithful`, but a write
command to an address below `0x30` is accepted without changing the content. -/
def header_protected : Device Chip where
  set s rep := if report_address rep < 0x30 then (true, { s with last := rep })
    else faithful.set s rep
  get := faithful.get

/-- The image holding the listed bytes at the listed addresses and zero
everywhere else. -/
def image_of (l : List (Nat × Nat)) : Nat → Nat := fun a => (l.lookup a).getD 0

/-- A well-formed image for the 0x800-byte EEPROM: signature `A5 5A`,
`code_size = 0x0100`, code starting `90 12 34 EF F0`, header checksum `0x0001`
at `0x130` and data checksum `0x02B5` at `0x132`, every other byte zero. -/
def sample_image : Nat → Nat :=
  image_of [(0, 0xA5), (1, 0x5A), (2, 0x01), (3, 0x00),
    (0x30, 0x90), (0x31, 0x12), (0x32, 0x34), (0x33, 0xEF), (0x34, 0xF0),
    (0x130, 0x00), (0x131, 0x01), (0x132, 0x02), (0x133, 0xB5)]

/-- A minimal well-formed image for the 0x800-byte EEPROM: signature `A5 5A`,
`code_size = 5`, code `90 12 34 EF F0`, header checksum `0x0005` at `0x35` and
data checksum `0x02B5` at `0x37`, every other byte zero. -/
def small_image : Nat → Nat :=
  image_of [(0, 0xA5), (1, 0x5A), (2, 0x00), (3, 0x05),
    (0x30, 0x90), (0x31, 0x12), (0x32, 0x34), (0x33, 0xEF), (0x34, 0xF0),
    (0x35, 0x00), (0x36, 0x05), (0x37, 0x02), (0x38, 0xB5)]

/-- An image for the 0x800-byte EEPROM whose `code_size` `0x07D0` is too large
for the patch, and so large that the header checksum word would lie at `0x800`,
outside the EEPROM. -/
def oversize_image : Nat → Nat :=
  image_of [(0, 0xA5), (1, 0x5A), (2, 0x07), (3, 0xD0),
    (0x30, 0x90), (0x31, 0x12), (0x32, 0x34), (0x33, 0xEF), (0x34, 0xF0)]

/-- An image for the 0x800-byte EEPROM whose `code_size` `0x07B0` is one byte
too large for the patch, with both checksum words still inside the EEPROM. -/
def large_image : Nat → Nat :=
  image_of [(0, 0xA5), (1, 0x5A), (2, 0x07), (3, 0xB0),
    (0x30, 0x90), (0x31, 0x12), (0x32, 0x34), (0x33, 0xEF), (0x34, 0xF0)]

/-- An image for the 0x800-byte EEPROM whose `code_size` `0x07AF` is the largest
that leaves room for the patch. -/
def tight_image : Nat → Nat :=
  image_of [(0, 0xA5), (1, 0x5A), (2, 0x07), (3, 0xAF),
    (0x30, 0x90), (0x31, 0x12), (0x32, 0x34), (0x33, 0xEF), (0x34, 0xF0)]

/-- As `small_image`, but with the code block starting `EF 90 12 34 F0`. -/
def swapped_image : Nat → Nat :=
  image_of [(0, 0xA5), (1, 0x5A), (2, 0x00), (3, 0x05),
    (0x30, 0xEF), (0x31, 0x90), (0x32, 0x12), (0x33, 0x34), (0x34, 0xF0),
    (0x35, 0x00), (0x36, 0x05), (0x37, 0x02), (0x38, 0xB5)]

/-- As `small_image`, but with the code block starting `12 CC 10 EF F0`: the
first instruction is an `lcall`, as a completed patch leaves it. -/
def marked_image : Nat → Nat :=
  image_of [(0, 0xA5), (1, 0x5A), (2, 0x00), (3, 0x05),
    (0x30, 0x12), (0x31, 0xCC), (0x32, 0x10), (0x33, 0xEF), (0x34, 0xF0),
    (0x35, 0x00), (0x36, 0x05), (0x37, 0x02), (0x38, 0xB5)]

/-- As `marked_image`, but with `00` where `EF` was: the code block starts
`12 CC 10 00 F0`, and the data checksum `0x01DE` at `0x37` is the one of these
five bytes. -/
def lcall_image : Nat → Nat :=
  image_of [(0, 0xA5), (1, 0x5A), (2, 0x00), (3, 0x05),
    (0x30, 0x12), (0x31, 0xCC), (0x32, 0x10), (0x33, 0x00), (0x34, 0xF0),
    (0x35, 0x00), (0x36, 0x05), (0x37, 0x01), (0x38, 0xDE)]

/-- The world at the start of a run on a chip holding `m`: the global
`max_eeprom_address` has its initial value `0x800` and nothing has happened. -/
def start (m : Nat → Nat) : World Chip :=
  { dev := { eeprom := m, xdata := fun _ => 0, last := read_xdata_report 0 },
    max_eeprom_address := 0x800, trace := [] }

/-- An erased EEPROM: every byte `0xFF`. -/
def erased_image : Nat → Nat := fun _ => 0xFF

/-- The capacity announced by the signature word of an image: `0xA55A` for the
0x800-byte EEPROM, `0x9669` for the 0x1000-byte one. -/
def capacity_of (m : Nat → Nat) : Option Nat :=
  if word m 0 = 0xA55A then some 0x800
  else if word m 0 = 0x9669 then some 0x1000
  else none

/-- Reference description of `attempt_patch_validate` in terms of the image
alone; `attempt_patch_validate_faithful` proves that this is what the code
returns on a faithful chip. -/
def validate_image (m : Nat → Nat) : Int ⊕ Validated :=
  match capacity_of m with
  | none => Sum.inl (-3)
  | some cap =>
    if word m 2 < 5 then Sum.inl (-4)
    else if (word m 2 + 0x30) % 65536 ≥ cap then Sum.inl (-5)
    else if (word m 2 + 0x32) % 65536 ≥ cap then Sum.inl (-6)
    else if word m 2 > cap - 81 then Sum.inl (-7)
    else if ¬ (m 0x30 = 0x90 ∧ m 0x33 = 0xEF ∧ m 0x34 = 0xF0) then Sum.inl (-9)
    else Sum.inr
      { data_size := word m 2,
        hdr_sum := word m ((word m 2 + 0x30) % 65536),
        data_sum := word m ((word m 2 + 0x32) % 65536),
        op := word m 0x31 }

/-- What the validation hands over for an image that passes it: the stored
`code_size`, the two stored checksum words behind the code, and the immediate
of the first instruction. -/
def validated_of (m : Nat → Nat) : Validated :=
  { data_size := word m 2,
    hdr_sum := word m (word m 2 + 0x30),
    data_sum := word m (word m 2 + 0x32),
    op := word m 0x31 }

/-- The image a successful run leaves, address by address, for the values `v`
handed over by the validation: the `lcall` at `0x30`, the new `code_size` at 2,
the two new checksum words behind the patch, the patch itself behind the old
checksum words, and every other byte as it was.
`attempt_patch_write_faithful` proves that this is what the code writes. -/
def patched_image (m : Nat → Nat) (v : Validated) : Nat → Nat := fun x =>
  let n := v.data_size
  let patch_offset := 0xCC00 + n + 4
  let hdr_sum := ((hdr_sum_reduced v.hdr_sum n + (n + 29) >>> 8) % 65536 + (n + 29) % 256) % 65536
  let data_sum := data_sum_patched (data_sum_absorbed v.hdr_sum v.data_sum) patch_offset
  if x = 0x32 then patch_offset % 256
  else if x = 0x31 then patch_offset >>> 8 % 256
  else if x = 0x30 then 0x12
  else if x = 3 then (n + 29) % 256
  else if x = 2 then (n + 29) >>> 8 % 256
  else if x = n + 29 + 0x33 then data_sum % 256
  else if x = n + 29 + 0x32 then data_sum >>> 8 % 256
  else if x = n + 29 + 0x31 then hdr_sum % 256
  else if x = n + 29 + 0x30 then hdr_sum >>> 8 % 256
  else if n + 4 + 0x30 ≤ x ∧ x < n + 4 + 0x30 + 25 then
    (audio_format_patch_with v.op).getD (x - (n + 4 + 0x30)) 0
  else m x

/-- The signature word of the image is the one of an EEPROM of capacity `cap`. -/
def Recognised (m : Nat → Nat) (cap : Nat) : Prop :=
  (word m 0 = 0xA55A ∧ cap = 0x800) ∨ (word m 0 = 0x9669 ∧ cap = 0x1000)

/-- The image starts its code block with `mov DPTR, #i; mov A, R7; movx @DPTR, A`:
the bytes at `0x30 .. 0x34` are `90 hi lo EF F0`. -/
def PatternOK (m : Nat → Nat) : Prop :=
  m 0x30 = 0x90 ∧ m 0x33 = 0xEF ∧ m 0x34 = 0xF0

/-! ## Vocabulary of the statements on commands and on the window before activation -/

/-- The write-EEPROM commands (`cmd = 0xE6`) among a list of events, in the
order of issue: the address and the payload byte of each. -/
def eeprom_writes : List Event → List (Nat × Nat)
  | [] => []
  | Event.SetFeature rep :: l =>
    if rep.cmd = 0xE6 then (report_address rep, rep.data.getD 0 0) :: eeprom_writes l
    else eeprom_writes l
  | Event.GetFeature _ :: l => eeprom_writes l
  | Event.stderr _ :: l => eeprom_writes l

/-- The trace of `w'` extends that of `w` by events whose write-EEPROM commands
are exactly `L`, in this order. -/
def Wrote (L : List (Nat × Nat)) (w w' : World σ) : Prop :=
  ∃ l, w'.trace = w.trace ++ l ∧ eeprom_writes l = L

/-- The trace of `w'` extends that of `w`, and every report handed to the
transport in between satisfies `P`. -/
def Only (P : feature_report → Prop) (w w' : World σ) : Prop :=
  ∃ l, w'.trace = w.trace ++ l ∧
    ∀ e ∈ l, ∀ rep, (e = Event.SetFeature rep ∨ e = Event.GetFeature rep) → P rep

/-- The writes of the bytes `bs` to consecutive addresses from `a` on. -/
def patch_writes : List Nat → Nat → List (Nat × Nat)
  | [], _ => []
  | b :: bs, a => (a, b) :: patch_writes bs (a + 1)

/-- The 34 addresses written by a successful run for the original `code_size`
`n`, in order: the patch, the header checksum, the data checksum, the
`code_size` field, the first instruction. -/
def write_order (n : Nat) : List Nat :=
  (List.range 25).map (fun i => 0x30 + n + 4 + i) ++
    [0x30 + n + 29, 0x30 + n + 30, 0x30 + n + 31, 0x30 + n + 32, 2, 3, 0x30, 0x31, 0x32]

/-- The image in the window between the write of the new `code_size` and the
overwrite of the first opcode: as `patched_image`, but with the original three
bytes at `0x30 .. 0x32`.  `attempt_patch_stage_faithful` proves that this is
what the code has written by then. -/
def window_image (m : Nat → Nat) (v : Validated) : Nat → Nat := fun x =>
  if x = 0x30 ∨ x = 0x31 ∨ x = 0x32 then m x else patched_image m v x

/-- A chip that holds EEPROM content `m` and XDATA content `x` at the start of
a run. -/
def chip_world (m x : Nat → Nat) : World Chip :=
  { dev := { eeprom := m, xdata := x, last := read_xdata_report 0 },
    max_eeprom_address := 0x800, trace := [] }

/-- XDATA of an MS2109 whose audio descriptor is still the mono one: chip id
`A7 10 9A` at `0xF800`, one channel at `0xC4C5`, rate bytes `00 77 01` (96000)
at `0xC4C9`. -/
def mono_xdata : Nat → Nat :=
  image_of [(0xF800, 0xA7), (0xF801, 0x10), (0xF802, 0x9A),
    (0xC4C5, 1), (0xC4C9, 0x00), (0xC4CA, 0x77), (0xC4CB, 0x01)]

/-- XDATA of an MS2109 running the patch: two channels, rate bytes `80 BB 00`
(48000). -/
def stereo_xdata : Nat → Nat :=
  image_of [(0xF800, 0xA7), (0xF801, 0x10), (0xF802, 0x9A),
    (0xC4C5, 2), (0xC4C9, 0x80), (0xC4CA, 0xBB), (0xC4CB, 0x00)]

/-- The platform calls all succeed. -/
def host_ok : Host := { found := true, instance_name := true, pnputil := true }

/-- A stateless device that accepts every command and answers every get with
`96 69` in the first two payload bytes when the addressing selector of the
request (payload byte 4) is 1, and with `FF FF` otherwise. -/
def selector_chip : Device Unit where
  set _ _ := (true, ())
  get _ rep :=
    (some { rep with data := if rep.data.getD 4 0 = 1 then [0x96, 0x69, 0, 0, 0]
                             else [0xFF, 0xFF, 0, 0, 0] }, ())

/-- As `small_image`, but with the immediate `57 00` in the first instruction and
the data checksum `0x02C6` that goes with it. -/
def coincidence_image : Nat → Nat :=
  image_of [(0, 0xA5), (1, 0x5A), (2, 0x00), (3, 0x05),
    (0x30, 0x90), (0x31, 0x57), (0x32, 0x00), (0x33, 0xEF), (0x34, 0xF0),
    (0x35, 0x00), (0x36, 0x05), (0x37, 0x02), (0x38, 0xC6)]

/-! ## Traces: which commands an operation can issue (any device) -/

theorem Ext.ext_refl (S : Nat → Prop) (w : World σ) : Ext S w w := ⟨[], by simp⟩

theorem Ext.ext_trans {S : Nat → Prop} {w w1 w2 : World σ} (h1 : Ext S w w1) (h2 : Ext S w1 w2) :
    Ext S w w2 := by
  obtain ⟨l1, e1, p1⟩ := h1
  obtain ⟨l2, e2, p2⟩ := h2
  refine ⟨l1 ++ l2, by rw [e2, e1, List.append_assoc], ?_⟩
  intro e he
  rcases List.mem_append.1 he with h | h
  · exact p1 e h
  · exact p2 e h

theorem Ext.ext_mono {S T : Nat → Prop} {w w' : World σ} (h : Ext S w w') (hST : ∀ a, S a → T a) :
    Ext T w w' := by
  obtain ⟨l, e, p⟩ := h
  exact ⟨l, e, fun x hx rep h1 h2 => hST _ (p x hx rep h1 h2)⟩

theorem Ext.issued_eq {S : Nat → Prop} {w w' : World σ} (h : Ext S w w') :
    w'.trace = w.trace ++ issued w w' ∧
    ∀ e ∈ issued w w', ∀ rep, e = Event.SetFeature rep → rep.cmd = 0xE6 →
      S (report_address rep) := by
  obtain ⟨l, e, p⟩ := h
  have : issued w w' = l := by simp [MS2109.issued, e]
  rw [this]; exact ⟨e, p⟩

theorem Step.step_refl (S : Nat → Prop) (w : World σ) : Step S w w := ⟨rfl, Ext.ext_refl S w⟩

theorem Step.step_trans {S : Nat → Prop} {w w1 w2 : World σ} (h1 : Step S w w1) (h2 : Step S w1 w2) :
    Step S w w2 := ⟨h2.1.trans h1.1, h1.2.ext_trans h2.2⟩

theorem Step.step_mono {S T : Nat → Prop} {w w' : World σ} (h : Step S w w') (hST : ∀ a, S a → T a) :
    Step T w w' := ⟨h.1, h.2.ext_mono hST⟩

theorem step_fprintf (S : Nat → Prop) (m : Msg) (w : World σ) : Step S w (fprintf m w) :=
  ⟨rfl, [Event.stderr m], rfl, by simp⟩

theorem step_get (S : Nat → Prop) (d : Device σ) (rep : feature_report) (w : World σ) :
    Step S w (HidD_GetFeature d rep w).2 :=
  ⟨rfl, [Event.GetFeature rep], rfl, by simp⟩

theorem step_set (S : Nat → Prop) (d : Device σ) (rep : feature_report) (w : World σ)
    (h : rep.cmd = 0xE6 → S (report_address rep)) :
    Step S w (HidD_SetFeature d rep w).2 :=
  ⟨rfl, [Event.SetFeature rep], rfl, by
    intro e he r hr hc
    simp at he; subst he; cases hr; exact h hc⟩

theorem read_eeprom_step (S : Nat → Prop) (d : Device σ) (sz a : Nat) (w : World σ) :
    Step S w (read_eeprom d sz a w).2 := by
  unfold read_eeprom
  split
  · exact Step.step_refl S w
  · have hs := step_set S d (read_eeprom_report w.max_eeprom_address a) w
      (by simp [read_eeprom_report])
    dsimp only
    rcases h : HidD_SetFeature d (read_eeprom_report w.max_eeprom_address a) w with ⟨_ | _, w1⟩
    · rw [h] at hs; exact hs.step_trans (step_fprintf S _ _)
    · rw [h] at hs
      have hg := step_get S d (read_eeprom_report w.max_eeprom_address a) w1
      rcases h2 : HidD_GetFeature d (read_eeprom_report w.max_eeprom_address a) w1 with ⟨_ | r, w2⟩
      · rw [h2] at hg; simp only [h2]; exact hs.step_trans (hg.step_trans (step_fprintf S _ _))
      · rw [h2] at hg; simp only [h2]; exact hs.step_trans hg

theorem read_xdata_byte_step (S : Nat → Prop) (d : Device σ) (a : Nat) (w : World σ) :
    Step S w (read_xdata_byte d a w).2 := by
  unfold read_xdata_byte
  have hs := step_set S d (read_xdata_report a) w (by simp [read_xdata_report])
  dsimp only
  rcases h : HidD_SetFeature d (read_xdata_report a) w with ⟨_ | _, w1⟩
  · rw [h] at hs; exact hs.step_trans (step_fprintf S _ _)
  · rw [h] at hs
    have hg := step_get S d (read_xdata_report a) w1
    rcases h2 : HidD_GetFeature d (read_xdata_report a) w1 with ⟨_ | r, w2⟩
    · rw [h2] at hg; simp only [h2]; exact hs.step_trans (hg.step_trans (step_fprintf S _ _))
    · rw [h2] at hg; simp only [h2]; exact hs.step_trans hg

theorem read_xdata_word_step (S : Nat → Prop) (d : Device σ) (a : Nat) (w : World σ) :
    Step S w (read_xdata_word d a w).2 := by
  unfold read_xdata_word
  have h1 := read_xdata_byte_step S d a w
  rcases h : read_xdata_byte d a w with ⟨_ | d1, w1⟩
  · rw [h] at h1; exact h1
  · rw [h] at h1
    have h2 := read_xdata_byte_step S d ((a + 1) % 65536) w1
    rcases h' : read_xdata_byte d ((a + 1) % 65536) w1 with ⟨_ | d0, w2⟩
    · rw [h'] at h2; simp only [h']; exact h1.step_trans h2
    · rw [h'] at h2; simp only [h']; exact h1.step_trans h2

theorem report_address_write (mx a v : Nat) :
    report_address (write_eeprom_report mx a v) = a % 65536 := by
  simp only [report_address, write_eeprom_report, Nat.shiftRight_eq_div_pow]
  omega

theorem write_eeprom_byte_step (d : Device σ) (a v : Nat) (w : World σ) :
    Step (fun x => x = a % 65536) w (write_eeprom_byte d a v w).2 := by
  unfold write_eeprom_byte
  split
  · exact Step.step_refl _ w
  · have hs := step_set (fun x => x = a % 65536) d
      (write_eeprom_report w.max_eeprom_address a v) w (fun _ => report_address_write _ _ _)
    rcases h : HidD_SetFeature d (write_eeprom_report w.max_eeprom_address a v) w with ⟨_ | _, w1⟩
    · rw [h] at hs; exact hs.step_trans (step_fprintf _ _ _)
    · rw [h] at hs
      have hr := read_eeprom_step (fun x => x = a % 65536) d 1 a w1
      unfold read_eeprom_byte
      rcases h2 : read_eeprom d 1 a w1 with ⟨_ | b, w2⟩
      · rw [h2] at hr; simp only [h2]; exact hs.step_trans hr
      · rw [h2] at hr; simp only [h2]
        split
        · exact hs.step_trans (hr.step_trans (step_fprintf _ _ _))
        · exact hs.step_trans hr

theorem write_eeprom_word_step (d : Device σ) (a v : Nat) (w : World σ) :
    Step (fun x => x = a % 65536 ∨ x = (a + 1) % 65536) w (write_eeprom_word d a v w).2 := by
  unfold write_eeprom_word
  have h1 := (write_eeprom_byte_step d a ((v >>> 8) % 256) w).step_mono
    (T := fun x => x = a % 65536 ∨ x = (a + 1) % 65536) (fun _ h => Or.inl h)
  rcases h : write_eeprom_byte d a ((v >>> 8) % 256) w with ⟨_ | _, w1⟩
  · rw [h] at h1; exact h1
  · rw [h] at h1
    have h2 := (write_eeprom_byte_step d ((a + 1) % 65536) (v % 256) w1).step_mono
      (T := fun x => x = a % 65536 ∨ x = (a + 1) % 65536)
      (fun _ h => Or.inr (by rw [h, Nat.mod_mod]))
    rcases h' : write_eeprom_byte d ((a + 1) % 65536) (v % 256) w1 with ⟨_ | _, w2⟩
    · rw [h'] at h2; simp only [h']; exact h1.step_trans h2
    · rw [h'] at h2; simp only [h']; exact h1.step_trans h2

theorem ext_of_trace_eq (S : Nat → Prop) {w w' : World σ} (h : w'.trace = w.trace) :
    Ext S w w' := ⟨[], by simp [h]⟩

theorem read_eeprom_word_step (S : Nat → Prop) (d : Device σ) (a : Nat) (w : World σ) :
    Step S w (read_eeprom_word d a w).2 := read_eeprom_step S d 2 a w

/-- `identify_eeprom` issues no write-EEPROM command, and when it succeeds the
global `max_eeprom_address` is one of the two known capacities. -/
theorem identify_eeprom_spec (S : Nat → Prop) (d : Device σ) (w : World σ) :
    Ext S w (identify_eeprom d w).2 ∧
    ((identify_eeprom d w).1 = true →
      (identify_eeprom d w).2.max_eeprom_address = 0x800 ∨
      (identify_eeprom d w).2.max_eeprom_address = 0x1000) := by
  unfold identify_eeprom
  dsimp only
  generalize hr0 : read_xdata_word d 0xCBD0 w = r0
  have e0 : Ext S w r0.2 := by rw [← hr0]; exact (read_xdata_word_step S d _ w).2
  generalize hw1 : (if r0.1 = some 0xA55A then set_max_eeprom_address 0x800 r0.2
    else if r0.1 = some 0x9669 then set_max_eeprom_address 0x1000 r0.2
    else r0.2) = w1
  have e1 : Ext S w w1 := by
    refine e0.ext_trans (ext_of_trace_eq S ?_)
    rw [← hw1]; split_ifs <;> rfl
  have s1 := read_eeprom_word_step S d 0 w1
  generalize read_eeprom_word d 0 w1 = r1 at s1 ⊢
  by_cases hc : (r1.1 = some 0xA55A ∧ r1.2.max_eeprom_address = 0x800)
      ∨ (r1.1 = some 0x9669 ∧ r1.2.max_eeprom_address = 0x1000)
  · rw [if_pos hc]
    refine ⟨e1.ext_trans s1.2, fun _ => ?_⟩
    rcases hc with hc | hc
    · exact Or.inl hc.2
    · exact Or.inr hc.2
  · rw [if_neg hc]
    have s2 := read_eeprom_word_step S d 0 (set_max_eeprom_address 0x800 r1.2)
    have e2 : Ext S w (set_max_eeprom_address 0x800 r1.2) :=
      (e1.ext_trans s1.2).ext_trans (ext_of_trace_eq S rfl)
    generalize read_eeprom_word d 0 (set_max_eeprom_address 0x800 r1.2) = r2 at s2 ⊢
    by_cases hc2 : r2.1 = some 0xA55A
    · rw [if_pos hc2]
      exact ⟨e2.ext_trans s2.2, fun _ => Or.inl s2.1⟩
    · rw [if_neg hc2]
      have s3 := read_eeprom_word_step S d 0 (set_max_eeprom_address 0x1000 r2.2)
      have e3 : Ext S w (set_max_eeprom_address 0x1000 r2.2) :=
        (e2.ext_trans s2.2).ext_trans (ext_of_trace_eq S rfl)
      generalize read_eeprom_word d 0 (set_max_eeprom_address 0x1000 r2.2) = r3 at s3 ⊢
      by_cases hc3 : r3.1 = some 0x9669
      · rw [if_pos hc3]
        exact ⟨e3.ext_trans s3.2, fun _ => Or.inr s3.1⟩
      · rw [if_neg hc3]
        exact ⟨e3.ext_trans (s3.2.ext_trans (step_fprintf S _ _).2), fun h => by simp at h⟩

theorem read_eeprom_dword_step (S : Nat → Prop) (d : Device σ) (a : Nat) (w : World σ) :
    Step S w (read_eeprom_dword d a w).2 := read_eeprom_step S d 4 a w

theorem read_eeprom_byte_step (S : Nat → Prop) (d : Device σ) (a : Nat) (w : World σ) :
    Step S w (read_eeprom_byte d a w).2 := read_eeprom_step S d 1 a w

/-- The validation part of `attempt_patch` on any device: it issues no
write-EEPROM command, it fails only with the codes -3 to -9, and what it
hands over is the `data_size` it read at address 2, within the size bounds of
a known capacity. -/
theorem attempt_patch_validate_spec (d : Device σ) (w : World σ)
    (r : Int ⊕ Validated) (w' : World σ) (hv : attempt_patch_validate d w = (r, w')) :
    Ext (fun _ => False) w w' ∧
    (∀ c, r = Sum.inl c → c ∈ [-3, -4, -5, -6, -7, -8, -9]) ∧
    (∀ v, r = Sum.inr v →
      (read_eeprom_word d 2 (identify_eeprom d w).2).1 = some v.data_size ∧
      5 ≤ v.data_size ∧ v.data_size + 81 ≤ w'.max_eeprom_address ∧
      (w'.max_eeprom_address = 0x800 ∨ w'.max_eeprom_address = 0x1000)) := by
  unfold attempt_patch_validate at hv
  have hid := identify_eeprom_spec (fun _ => False) d w
  rcases h0 : identify_eeprom d w with ⟨_ | _, w1⟩ <;> rw [h0] at hid hv <;> simp only at hv hid
  · obtain ⟨rfl, rfl⟩ := Prod.mk.inj hv
    exact ⟨hid.1, by simp, by simp⟩
  have hcap := hid.2 trivial
  have s1 := read_eeprom_word_step (fun _ => False) d 2 w1
  rcases h1 : read_eeprom_word d 2 w1 with ⟨_ | n, w2⟩ <;> rw [h1] at s1 hv <;> simp only at hv s1
  · obtain ⟨rfl, rfl⟩ := Prod.mk.inj hv
    exact ⟨hid.1.ext_trans (s1.2.ext_trans (step_fprintf _ _ _).2), by simp, by simp⟩
  by_cases hn : n < 5
  · rw [if_pos hn] at hv
    obtain ⟨rfl, rfl⟩ := Prod.mk.inj hv
    exact ⟨hid.1.ext_trans (s1.2.ext_trans (step_fprintf _ _ _).2), by simp, by simp⟩
  rw [if_neg hn] at hv
  have s2 := (s1.step_trans (step_fprintf _ Msg.current_data_size w2)).step_trans
    (read_eeprom_word_step (fun _ => False) d ((n + 0x30) % 65536)
      (fprintf Msg.current_data_size w2))
  rcases h2 : read_eeprom_word d ((n + 0x30) % 65536) (fprintf Msg.current_data_size w2)
    with ⟨_ | hdr_sum, w3⟩ <;> rw [h2] at s2 hv <;> simp only at hv s2
  · obtain ⟨rfl, rfl⟩ := Prod.mk.inj hv
    exact ⟨hid.1.ext_trans s2.2, by simp, by simp⟩
  have s3 := s2.step_trans (read_eeprom_word_step (fun _ => False) d ((n + 0x32) % 65536) w3)
  rcases h3 : read_eeprom_word d ((n + 0x32) % 65536) w3
    with ⟨_ | data_sum, w4⟩ <;> rw [h3] at s3 hv <;> simp only at hv s3
  · obtain ⟨rfl, rfl⟩ := Prod.mk.inj hv
    exact ⟨hid.1.ext_trans s3.2, by simp, by simp⟩
  by_cases hbig : n > (w4.max_eeprom_address + size_t_modulus - 0x38 - audio_format_patch.length)
      % size_t_modulus
  · rw [if_pos hbig] at hv
    obtain ⟨rfl, rfl⟩ := Prod.mk.inj hv
    exact ⟨hid.1.ext_trans (s3.2.ext_trans (step_fprintf _ _ _).2), by simp, by simp⟩
  rw [if_neg hbig] at hv
  have s4 := s3.step_trans (read_eeprom_dword_step (fun _ => False) d 0x30 w4)
  rcases h4 : read_eeprom_dword d 0x30 w4
    with ⟨_ | op, w5⟩ <;> rw [h4] at s4 hv <;> simp only at hv s4
  · obtain ⟨rfl, rfl⟩ := Prod.mk.inj hv
    exact ⟨hid.1.ext_trans s4.2, by simp, by simp⟩
  have s5 := s4.step_trans (read_eeprom_byte_step (fun _ => False) d 0x34 w5)
  rcases h5 : read_eeprom_byte d 0x34 w5
    with ⟨_ | op2, w6⟩ <;> rw [h5] at s5 hv <;> simp only at hv s5
  · obtain ⟨rfl, rfl⟩ := Prod.mk.inj hv
    exact ⟨hid.1.ext_trans s5.2, by simp, by simp⟩
  by_cases hpat : (op &&& 0xFF0000FF) ≠ 0x900000EF ∨ op2 ≠ 0xF0
  · rw [if_pos hpat] at hv
    obtain ⟨rfl, rfl⟩ := Prod.mk.inj hv
    refine ⟨?_, by simp, by simp⟩
    split
    · exact hid.1.ext_trans (s5.2.ext_trans ((step_fprintf _ _ _).2.ext_trans (step_fprintf _ _ _).2))
    · exact hid.1.ext_trans (s5.2.ext_trans (step_fprintf _ _ _).2)
  rw [if_neg hpat] at hv
  obtain ⟨rfl, rfl⟩ := Prod.mk.inj hv
  refine ⟨hid.1.ext_trans (s5.2.ext_trans (step_fprintf _ _ _).2), by simp, ?_⟩
  intro v hv
  cases hv
  have hm4 : w4.max_eeprom_address = w1.max_eeprom_address := s3.1
  have hm6 : (fprintf Msg.found_patch_common w6).max_eeprom_address = w1.max_eeprom_address :=
    s5.1
  rw [hm4] at hbig
  rw [hm6]
  show _ ∧ 5 ≤ n ∧ n + 81 ≤ _ ∧ _
  simp only [size_t_modulus, audio_format_patch, List.length_cons, List.length_nil] at hbig
  refine ⟨rfl, by omega, ?_, hcap⟩
  rcases hcap with hcap | hcap <;> rw [hcap] at hbig ⊢ <;> omega

theorem audio_format_patch_with_length (op : Nat) :
    (audio_format_patch_with op).length = 25 := by
  simp [audio_format_patch_with, audio_format_patch]

/-- The loop writing the patch, on any device: it writes only inside
`[data_size + 0x30, data_size + 0x30 + length)` and, when it completes, has
advanced `data_size` by the length of the patch. -/
theorem write_patch_spec (d : Device σ) :
    ∀ (bs : List Nat) (ds : Nat) (w : World σ) (r : Option Nat) (w' : World σ),
      write_patch d bs ds w = (r, w') → ds + 0x30 + bs.length ≤ 65536 →
      Step (fun a => ds + 0x30 ≤ a ∧ a < ds + 0x30 + bs.length) w w' ∧
      ∀ ds', r = some ds' → ds' = ds + bs.length := by
  intro bs
  induction bs with
  | nil =>
    intro ds w r w' h _
    simp only [write_patch] at h
    obtain ⟨rfl, rfl⟩ := Prod.mk.inj h
    exact ⟨Step.step_refl _ _, by simp⟩
  | cons b bs ih =>
    intro ds w r w' h hlen
    simp only [List.length_cons] at hlen ⊢
    simp only [write_patch] at h
    have s1 := (write_eeprom_byte_step d ((ds + 0x30) % 65536) b w).step_mono
      (T := fun a => ds + 0x30 ≤ a ∧ a < ds + 0x30 + (bs.length + 1))
      (fun a ha => by rw [ha]; omega)
    rcases h1 : write_eeprom_byte d ((ds + 0x30) % 65536) b w with ⟨_ | _, w1⟩ <;>
      rw [h1] at s1 h <;> simp only at h s1
    · obtain ⟨rfl, rfl⟩ := Prod.mk.inj h
      exact ⟨s1, by simp⟩
    · have hmod : (ds + 1) % 65536 = ds + 1 := by omega
      rw [hmod] at h
      obtain ⟨s2, hds⟩ := ih (ds + 1) w1 r w' h (by omega)
      refine ⟨s1.step_trans (s2.step_mono (fun a ha => by omega)), fun ds' hr => ?_⟩
      rw [hds ds' hr]; omega

/-- The writing part of `attempt_patch` on any device, for a `data_size` that
passed the size check: up to the failure codes -10, -11, -12 every write is at
or above `0x30 + data_size + 4`, and with -13 the only writes below are to the
`code_size` field at 2 and 3. -/
theorem attempt_patch_write_spec (d : Device σ) (v : Validated) (w : World σ)
    (c : Int) (w' : World σ) (h : attempt_patch_write d v w = (c, w'))
    (hn : v.data_size + 81 ≤ 0x1000) :
    c ∈ [0, -10, -11, -12, -13, -14] ∧
    (c ∈ [-10, -11, -12] → Ext (fun a => 0x30 + v.data_size + 4 ≤ a) w w') ∧
    (c = -13 → Ext (fun a => 0x30 + v.data_size + 4 ≤ a ∨ a = 2 ∨ a = 3) w w') := by
  unfold attempt_patch_write at h
  simp only at h
  have hd4 : (v.data_size + 4) % 65536 = v.data_size + 4 := by omega
  rw [hd4] at h
  have s0 := write_patch_spec d (audio_format_patch_with v.op) (v.data_size + 4)
    (fprintf Msg.adding_patch_code w)
  rcases h1 : write_patch d (audio_format_patch_with v.op) (v.data_size + 4)
    (fprintf Msg.adding_patch_code w) with ⟨_ | ds, w1⟩ <;> rw [h1] at h <;> simp only at h
  · obtain ⟨rfl, rfl⟩ := Prod.mk.inj h
    obtain ⟨s1, -⟩ := s0 _ _ h1 (by rw [audio_format_patch_with_length]; omega)
    refine ⟨by simp, fun _ => ?_, fun hc => by simp at hc⟩
    exact (step_fprintf _ _ _).2.ext_trans (s1.2.ext_mono (fun a ha => by omega))
  obtain ⟨s1, hds⟩ := s0 _ _ h1 (by rw [audio_format_patch_with_length]; omega)
  have hds := hds ds rfl
  rw [audio_format_patch_with_length] at hds s1
  subst hds
  have e1 : Ext (fun a => 0x30 + v.data_size + 4 ≤ a) w w1 :=
    (step_fprintf _ _ _).2.ext_trans (s1.2.ext_mono (fun a ha => by omega))
  have s2 := write_eeprom_word_step d ((v.data_size + 4 + 25 + 0x30) % 65536)
  have s3 := write_eeprom_word_step d ((v.data_size + 4 + 25 + 0x32) % 65536)
  generalize ((hdr_sum_reduced v.hdr_sum v.data_size + (v.data_size + 4 + 25) >>> 8) % 65536 +
    (v.data_size + 4 + 25) % 256) % 65536 = hs at h
  generalize data_sum_patched (data_sum_absorbed v.hdr_sum v.data_sum)
    ((0xCC00 + (v.data_size + 4)) % 65536) = dsum at h
  rcases h2 : write_eeprom_word d ((v.data_size + 4 + 25 + 0x30) % 65536) hs
    (fprintf Msg.updating_header_checksum w1) with ⟨_ | _, w2⟩ <;>
    rw [h2] at h <;> simp only at h
  all_goals
    have e2 : Ext (fun a => 0x30 + v.data_size + 4 ≤ a) w w2 := by
      have := (s2 hs (fprintf Msg.updating_header_checksum w1)).2
      rw [h2] at this
      exact e1.ext_trans ((step_fprintf _ _ _).2.ext_trans (this.ext_mono (fun a ha => by omega)))
  · obtain ⟨rfl, rfl⟩ := Prod.mk.inj h
    exact ⟨by simp, fun _ => e2, fun hc => by simp at hc⟩
  rcases h3 : write_eeprom_word d ((v.data_size + 4 + 25 + 0x32) % 65536) dsum
    (fprintf Msg.updating_data_checksum w2) with ⟨_ | _, w3⟩ <;>
    rw [h3] at h <;> simp only at h
  all_goals
    have e3 : Ext (fun a => 0x30 + v.data_size + 4 ≤ a) w w3 := by
      have := (s3 dsum (fprintf Msg.updating_data_checksum w2)).2
      rw [h3] at this
      exact e2.ext_trans ((step_fprintf _ _ _).2.ext_trans (this.ext_mono (fun a ha => by omega)))
  · obtain ⟨rfl, rfl⟩ := Prod.mk.inj h
    exact ⟨by simp, fun _ => e3, fun hc => by simp at hc⟩
  rcases h4 : write_eeprom_word d 2 (v.data_size + 4 + 25)
    (fprintf Msg.updating_code_size w3) with ⟨_ | _, w4⟩ <;>
    rw [h4] at h <;> simp only at h
  · obtain ⟨rfl, rfl⟩ := Prod.mk.inj h
    refine ⟨by simp, fun hc => by simp at hc, fun _ => ?_⟩
    have := (write_eeprom_word_step d 2 (v.data_size + 4 + 25)
      (fprintf Msg.updating_code_size w3)).2
    rw [h4] at this
    exact (e3.ext_mono (fun a ha => Or.inl ha)).ext_trans ((step_fprintf _ _ _).2.ext_trans
      (this.ext_mono (fun a ha => by omega)))
  rcases h5 : write_eeprom_byte d 0x30 0x12
    (fprintf Msg.overwriting_initial_opcode w4) with ⟨_ | _, w5⟩ <;>
    rw [h5] at h <;> simp only at h
  · obtain ⟨rfl, rfl⟩ := Prod.mk.inj h
    exact ⟨by simp, fun hc => by simp at hc, fun hc => by simp at hc⟩
  rcases h6 : write_eeprom_word d 0x31 ((0xCC00 + (v.data_size + 4)) % 65536) w5
    with ⟨_ | _, w6⟩ <;> rw [h6] at h <;> simp only at h
  · obtain ⟨rfl, rfl⟩ := Prod.mk.inj h
    exact ⟨by simp, fun hc => by simp at hc, fun hc => by simp at hc⟩
  · obtain ⟨rfl, rfl⟩ := Prod.mk.inj h
    exact ⟨by simp, fun hc => by simp at hc, fun hc => by simp at hc⟩

/-! ## C6, C5: what a failed run can have written (any device) -/

theorem attempt_patch_of_inl (d : Device σ) (w w1 : World σ) (c : Int)
    (hv : attempt_patch_validate d w = (Sum.inl c, w1)) : attempt_patch d w = (c, w1) := by
  unfold attempt_patch; rw [hv]

theorem attempt_patch_of_inr (d : Device σ) (w w1 : World σ) (v : Validated)
    (hv : attempt_patch_validate d w = (Sum.inr v, w1)) :
    attempt_patch d w = attempt_patch_write d v w1 := by
  unfold attempt_patch; rw [hv]

/-- A run stopped by the validation part has issued no write-EEPROM command. -/
theorem no_write_of_inl (d : Device σ) (w w1 : World σ) (c : Int)
    (hv : attempt_patch_validate d w = (Sum.inl c, w1)) :
    (attempt_patch d w).2.trace = w.trace ++ issued w (attempt_patch d w).2 ∧
    ∀ e ∈ issued w (attempt_patch d w).2, ∀ rep, e = Event.SetFeature rep →
      rep.cmd ≠ 0xE6 := by
  obtain ⟨e, -, -⟩ := attempt_patch_validate_spec d w _ _ hv
  rw [attempt_patch_of_inl d w w1 c hv]
  exact ⟨e.issued_eq.1, fun x hx rep h1 h2 => e.issued_eq.2 x hx rep h1 h2⟩

/-- C6. Validation failures are atomic: on any device, if `attempt_patch`
returns one of -3, -4, -5, -6, -7, -8, -9 then the events of the call extend
the trace and none of them is a write-EEPROM (`0xE6`) command. -/
theorem validation_failure_issues_no_write (d : Device σ) (w : World σ)
    (hc : (attempt_patch d w).1 ∈ [-3, -4, -5, -6, -7, -8, -9]) :
    (attempt_patch d w).2.trace = w.trace ++ issued w (attempt_patch d w).2 ∧
    ∀ e ∈ issued w (attempt_patch d w).2, ∀ rep, e = Event.SetFeature rep →
      rep.cmd ≠ 0xE6 := by
  rcases hv : attempt_patch_validate d w with ⟨c | v, w1⟩
  · -- stopped by the validation: only reads were issued
    exact no_write_of_inl d w w1 c hv
  · -- the validation passed: the writing part returns 0 or -10 .. -14
    obtain ⟨-, -, hv'⟩ := attempt_patch_validate_spec d w _ _ hv
    obtain ⟨-, -, hle, hcap⟩ := hv' v rfl
    rw [attempt_patch_of_inr d w w1 v hv] at hc
    rcases hw' : attempt_patch_write d v w1 with ⟨c, w2⟩
    have h1 := (attempt_patch_write_spec d v w1 c w2 hw' (by omega)).1
    exfalso
    rw [hw'] at hc
    simp only [List.mem_cons, List.mem_singleton, List.not_mem_nil, or_false] at hc h1
    omega

/-- C6 exercised: on an erased EEPROM the run fails with -3 and issues no
write-EEPROM command. -/
theorem validation_failure_issues_no_write_witness :
    (attempt_patch faithful (start erased_image)).1 = -3 ∧
    ∀ e ∈ issued (start erased_image) (attempt_patch faithful (start erased_image)).2,
      ∀ rep, e = Event.SetFeature rep → rep.cmd ≠ 0xE6 :=
  ⟨by decide,
   (validation_failure_issues_no_write faithful (start erased_image) (by decide)).2⟩

/-- C5. Code path unchanged until activation: on any device, with `n` the
`code_size` read at address 2 after identification, if `attempt_patch` returns
-10, -11 or -12 every write-EEPROM command of the call targets an address at or
above `0x30 + n + 4`; if it returns -13 the only addresses below `0x30 + n + 4`
targeted by a write are 2 and 3; so in all four cases no write targets the code
bytes `[0x30, 0x30 + n)`. -/
theorem code_untouched_before_activation (d : Device σ) (w : World σ) (n : Nat)
    (hn : (read_eeprom_word d 2 (identify_eeprom d w).2).1 = some n) :
    ((attempt_patch d w).1 ∈ [-10, -11, -12] →
      ∀ e ∈ issued w (attempt_patch d w).2, ∀ rep, e = Event.SetFeature rep →
        rep.cmd = 0xE6 → 0x30 + n + 4 ≤ report_address rep) ∧
    ((attempt_patch d w).1 = -13 →
      ∀ e ∈ issued w (attempt_patch d w).2, ∀ rep, e = Event.SetFeature rep →
        rep.cmd = 0xE6 → report_address rep < 0x30 + n + 4 →
        report_address rep = 2 ∨ report_address rep = 3) ∧
    ((attempt_patch d w).1 ∈ [-10, -11, -12, -13] →
      ∀ e ∈ issued w (attempt_patch d w).2, ∀ rep, e = Event.SetFeature rep →
        rep.cmd = 0xE6 → ¬ (0x30 ≤ report_address rep ∧ report_address rep < 0x30 + n)) := by
  have key : ((attempt_patch d w).1 ∈ [-10, -11, -12] →
        Ext (fun a => 0x30 + n + 4 ≤ a) w (attempt_patch d w).2) ∧
      ((attempt_patch d w).1 = -13 →
        Ext (fun a => 0x30 + n + 4 ≤ a ∨ a = 2 ∨ a = 3) w (attempt_patch d w).2) := by
    rcases hv : attempt_patch_validate d w with ⟨c | v, w1⟩
    · obtain ⟨-, hc, -⟩ := attempt_patch_validate_spec d w _ _ hv
      have hc := hc c rfl
      rw [attempt_patch_of_inl d w w1 c hv]
      simp only [List.mem_cons, List.mem_singleton, List.not_mem_nil, or_false] at hc ⊢
      constructor <;> intro h <;> omega
    · obtain ⟨e, -, hv'⟩ := attempt_patch_validate_spec d w _ _ hv
      obtain ⟨hread, -, hle, hcap⟩ := hv' v rfl
      rw [hn] at hread
      cases hread
      rw [attempt_patch_of_inr d w w1 v hv]
      rcases hw' : attempt_patch_write d v w1 with ⟨c, w2⟩
      have hw := attempt_patch_write_spec d v w1 c w2 hw' (by omega)
      exact ⟨fun h => (e.ext_mono (fun _ hf => hf.elim)).ext_trans (hw.2.1 h),
        fun h => (e.ext_mono (fun _ hf => hf.elim)).ext_trans (hw.2.2 h)⟩
  refine ⟨fun h => (key.1 h).issued_eq.2, fun h x hx rep h1 h2 h3 => ?_,
    fun h x hx rep h1 h2 h3 => ?_⟩
  · have := (key.2 h).issued_eq.2 x hx rep h1 h2
    omega
  · simp only [List.mem_cons, List.mem_singleton, List.not_mem_nil, or_false] at h
    by_cases h13 : (attempt_patch d w).1 = -13
    · have := (key.2 h13).issued_eq.2 x hx rep h1 h2
      omega
    · have := (key.1 (by
        simp only [List.mem_cons, List.mem_singleton, List.not_mem_nil, or_false]
        omega)).issued_eq.2 x hx rep h1 h2
      omega

/-- C5 exercised: with a write-protected EEPROM holding the sample image
(`code_size = 0x100`) the run fails with -10 and every write command it issued
targets an address at or above `0x134`; with a write-protected header it fails
with -13 and the only writes below `0x134` are to addresses 2 and 3. -/
theorem code_untouched_before_activation_witness :
    (attempt_patch write_protected (start sample_image)).1 = -10 ∧
    (∀ e ∈ issued (start sample_image) (attempt_patch write_protected (start sample_image)).2,
      ∀ rep, e = Event.SetFeature rep → rep.cmd = 0xE6 → 0x30 + 0x100 + 4 ≤ report_address rep) ∧
    (attempt_patch header_protected (start sample_image)).1 = -13 ∧
    (∀ e ∈ issued (start sample_image) (attempt_patch header_protected (start sample_image)).2,
      ∀ rep, e = Event.SetFeature rep → rep.cmd = 0xE6 →
        report_address rep < 0x30 + 0x100 + 4 →
        report_address rep = 2 ∨ report_address rep = 3) :=
  ⟨by decide,
   (code_untouched_before_activation write_protected (start sample_image) 0x100
      (by decide)).1 (by decide),
   by decide,
   (code_untouched_before_activation header_protected (start sample_image) 0x100
      (by decide)).2.1 (by decide)⟩

/-! ## The faithful chip: what each operation returns and leaves behind -/

theorem shl8_or (x y : Nat) (hy : y < 256) : (x <<< 8) ||| y = x * 256 + y := by
  rw [Nat.shiftLeft_eq, show (2:Nat) ^ 8 = 256 from rfl, Nat.mul_comm x 256]
  exact (Nat.mul_add_lt_is_or (i := 8) hy x).symm

theorem data_byte_lt (rep : feature_report) (i : Nat) : data_byte rep i < 256 :=
  Nat.mod_lt _ (by decide)

theorem decode_one (rep : feature_report) : decode 1 rep = data_byte rep 0 := by
  have h0 := data_byte_lt rep 0
  simp only [decode, List.range_succ, List.range_zero, List.nil_append, List.foldl_cons,
    List.foldl_nil, List.foldl_append, Nat.zero_shiftLeft, Nat.zero_or]
  omega

theorem decode_two (rep : feature_report) :
    decode 2 rep = data_byte rep 0 * 256 + data_byte rep 1 := by
  have h0 := data_byte_lt rep 0
  have h1 := data_byte_lt rep 1
  simp only [decode, List.range_succ, List.range_zero, List.nil_append, List.foldl_cons,
    List.foldl_nil, List.foldl_append, Nat.zero_shiftLeft, Nat.zero_or]
  rw [shl8_or _ _ h1]
  omega

theorem decode_four (rep : feature_report) :
    decode 4 rep = ((data_byte rep 0 * 256 + data_byte rep 1) * 256 + data_byte rep 2) * 256
      + data_byte rep 3 := by
  have h0 := data_byte_lt rep 0
  have h1 := data_byte_lt rep 1
  have h2 := data_byte_lt rep 2
  have h3 := data_byte_lt rep 3
  simp only [decode, List.range_succ, List.range_zero, List.nil_append, List.foldl_cons,
    List.foldl_nil, List.foldl_append, Nat.zero_shiftLeft, Nat.zero_or]
  have e0 : data_byte rep 0 % 2 ^ (8 * 4) = data_byte rep 0 := by omega
  rw [e0, shl8_or _ _ h1]
  have e1 : (data_byte rep 0 * 256 + data_byte rep 1) % 2 ^ (8 * 4)
      = data_byte rep 0 * 256 + data_byte rep 1 := by omega
  rw [e1, shl8_or _ _ h2]
  have e2 : ((data_byte rep 0 * 256 + data_byte rep 1) * 256 + data_byte rep 2) % 2 ^ (8 * 4)
      = (data_byte rep 0 * 256 + data_byte rep 1) * 256 + data_byte rep 2 := by omega
  rw [e2, shl8_or _ _ h3]
  omega

theorem land_mask (x : Nat) (hx : x < 2 ^ 32) :
    x &&& 0xFF0000FF = 2 ^ 24 * (x / 2 ^ 24) + x % 2 ^ 8 := by
  apply Nat.eq_of_testBit_eq
  intro j
  have hm : (0xFF0000FF : Nat) = 2 ^ 24 * (2 ^ 8 - 1) + (2 ^ 8 - 1) := by norm_num
  rw [Nat.testBit_and, hm, Nat.testBit_mul_pow_two_add _ (by norm_num),
    Nat.testBit_mul_pow_two_add _ (by omega)]
  rw [← Nat.shiftRight_eq_div_pow]
  simp only [Nat.testBit_two_pow_sub_one, Nat.testBit_mod_two_pow, Nat.testBit_shiftRight]
  by_cases h24 : j < 24
  · simp only [h24, if_true]
    by_cases h8 : j < 8 <;> simp [h8]
  · simp only [h24, if_false]
    by_cases h32 : j < 32
    · have : j - 24 < 8 := by omega
      have e : 24 + (j - 24) = j := by omega
      simp [this, e]
    · have : ¬ j - 24 < 8 := by omega
      have e : 24 + (j - 24) = j := by omega
      have hlt : x < 2 ^ j := lt_of_lt_of_le hx (Nat.pow_le_pow_right (by decide) (by omega))
      simp [this, e, Nat.testBit_lt_two_pow hlt]

theorem report_address_read (mx a : Nat) :
    report_address (read_eeprom_report mx a) = a % 65536 := by
  simp only [report_address, read_eeprom_report, Nat.shiftRight_eq_div_pow]
  omega

theorem faithful_read_eeprom (sz a : Nat) (w : World Chip)
    (h : a < w.max_eeprom_address) (ha : a < 65536) :
    ∃ w', read_eeprom faithful sz a w =
        (some (decode sz { read_eeprom_report w.max_eeprom_address a with
          data := [w.dev.eeprom a, w.dev.eeprom (a + 1), w.dev.eeprom (a + 2),
            w.dev.eeprom (a + 3), w.dev.eeprom (a + 4)] }), w') ∧ Same w w' := by
  unfold read_eeprom
  rw [if_neg (by omega)]
  have hra : a >>> 8 % 256 * 256 + a % 256 = a := by
    rw [Nat.shiftRight_eq_div_pow]; omega
  simp [HidD_SetFeature, HidD_GetFeature, faithful, Same, report_address, read_eeprom_report, hra]


theorem faithful_read_eeprom_byte (a : Nat) (w : World Chip)
    (hb : ∀ x, w.dev.eeprom x < 256) (h : a < w.max_eeprom_address) (ha : a < 65536) :
    ∃ w', read_eeprom_byte faithful a w = (some (w.dev.eeprom a), w') ∧ Same w w' := by
  obtain ⟨w', h1, h2⟩ := faithful_read_eeprom 1 a w h ha
  refine ⟨w', ?_, h2⟩
  rw [read_eeprom_byte, h1, decode_one]
  simp [data_byte, Nat.mod_eq_of_lt (hb _)]

theorem faithful_read_eeprom_word (a : Nat) (w : World Chip)
    (hb : ∀ x, w.dev.eeprom x < 256) (h : a < w.max_eeprom_address) (ha : a < 65536) :
    ∃ w', read_eeprom_word faithful a w = (some (word w.dev.eeprom a), w') ∧ Same w w' := by
  obtain ⟨w', h1, h2⟩ := faithful_read_eeprom 2 a w h ha
  refine ⟨w', ?_, h2⟩
  rw [read_eeprom_word, h1, decode_two]
  simp [data_byte, Nat.mod_eq_of_lt (hb _), word]

theorem faithful_read_eeprom_dword (a : Nat) (w : World Chip)
    (hb : ∀ x, w.dev.eeprom x < 256) (h : a < w.max_eeprom_address) (ha : a < 65536) :
    ∃ w', read_eeprom_dword faithful a w =
      (some (((w.dev.eeprom a * 256 + w.dev.eeprom (a + 1)) * 256 + w.dev.eeprom (a + 2)) * 256
        + w.dev.eeprom (a + 3)), w') ∧ Same w w' := by
  obtain ⟨w', h1, h2⟩ := faithful_read_eeprom 4 a w h ha
  refine ⟨w', ?_, h2⟩
  rw [read_eeprom_dword, h1, decode_four]
  simp [data_byte, Nat.mod_eq_of_lt (hb _)]

theorem faithful_write_eeprom_byte (a v : Nat) (w : World Chip)
    (h : a < w.max_eeprom_address) (ha : a < 65536) (hv : v < 256) :
    ∃ w', write_eeprom_byte faithful a v w = (true, w') ∧
      w'.dev.eeprom = Function.update w.dev.eeprom a v ∧ w'.dev.xdata = w.dev.xdata ∧
      w'.max_eeprom_address = w.max_eeprom_address := by
  unfold write_eeprom_byte
  rw [if_neg (by omega)]
  have hra : a >>> 8 % 256 * 256 + a % 256 = a := by
    rw [Nat.shiftRight_eq_div_pow]; omega
  have hs : HidD_SetFeature faithful (write_eeprom_report w.max_eeprom_address a v) w =
      (true, { w with
        dev := { w.dev with eeprom := Function.update w.dev.eeprom a v,
                            last := write_eeprom_report w.max_eeprom_address a v },
        trace := w.trace ++ [Event.SetFeature (write_eeprom_report w.max_eeprom_address a v)] }) := by
    simp [HidD_SetFeature, faithful, report_address, write_eeprom_report, hra,
      Nat.mod_eq_of_lt hv]
  rw [hs]
  simp only
  obtain ⟨w', h1, h2⟩ := faithful_read_eeprom 1 a
    ({ w with
        dev := { w.dev with eeprom := Function.update w.dev.eeprom a v,
                            last := write_eeprom_report w.max_eeprom_address a v },
        trace := w.trace ++ [Event.SetFeature (write_eeprom_report w.max_eeprom_address a v)] })
    h ha
  rw [read_eeprom_byte, h1, decode_one]
  refine ⟨w', ?_, h2.1, h2.2.1, h2.2.2⟩
  simp [data_byte, Nat.mod_eq_of_lt hv]


theorem Same.same_refl (w : World Chip) : Same w w := ⟨rfl, rfl, rfl⟩

theorem Same.same_trans {w w1 w2 : World Chip} (h1 : Same w w1) (h2 : Same w1 w2) : Same w w2 :=
  ⟨h2.1.trans h1.1, h2.2.1.trans h1.2.1, h2.2.2.trans h1.2.2⟩

theorem faithful_read_xdata_byte (a : Nat) (w : World Chip) :
    Same w (read_xdata_byte faithful a w).2 := by
  simp [read_xdata_byte, HidD_SetFeature, HidD_GetFeature, faithful, Same, read_xdata_report]

theorem faithful_read_xdata_word (a : Nat) (w : World Chip) :
    Same w (read_xdata_word faithful a w).2 := by
  unfold read_xdata_word
  have h1 := faithful_read_xdata_byte a w
  rcases h : read_xdata_byte faithful a w with ⟨_ | d1, w1⟩ <;> rw [h] at h1 <;> simp only
  · exact h1
  · have h2 := faithful_read_xdata_byte ((a + 1) % 65536) w1
    rcases h' : read_xdata_byte faithful ((a + 1) % 65536) w1 with ⟨_ | d0, w2⟩ <;>
      rw [h'] at h2 <;> simp only
    · exact h1.same_trans h2
    · exact h1.same_trans h2

/-- A word read on the faithful chip, whatever `max_eeprom_address` is: it
fails exactly when the address is not below it. -/
theorem faithful_read_eeprom_word_any (a : Nat) (w : World Chip)
    (hb : ∀ x, w.dev.eeprom x < 256) (ha : a < 65536) :
    ∃ w', read_eeprom_word faithful a w =
        (if a < w.max_eeprom_address then some (word w.dev.eeprom a) else none, w') ∧
      Same w w' := by
  by_cases h : a < w.max_eeprom_address
  · rw [if_pos h]; exact faithful_read_eeprom_word a w hb h ha
  · rw [if_neg h]
    refine ⟨w, ?_, Same.same_refl w⟩
    unfold read_eeprom_word read_eeprom
    rw [if_pos (by omega)]

theorem capacity_of_cases (m : Nat → Nat) :
    (word m 0 = 0xA55A ∧ capacity_of m = some 0x800) ∨
    (word m 0 = 0x9669 ∧ capacity_of m = some 0x1000) ∨
    (word m 0 ≠ 0xA55A ∧ word m 0 ≠ 0x9669 ∧ capacity_of m = none) := by
  unfold capacity_of
  by_cases h1 : word m 0 = 0xA55A
  · left; simp [h1]
  · by_cases h2 : word m 0 = 0x9669
    · right; left; simp [h2]
    · right; right; simp [h1, h2]

/-- On the faithful chip `identify_eeprom` succeeds exactly when the signature
word of the image is one of the two known ones, and then leaves the matching
capacity in `max_eeprom_address`; the content is untouched. -/
theorem identify_eeprom_faithful (w : World Chip) (hb : ∀ x, w.dev.eeprom x < 256) :
    ∃ w', identify_eeprom faithful w = ((capacity_of w.dev.eeprom).isSome, w') ∧
      w'.dev.eeprom = w.dev.eeprom ∧ w'.dev.xdata = w.dev.xdata ∧
      ∀ cap, capacity_of w.dev.eeprom = some cap → w'.max_eeprom_address = cap := by
  unfold identify_eeprom
  dsimp only
  have s0 := faithful_read_xdata_word 0xCBD0 w
  generalize read_xdata_word faithful 0xCBD0 w = r0 at s0 ⊢
  generalize hw1 : (if r0.1 = some 0xA55A then set_max_eeprom_address 0x800 r0.2
    else if r0.1 = some 0x9669 then set_max_eeprom_address 0x1000 r0.2
    else r0.2) = w1
  have e1 : w1.dev.eeprom = w.dev.eeprom ∧ w1.dev.xdata = w.dev.xdata := by
    rw [← hw1]; split_ifs <;> exact ⟨s0.1, s0.2.1⟩
  have hb1 : ∀ x, w1.dev.eeprom x < 256 := by rw [e1.1]; exact hb
  obtain ⟨w2, h2, s2⟩ := faithful_read_eeprom_word_any 0 w1 hb1 (by decide)
  rw [h2, e1.1]
  have hb2 : ∀ x, (set_max_eeprom_address 0x800 w2).dev.eeprom x < 256 := by
    intro x; show w2.dev.eeprom x < 256; rw [s2.1]; exact hb1 x
  obtain ⟨w3, h3, s3⟩ := faithful_read_eeprom_word 0 (set_max_eeprom_address 0x800 w2) hb2
    (by show 0 < 0x800; decide) (by decide)
  have e3 : w3.dev.eeprom = w.dev.eeprom ∧ w3.dev.xdata = w.dev.xdata :=
    ⟨s3.1.trans (s2.1.trans e1.1), s3.2.1.trans (s2.2.1.trans e1.2)⟩
  have hb3 : ∀ x, (set_max_eeprom_address 0x1000 w3).dev.eeprom x < 256 := by
    intro x; show w3.dev.eeprom x < 256; rw [e3.1]; exact hb x
  obtain ⟨w4, h4, s4⟩ := faithful_read_eeprom_word 0 (set_max_eeprom_address 0x1000 w3) hb3
    (by show 0 < 0x1000; decide) (by decide)
  have e4 : w4.dev.eeprom = w.dev.eeprom ∧ w4.dev.xdata = w.dev.xdata :=
    ⟨s4.1.trans e3.1, s4.2.1.trans e3.2⟩
  have e2w : (set_max_eeprom_address 0x800 w2).dev.eeprom = w.dev.eeprom := s2.1.trans e1.1
  have e3w : (set_max_eeprom_address 0x1000 w3).dev.eeprom = w.dev.eeprom := e3.1
  rw [h3, e2w]
  dsimp only
  rw [h4, e3w]
  dsimp only
  have m3 : w3.max_eeprom_address = 0x800 := s3.2.2
  have m4 : w4.max_eeprom_address = 0x1000 := s4.2.2
  have ho : (if 0 < w1.max_eeprom_address then some (word w.dev.eeprom 0) else none)
      = some (word w.dev.eeprom 0) ∨
      (if 0 < w1.max_eeprom_address then some (word w.dev.eeprom 0) else none) = none := by
    split_ifs
    · exact Or.inl rfl
    · exact Or.inr rfl
  generalize (if 0 < w1.max_eeprom_address then some (word w.dev.eeprom 0) else none) = o
    at ho ⊢
  rcases capacity_of_cases w.dev.eeprom with ⟨hs, hc⟩ | ⟨hs, hc⟩ | ⟨hs1, hs2, hc⟩
  · rw [hc]
    rw [hs] at ho ⊢
    by_cases c1 : (o = some 0xA55A ∧ w2.max_eeprom_address = 0x800)
        ∨ (o = some 0x9669 ∧ w2.max_eeprom_address = 0x1000)
    · rw [if_pos c1]
      refine ⟨w2, rfl, s2.1.trans e1.1, s2.2.1.trans e1.2, fun cap hcap => ?_⟩
      cases hcap
      rcases c1 with c | c
      · exact c.2
      · exfalso
        rcases ho with ho | ho <;> rw [ho] at c <;> simp at c
    · rw [if_neg c1, if_pos rfl]
      exact ⟨w3, rfl, e3.1, e3.2, fun cap hcap => by cases hcap; exact m3⟩
  · rw [hc]
    rw [hs] at ho ⊢
    by_cases c1 : (o = some 0xA55A ∧ w2.max_eeprom_address = 0x800)
        ∨ (o = some 0x9669 ∧ w2.max_eeprom_address = 0x1000)
    · rw [if_pos c1]
      refine ⟨w2, rfl, s2.1.trans e1.1, s2.2.1.trans e1.2, fun cap hcap => ?_⟩
      cases hcap
      rcases c1 with c | c
      · exfalso
        rcases ho with ho | ho <;> rw [ho] at c <;> simp at c
      · exact c.2
    · rw [if_neg c1, if_neg (by simp), if_pos rfl]
      exact ⟨w4, rfl, e4.1, e4.2, fun cap hcap => by cases hcap; exact m4⟩
  · rw [hc]
    have c1 : ¬ ((o = some 0xA55A ∧ w2.max_eeprom_address = 0x800)
        ∨ (o = some 0x9669 ∧ w2.max_eeprom_address = 0x1000)) := by
      rintro (c | c) <;> rcases ho with ho | ho <;> rw [ho] at c <;> simp at c
      · exact hs1 c.1
      · exact hs2 c.1
    rw [if_neg c1, if_neg (by simpa using hs1), if_neg (by simpa using hs2)]
    exact ⟨_, rfl, e4.1, e4.2, fun cap hcap => by cases hcap⟩


theorem mask_bytes (b0 b1 b2 b3 : Nat) (h0 : b0 < 256) (h1 : b1 < 256) (h2 : b2 < 256)
    (h3 : b3 < 256) :
    (((b0 * 256 + b1) * 256 + b2) * 256 + b3) &&& 0xFF0000FF = 2 ^ 24 * b0 + b3 := by
  rw [land_mask _ (by omega)]
  omega

/-- On the faithful chip the validation part returns what `validate_image`
says, leaves the content untouched and the capacity of the signature in
`max_eeprom_address`; when it fails on the instruction pattern the last line
printed tells whether the image looks already patched. -/
theorem attempt_patch_validate_faithful (w : World Chip) (hb : ∀ x, w.dev.eeprom x < 256) :
    ∃ w', attempt_patch_validate faithful w = (validate_image w.dev.eeprom, w') ∧
      w'.dev.eeprom = w.dev.eeprom ∧ w'.dev.xdata = w.dev.xdata ∧
      (∀ cap, capacity_of w.dev.eeprom = some cap → w'.max_eeprom_address = cap) ∧
      (validate_image w.dev.eeprom = Sum.inl (-9) →
        w'.trace.getLast? = some (Event.stderr
          (if w.dev.eeprom 0x30 = 0x12 ∧ w.dev.eeprom 0x33 = 0xEF
           then Msg.may_have_been_patched else Msg.unexpected_bytestream))) := by
  unfold attempt_patch_validate validate_image
  obtain ⟨w1, h1, e1, x1, c1⟩ := identify_eeprom_faithful w hb
  rw [h1]
  cases hco : capacity_of w.dev.eeprom with
  | none => exact ⟨w1, rfl, e1, x1, fun cap hcap => (by cases hcap), fun h => (by simp at h)⟩
  | some cap =>
    have hcapv : cap = 0x800 ∨ cap = 0x1000 := by
      rcases capacity_of_cases w.dev.eeprom with ⟨-, hc⟩ | ⟨-, hc⟩ | ⟨-, -, hc⟩ <;>
        rw [hc] at hco <;> cases hco <;> simp
    have m1 : w1.max_eeprom_address = cap := c1 cap hco
    simp only [Option.isSome_some]
    have hb1 : ∀ x, w1.dev.eeprom x < 256 := by rw [e1]; exact hb
    obtain ⟨w2, h2, s2⟩ := faithful_read_eeprom_word 2 w1 hb1 (by omega) (by decide)
    rw [h2, e1]
    simp only
    by_cases hn : word w.dev.eeprom 2 < 5
    · simp only [if_pos hn]
      exact ⟨_, rfl, s2.1.trans e1, s2.2.1.trans x1, fun c hc => (by
        cases hc; exact s2.2.2.trans m1), fun h => (by simp at h)⟩
    simp only [if_neg hn]
    have mf : (fprintf Msg.current_data_size w2).max_eeprom_address = cap := s2.2.2.trans m1
    have ef : (fprintf Msg.current_data_size w2).dev.eeprom = w.dev.eeprom := s2.1.trans e1
    have xf : (fprintf Msg.current_data_size w2).dev.xdata = w.dev.xdata := s2.2.1.trans x1
    obtain ⟨w3, h3, s3⟩ := faithful_read_eeprom_word_any ((word w.dev.eeprom 2 + 0x30) % 65536)
      (fprintf Msg.current_data_size w2) (by rw [ef]; exact hb) (Nat.mod_lt _ (by decide))
    rw [h3, mf, ef]
    by_cases h5 : (word w.dev.eeprom 2 + 0x30) % 65536 ≥ cap
    · have h5n : ¬ (word w.dev.eeprom 2 + 0x30) % 65536 < cap := by omega
      simp only [if_pos h5, if_neg h5n]
      exact ⟨_, rfl, s3.1.trans ef, s3.2.1.trans xf, fun c hc => (by
        cases hc; exact s3.2.2.trans mf), fun h => (by simp at h)⟩
    have h5p : (word w.dev.eeprom 2 + 0x30) % 65536 < cap := by omega
    simp only [if_neg h5, if_pos h5p]
    have m3 : w3.max_eeprom_address = cap := s3.2.2.trans mf
    have e3 : w3.dev.eeprom = w.dev.eeprom := s3.1.trans ef
    have x3 : w3.dev.xdata = w.dev.xdata := s3.2.1.trans xf
    obtain ⟨w4, h4, s4⟩ := faithful_read_eeprom_word_any ((word w.dev.eeprom 2 + 0x32) % 65536)
      w3 (by rw [e3]; exact hb) (Nat.mod_lt _ (by decide))
    rw [h4, m3, e3]
    have m4 : w4.max_eeprom_address = cap := s4.2.2.trans m3
    have e4 : w4.dev.eeprom = w.dev.eeprom := s4.1.trans e3
    have x4 : w4.dev.xdata = w.dev.xdata := s4.2.1.trans x3
    by_cases h6 : (word w.dev.eeprom 2 + 0x32) % 65536 ≥ cap
    · have h6n : ¬ (word w.dev.eeprom 2 + 0x32) % 65536 < cap := by omega
      simp only [if_pos h6, if_neg h6n]
      exact ⟨_, rfl, e4, x4, fun c hc => (by cases hc; exact m4), fun h => (by simp at h)⟩
    have h6p : (word w.dev.eeprom 2 + 0x32) % 65536 < cap := by omega
    simp only [if_neg h6, if_pos h6p]
    have hsz : (w4.max_eeprom_address + size_t_modulus - 0x38 - audio_format_patch.length)
        % size_t_modulus = cap - 81 := by
      rw [m4]
      simp only [size_t_modulus, audio_format_patch, List.length_cons, List.length_nil]
      rcases hcapv with h | h <;> rw [h] <;> norm_num
    rw [hsz]
    by_cases h7 : word w.dev.eeprom 2 > cap - 81
    · simp only [if_pos h7]
      exact ⟨_, rfl, e4, x4, fun c hc => (by cases hc; exact m4), fun h => (by simp at h)⟩
    simp only [if_neg h7]
    obtain ⟨w5, h8, s5⟩ := faithful_read_eeprom_dword 0x30 w4 (by rw [e4]; exact hb)
      (by omega) (by decide)
    rw [h8, e4]
    simp only
    have m5 : w5.max_eeprom_address = cap := s5.2.2.trans m4
    have e5 : w5.dev.eeprom = w.dev.eeprom := s5.1.trans e4
    have x5 : w5.dev.xdata = w.dev.xdata := s5.2.1.trans x4
    obtain ⟨w6, h9, s6⟩ := faithful_read_eeprom_byte 0x34 w5 (by rw [e5]; exact hb)
      (by omega) (by decide)
    rw [h9, e5]
    simp only
    have m6 : w6.max_eeprom_address = cap := s6.2.2.trans m5
    have e6 : w6.dev.eeprom = w.dev.eeprom := s6.1.trans e5
    have x6 : w6.dev.xdata = w.dev.xdata := s6.2.1.trans x5
    have b0 := hb 0x30
    have b1 := hb 0x31
    have b2 := hb 0x32
    have b3 := hb 0x33
    rw [mask_bytes _ _ _ _ b0 b1 b2 b3]
    by_cases hp : w.dev.eeprom 0x30 = 0x90 ∧ w.dev.eeprom 0x33 = 0xEF ∧ w.dev.eeprom 0x34 = 0xF0
    · have hp' : ¬ (2 ^ 24 * w.dev.eeprom 0x30 + w.dev.eeprom 0x33 ≠ 0x900000EF
          ∨ w.dev.eeprom 0x34 ≠ 0xF0) := by
        omega
      simp only [if_neg hp', if_neg (not_not.2 hp)]
      refine ⟨fprintf Msg.found_patch_common w6, ?_, e6, x6,
        fun c hc => (by cases hc; exact m6), fun h => (by simp at h)⟩
      have hop : ((((w.dev.eeprom 0x30 * 256 + w.dev.eeprom 0x31) * 256 + w.dev.eeprom 0x32) * 256
          + w.dev.eeprom 0x33) >>> 8) % 65536 = word w.dev.eeprom 0x31 := by
        simp only [word, Nat.shiftRight_eq_div_pow, Nat.reduceAdd, Nat.reducePow]
        omega
      simp only [Nat.reduceAdd]
      rw [hop]
    · have hp' : 2 ^ 24 * w.dev.eeprom 0x30 + w.dev.eeprom 0x33 ≠ 0x900000EF
          ∨ w.dev.eeprom 0x34 ≠ 0xF0 := by
        omega
      simp only [if_pos hp', if_pos hp]
      by_cases hq : w.dev.eeprom 0x30 = 0x12 ∧ w.dev.eeprom 0x33 = 0xEF
      · have hq' : 2 ^ 24 * w.dev.eeprom 0x30 + w.dev.eeprom 0x33 = 0x120000EF := by omega
        simp only [if_pos hq', if_pos hq]
        exact ⟨_, rfl, e6, x6, fun c hc => (by cases hc; exact m6), fun _ => (by simp [fprintf])⟩
      · have hq' : ¬ 2 ^ 24 * w.dev.eeprom 0x30 + w.dev.eeprom 0x33 = 0x120000EF := by omega
        simp only [if_neg hq', if_neg hq]
        exact ⟨_, rfl, e6, x6, fun c hc => (by cases hc; exact m6), fun _ => (by simp [fprintf])⟩


theorem faithful_write_eeprom_word (a v : Nat) (w : World Chip)
    (h : a + 1 < w.max_eeprom_address) (hmax : w.max_eeprom_address ≤ 65536) :
    ∃ w', write_eeprom_word faithful a v w = (true, w') ∧
      (∀ x, w'.dev.eeprom x = if x = a + 1 then v % 256 else if x = a then v >>> 8 % 256
        else w.dev.eeprom x) ∧
      w'.dev.xdata = w.dev.xdata ∧ w'.max_eeprom_address = w.max_eeprom_address := by
  unfold write_eeprom_word
  obtain ⟨w1, h1, e1, x1, m1⟩ := faithful_write_eeprom_byte a (v >>> 8 % 256) w (by omega)
    (by omega) (Nat.mod_lt _ (by decide))
  rw [h1]
  simp only
  have ha : (a + 1) % 65536 = a + 1 := by omega
  rw [ha]
  obtain ⟨w2, h2, e2, x2, m2⟩ := faithful_write_eeprom_byte (a + 1) (v % 256) w1 (by omega)
    (by omega) (Nat.mod_lt _ (by decide))
  rw [h2]
  refine ⟨w2, rfl, fun x => ?_, x2.trans x1, m2.trans m1⟩
  rw [e2, e1]
  simp only [Function.update_apply]

theorem faithful_write_patch :
    ∀ (bs : List Nat) (ds : Nat) (w : World Chip), (∀ b ∈ bs, b < 256) →
      ds + 0x30 + bs.length ≤ w.max_eeprom_address → w.max_eeprom_address ≤ 65536 →
      ∃ w', write_patch faithful bs ds w = (some (ds + bs.length), w') ∧
        w'.max_eeprom_address = w.max_eeprom_address ∧ w'.dev.xdata = w.dev.xdata ∧
        ∀ x, w'.dev.eeprom x =
          if ds + 0x30 ≤ x ∧ x < ds + 0x30 + bs.length then bs.getD (x - (ds + 0x30)) 0
          else w.dev.eeprom x := by
  intro bs
  induction bs with
  | nil =>
    intro ds w _ _ _
    exact ⟨w, rfl, rfl, rfl, fun x => by
      rw [if_neg]; simp only [List.length_nil]; omega⟩
  | cons b bs ih =>
    intro ds w hbs hlen hmax
    simp only [List.length_cons] at hlen ⊢
    simp only [write_patch]
    have ha : (ds + 0x30) % 65536 = ds + 0x30 := by omega
    rw [ha]
    obtain ⟨w1, h1, e1, x1, m1⟩ := faithful_write_eeprom_byte (ds + 0x30) b w (by omega)
      (by omega) (hbs b (List.mem_cons_self _ _))
    rw [h1]
    simp only
    have hd : (ds + 1) % 65536 = ds + 1 := by omega
    rw [hd]
    obtain ⟨w2, h2, m2, x2, e2⟩ := ih (ds + 1) w1
      (fun c hc => hbs c (List.mem_cons_of_mem _ hc)) (by omega) (by omega)
    rw [h2]
    refine ⟨w2, by rw [Nat.add_assoc, Nat.add_comm 1], m2.trans m1, x2.trans x1, fun x => ?_⟩
    rw [e2, e1, Function.update_apply]
    by_cases hx : x = ds + 0x30
    · subst hx
      rw [if_neg (by omega), if_pos rfl, if_pos (by omega)]
      simp
    · by_cases hr : ds + 1 + 0x30 ≤ x ∧ x < ds + 1 + 0x30 + bs.length
      · rw [if_pos hr, if_pos (by omega)]
        have hk : x - (ds + 0x30) = (x - (ds + 1 + 0x30)) + 1 := by omega
        rw [hk]
        simp
      · rw [if_neg hr, if_neg hx, if_neg (by omega)]

theorem audio_format_patch_with_lt (op : Nat) : ∀ b ∈ audio_format_patch_with op, b < 256 := by
  intro b hb
  have h1 : (op >>> 8) % 256 < 256 := Nat.mod_lt _ (by decide)
  have h2 : op % 256 < 256 := Nat.mod_lt _ (by decide)
  simp only [audio_format_patch_with, audio_format_patch, List.length_cons, List.length_nil,
    List.set_cons_succ, List.set_cons_zero, List.mem_cons, List.not_mem_nil, or_false] at hb
  omega

/-- On the faithful chip the writing part succeeds for every `data_size` that
fits, and leaves `patched_image`. -/
theorem attempt_patch_write_faithful (v : Validated) (w : World Chip)
    (hn : v.data_size + 81 ≤ w.max_eeprom_address) (hmax : w.max_eeprom_address ≤ 0x1000) :
    ∃ w', attempt_patch_write faithful v w = (0, w') ∧
      w'.max_eeprom_address = w.max_eeprom_address ∧ w'.dev.xdata = w.dev.xdata ∧
      ∀ x, w'.dev.eeprom x = patched_image w.dev.eeprom v x := by
  unfold attempt_patch_write
  simp only
  have hd4 : (v.data_size + 4) % 65536 = v.data_size + 4 := by omega
  rw [hd4]
  obtain ⟨w1, h1, m1, x1, e1⟩ := faithful_write_patch (audio_format_patch_with v.op)
    (v.data_size + 4) (fprintf Msg.adding_patch_code w) (audio_format_patch_with_lt v.op)
    (by rw [audio_format_patch_with_length]; show _ ≤ w.max_eeprom_address; omega)
    (by show w.max_eeprom_address ≤ _; omega)
  rw [audio_format_patch_with_length] at h1 e1
  rw [h1]
  simp only
  have m1' : w1.max_eeprom_address = w.max_eeprom_address := m1
  have a1 : (v.data_size + 4 + 25 + 0x30) % 65536 = v.data_size + 4 + 25 + 0x30 := by omega
  have a2 : (v.data_size + 4 + 25 + 0x32) % 65536 = v.data_size + 4 + 25 + 0x32 := by omega
  have a3 : (0xCC00 + (v.data_size + 4)) % 65536 = 0xCC00 + (v.data_size + 4) := by omega
  rw [a1, a2, a3]
  obtain ⟨w2, h2, e2, x2, m2⟩ := faithful_write_eeprom_word (v.data_size + 4 + 25 + 0x30)
    (((hdr_sum_reduced v.hdr_sum v.data_size + (v.data_size + 4 + 25) >>> 8) % 65536 +
      (v.data_size + 4 + 25) % 256) % 65536) (fprintf Msg.updating_header_checksum w1)
    (by show _ < w1.max_eeprom_address; omega) (by show w1.max_eeprom_address ≤ _; omega)
  rw [h2]
  simp only
  have m2' : w2.max_eeprom_address = w.max_eeprom_address := m2.trans m1'
  obtain ⟨w3, h3, e3, x3, m3⟩ := faithful_write_eeprom_word (v.data_size + 4 + 25 + 0x32)
    (data_sum_patched (data_sum_absorbed v.hdr_sum v.data_sum) (0xCC00 + (v.data_size + 4)))
    (fprintf Msg.updating_data_checksum w2)
    (by show _ < w2.max_eeprom_address; omega) (by show w2.max_eeprom_address ≤ _; omega)
  rw [h3]
  simp only
  have m3' : w3.max_eeprom_address = w.max_eeprom_address := m3.trans m2'
  obtain ⟨w4, h4, e4, x4, m4⟩ := faithful_write_eeprom_word 2 (v.data_size + 4 + 25)
    (fprintf Msg.updating_code_size w3)
    (by show _ < w3.max_eeprom_address; omega) (by show w3.max_eeprom_address ≤ _; omega)
  rw [h4]
  simp only
  have m4' : w4.max_eeprom_address = w.max_eeprom_address := m4.trans m3'
  obtain ⟨w5, h5, e5, x5, m5⟩ := faithful_write_eeprom_byte 0x30 0x12
    (fprintf Msg.overwriting_initial_opcode w4)
    (by show _ < w4.max_eeprom_address; omega) (by decide) (by decide)
  rw [h5]
  simp only
  have m5' : w5.max_eeprom_address = w.max_eeprom_address := m5.trans m4'
  obtain ⟨w6, h6, e6, x6, m6⟩ := faithful_write_eeprom_word 0x31
    (0xCC00 + (v.data_size + 4)) w5 (by omega) (by omega)
  rw [h6]
  simp only
  refine ⟨_, rfl, m6.trans m5', ?_, fun x => ?_⟩
  · exact x6.trans (x5.trans (x4.trans (x3.trans (x2.trans x1))))
  · have e29 : v.data_size + 4 + 25 = v.data_size + 29 := by omega
    have ecc : 0xCC00 + (v.data_size + 4) = 0xCC00 + v.data_size + 4 := by omega
    have f1 : ∀ (m : Msg) (u : World Chip), (fprintf m u).dev = u.dev := fun _ _ => rfl
    simp only [e6, e5, e4, e3, e2, e1, Function.update_apply, f1, patched_image, e29, ecc]


/-! ## The whole of `attempt_patch` on the faithful chip -/

theorem recognised_iff (m : Nat → Nat) (cap : Nat) :
    Recognised m cap ↔ capacity_of m = some cap := by
  unfold Recognised capacity_of
  constructor
  · rintro (⟨h, rfl⟩ | ⟨h, rfl⟩)
    · simp [h]
    · simp [h]
  · intro h
    split_ifs at h with h1 h2
    · left; exact ⟨h1, by cases h; rfl⟩
    · right; exact ⟨h2, by cases h; rfl⟩

theorem validate_image_inl (m : Nat → Nat) (c : Int) (h : validate_image m = Sum.inl c) :
    c ∈ [-3, -4, -5, -6, -7, -8, -9] := by
  unfold validate_image at h
  split at h
  · cases h; simp
  · split_ifs at h <;> cases h <;> simp

theorem validate_image_inr (m : Nat → Nat) (v : Validated) (h : validate_image m = Sum.inr v) :
    ∃ cap, Recognised m cap ∧ 5 ≤ word m 2 ∧ word m 2 + 81 ≤ cap ∧ PatternOK m ∧
      v = validated_of m := by
  unfold validate_image at h
  split at h
  · cases h
  · rename_i cap hcap
    have hr := (recognised_iff m cap).2 hcap
    have hcapv : cap = 0x800 ∨ cap = 0x1000 := by
      rcases hr with ⟨-, h⟩ | ⟨-, h⟩ <;> simp [h]
    split_ifs at h with h1 h2 h3 h4 h5
    cases h
    have e1 : (word m 2 + 0x30) % 65536 = word m 2 + 0x30 := by omega
    have e2 : (word m 2 + 0x32) % 65536 = word m 2 + 0x32 := by omega
    rw [e1, e2]
    exact ⟨cap, hr, by omega, by omega, h5, rfl⟩

theorem validate_image_of_valid (m : Nat → Nat) (cap : Nat) (hr : Recognised m cap)
    (h5 : 5 ≤ word m 2) (hle : word m 2 + 81 ≤ cap) (hp : PatternOK m) :
    validate_image m = Sum.inr (validated_of m) := by
  have hcapv : cap = 0x800 ∨ cap = 0x1000 := by
    rcases hr with ⟨-, h⟩ | ⟨-, h⟩ <;> simp [h]
  have e1 : (word m 2 + 0x30) % 65536 = word m 2 + 0x30 := by omega
  have e2 : (word m 2 + 0x32) % 65536 = word m 2 + 0x32 := by omega
  unfold validate_image
  rw [(recognised_iff m cap).1 hr]
  simp only [e1, e2]
  unfold PatternOK at hp
  rw [if_neg (by omega), if_neg (by omega), if_neg (by omega), if_neg (by omega),
    if_neg (not_not.2 hp)]
  rfl

theorem validate_image_of_mismatch (m : Nat → Nat) (cap : Nat) (hr : Recognised m cap)
    (h5 : 5 ≤ word m 2) (hle : word m 2 + 81 ≤ cap) (hp : ¬ PatternOK m) :
    validate_image m = Sum.inl (-9) := by
  have hcapv : cap = 0x800 ∨ cap = 0x1000 := by
    rcases hr with ⟨-, h⟩ | ⟨-, h⟩ <;> simp [h]
  unfold validate_image
  rw [(recognised_iff m cap).1 hr]
  simp only
  unfold PatternOK at hp
  rw [if_neg (by omega), if_neg (by omega), if_neg (by omega), if_neg (by omega), if_pos hp]

/-- The result of `attempt_patch` on the faithful chip, from the image alone. -/
theorem attempt_patch_faithful (w : World Chip) (hb : ∀ x, w.dev.eeprom x < 256) :
    ∃ w', attempt_patch faithful w =
        (match validate_image w.dev.eeprom with | Sum.inl c => c | Sum.inr _ => 0, w') ∧
      w'.dev.xdata = w.dev.xdata ∧
      (∀ cap, Recognised w.dev.eeprom cap → w'.max_eeprom_address = cap) ∧
      (∀ x, w'.dev.eeprom x =
        match validate_image w.dev.eeprom with
        | Sum.inl _ => w.dev.eeprom x
        | Sum.inr v => patched_image w.dev.eeprom v x) ∧
      (validate_image w.dev.eeprom = Sum.inl (-9) →
        w'.trace.getLast? = some (Event.stderr
          (if w.dev.eeprom 0x30 = 0x12 ∧ w.dev.eeprom 0x33 = 0xEF
           then Msg.may_have_been_patched else Msg.unexpected_bytestream))) := by
  obtain ⟨w1, h1, e1, x1, c1, t1⟩ := attempt_patch_validate_faithful w hb
  rcases hv : validate_image w.dev.eeprom with c | v
  · rw [hv] at h1
    rw [attempt_patch_of_inl faithful w w1 c h1]
    refine ⟨w1, rfl, x1, fun cap hcap => c1 cap ((recognised_iff _ _).1 hcap),
      fun x => by rw [e1], fun h => ?_⟩
    rw [hv] at t1
    exact t1 h
  · rw [hv] at h1
    rw [attempt_patch_of_inr faithful w w1 v h1]
    obtain ⟨cap, hr, h5, hle, hp, hveq⟩ := validate_image_inr _ v hv
    have m1 : w1.max_eeprom_address = cap := c1 cap ((recognised_iff _ _).1 hr)
    have hcapv : cap = 0x800 ∨ cap = 0x1000 := by
      rcases hr with ⟨-, h⟩ | ⟨-, h⟩ <;> simp [h]
    have hds : v.data_size = word w.dev.eeprom 2 := by rw [hveq]; rfl
    obtain ⟨w2, h2, m2, x2, e2⟩ := attempt_patch_write_faithful v w1 (by omega) (by omega)
    refine ⟨w2, h2, x2.trans x1, fun cap' hcap' => ?_, fun x => ?_, fun h => by cases h⟩
    · rw [m2, m1]
      have := ((recognised_iff _ _).1 hr).symm.trans ((recognised_iff _ _).1 hcap')
      cases this; rfl
    · rw [e2, e1]


/-! ## Sums of bytes and the patched image -/

theorem sumBytes_add (m : Nat → Nat) (lo k : Nat) :
    ∀ l, sumBytes m lo (k + l) = sumBytes m lo k + sumBytes m (lo + k) l := by
  intro l
  induction l with
  | zero => simp [sumBytes]
  | succ l ih =>
    rw [← Nat.add_assoc, sumBytes, ih, sumBytes, Nat.add_assoc lo k l]
    omega

theorem sumBytes_congr (m m' : Nat → Nat) (lo : Nat) :
    ∀ len, (∀ i, i < len → m (lo + i) = m' (lo + i)) → sumBytes m lo len = sumBytes m' lo len := by
  intro len
  induction len with
  | zero => intro _; rfl
  | succ len ih =>
    intro h
    rw [sumBytes, sumBytes, ih (fun i hi => h i (by omega)), h len (by omega)]

theorem foldl_add_mod (bs : List Nat) :
    ∀ s, s < 65536 → bs.foldl (fun s b => (s + b) % 65536) s = (s + bs.sum) % 65536 := by
  induction bs with
  | nil => intro s hs; simp [Nat.mod_eq_of_lt hs]
  | cons b bs ih =>
    intro s hs
    rw [List.foldl_cons, ih _ (Nat.mod_lt _ (by decide)), List.sum_cons]
    omega

theorem audio_format_patch_sum : audio_format_patch.sum = 3755 := by decide

theorem data_sum_patched_eq (s po : Nat) :
    data_sum_patched s po =
      (s + 65536 - 0x90 + 0x12 + po >>> 8 + po % 256 + 3755) % 65536 := by
  unfold data_sum_patched
  simp only
  rw [foldl_add_mod _ _ (Nat.mod_lt _ (by decide)), audio_format_patch_sum]
  omega

theorem patched_image_blob (m : Nat → Nat) (v : Validated) (i : Nat) (hi : i < 25) :
    patched_image m v (v.data_size + 4 + 0x30 + i) = (audio_format_patch_with v.op).getD i 0 := by
  unfold patched_image
  simp only
  -- none of the nine single addresses, but inside the range of the patch
  repeat rw [if_neg (by omega)]
  rw [if_pos (by omega), Nat.add_sub_cancel_left]

theorem patched_image_old (m : Nat → Nat) (v : Validated) (x : Nat)
    (h1 : x ≠ 2) (h2 : x ≠ 3) (h3 : x < 0x30 ∨ 0x33 ≤ x) (h4 : x < v.data_size + 4 + 0x30) :
    patched_image m v x = m x := by
  unfold patched_image
  simp only
  -- none of the nine single addresses, and below the range of the patch
  repeat rw [if_neg (by omega)]

theorem sumBytes_patch (f : Nat → Nat) (base op : Nat)
    (h : ∀ i, i < 25 → f (base + i) = (audio_format_patch_with op).getD i 0) :
    sumBytes f base 25 = 3755 + op >>> 8 % 256 + op % 256 := by
  simp only [sumBytes]
  rw [h 0 (by decide), h 1 (by decide), h 2 (by decide), h 3 (by decide), h 4 (by decide),
    h 5 (by decide), h 6 (by decide), h 7 (by decide), h 8 (by decide), h 9 (by decide),
    h 10 (by decide), h 11 (by decide), h 12 (by decide), h 13 (by decide), h 14 (by decide),
    h 15 (by decide), h 16 (by decide), h 17 (by decide), h 18 (by decide), h 19 (by decide),
    h 20 (by decide), h 21 (by decide), h 22 (by decide), h 23 (by decide), h 24 (by decide)]
  simp [audio_format_patch_with, audio_format_patch]
  omega


theorem patched_image_30 (m : Nat → Nat) (v : Validated) : patched_image m v 0x30 = 0x12 := by
  simp [patched_image]

theorem patched_image_31 (m : Nat → Nat) (v : Validated) :
    patched_image m v 0x31 = (0xCC00 + v.data_size + 4) >>> 8 % 256 := by
  simp [patched_image]

theorem patched_image_32 (m : Nat → Nat) (v : Validated) :
    patched_image m v 0x32 = (0xCC00 + v.data_size + 4) % 256 := by
  simp [patched_image]

theorem patched_image_2 (m : Nat → Nat) (v : Validated) :
    patched_image m v 2 = (v.data_size + 29) >>> 8 % 256 := by
  simp [patched_image]

theorem patched_image_3 (m : Nat → Nat) (v : Validated) :
    patched_image m v 3 = (v.data_size + 29) % 256 := by
  simp [patched_image]

theorem patched_image_data_sum (m : Nat → Nat) (v : Validated) :
    word (patched_image m v) (v.data_size + 29 + 0x32) =
      data_sum_patched (data_sum_absorbed v.hdr_sum v.data_sum) (0xCC00 + v.data_size + 4) := by
  have hlt := data_sum_patched_eq (data_sum_absorbed v.hdr_sum v.data_sum)
    (0xCC00 + v.data_size + 4)
  unfold word patched_image
  simp only
  repeat (first | rw [if_pos trivial] | rw [if_neg (by omega)])
  rw [Nat.shiftRight_eq_div_pow]
  omega

theorem patched_image_hdr_sum (m : Nat → Nat) (v : Validated) :
    word (patched_image m v) (v.data_size + 29 + 0x30) =
      ((hdr_sum_reduced v.hdr_sum v.data_size + (v.data_size + 29) >>> 8) % 65536
        + (v.data_size + 29) % 256) % 65536 := by
  unfold word patched_image
  simp only
  repeat (first | rw [if_pos trivial] | rw [if_neg (by omega)])
  rw [Nat.shiftRight_eq_div_pow]
  omega

theorem patched_image_code_size (m : Nat → Nat) (v : Validated) (h : v.data_size + 29 < 65536) :
    word (patched_image m v) 2 = v.data_size + 29 := by
  unfold word
  rw [patched_image_2, patched_image_3, Nat.shiftRight_eq_div_pow]
  omega

theorem patched_image_operand (m : Nat → Nat) (v : Validated)
    (h : 0xCC00 + v.data_size + 4 < 65536) :
    word (patched_image m v) 0x31 = 0xCC00 + v.data_size + 4 := by
  unfold word
  rw [patched_image_31, patched_image_32, Nat.shiftRight_eq_div_pow]
  omega

/-- A run that returns 0 on the faithful chip: the image was recognised, passed
the size and pattern checks, and the chip now holds `patched_image`. -/
theorem attempt_patch_success (w : World Chip) (hb : ∀ x, w.dev.eeprom x < 256)
    (hret : (attempt_patch faithful w).1 = 0) :
    ∃ cap, Recognised w.dev.eeprom cap ∧ 5 ≤ word w.dev.eeprom 2 ∧
      word w.dev.eeprom 2 + 81 ≤ cap ∧ PatternOK w.dev.eeprom ∧
      (attempt_patch faithful w).2.max_eeprom_address = cap ∧
      ∀ x, (attempt_patch faithful w).2.dev.eeprom x =
        patched_image w.dev.eeprom (validated_of w.dev.eeprom) x := by
  obtain ⟨w', h, -, hm, he, -⟩ := attempt_patch_faithful w hb
  rw [h] at hret ⊢
  rcases hv : validate_image w.dev.eeprom with c | v
  · rw [hv] at hret
    have := validate_image_inl _ c hv
    simp only at hret
    subst hret
    simp at this
  · obtain ⟨cap, hr, h5, hle, hp, hveq⟩ := validate_image_inr _ v hv
    refine ⟨cap, hr, h5, hle, hp, hm cap hr, fun x => ?_⟩
    have := he x
    rw [hv] at this
    simp only at this
    rw [← hveq]
    exact this

theorem word_lt (m : Nat → Nat) (hb : ∀ x, m x < 256) (a : Nat) : word m a < 65536 := by
  have h1 := hb a
  have h2 := hb (a + 1)
  unfold word
  omega

theorem data_sum_arith (a0 a1 a2 a3 hi lo s2 pq pr : Nat)
    (hsum : a2 * 256 + a3 = (144 + (hi + (lo + s2))) % 65536) :
    ((a2 * 256 + (a3 + (a0 + (a1 + (a2 + a3))))) % 65536 + 65536 - 144 +
        (18 + (pq + (pr + 3755)))) % 65536 =
    (18 + (pq + (pr + (s2 + (a0 + (a1 + (a2 + (a3 + (3755 + (hi + lo)))))))))) % 65536 := by
  omega

/-! ## C1 - C4: the image after a successful run -/

/-- C1. Data checksum after a successful patch: on the faithful chip, for an
image of bytes whose stored data checksum (the big-endian word at
`0x30 + n + 2`, `n` the stored `code_size`) is the sum modulo `2^16` of the
bytes in `[0x30, 0x30 + n)`, if `attempt_patch` returns 0 then the capacity is
0x800 or 0x1000, the new `code_size` is `n' = n + 4 + 25`, and the word at
`0x30 + n' + 2` of the final image is the sum modulo `2^16` of the final bytes
in `[0x30, 0x30 + n')`. -/
theorem data_checksum_after_patch (w : World Chip) (hb : ∀ x, w.dev.eeprom x < 256)
    (hsum : word w.dev.eeprom (0x30 + word w.dev.eeprom 2 + 2)
      = sumBytes w.dev.eeprom 0x30 (word w.dev.eeprom 2) % 65536)
    (hret : (attempt_patch faithful w).1 = 0) :
    ((attempt_patch faithful w).2.max_eeprom_address = 0x800 ∨
      (attempt_patch faithful w).2.max_eeprom_address = 0x1000) ∧
    word (attempt_patch faithful w).2.dev.eeprom 2 = word w.dev.eeprom 2 + 4 + 25 ∧
    word (attempt_patch faithful w).2.dev.eeprom (0x30 + (word w.dev.eeprom 2 + 4 + 25) + 2)
      = sumBytes (attempt_patch faithful w).2.dev.eeprom 0x30 (word w.dev.eeprom 2 + 4 + 25)
        % 65536 := by
  obtain ⟨cap, hr, h5, hle, hp, hm, he⟩ := attempt_patch_success w hb hret
  have hcapv : cap = 0x800 ∨ cap = 0x1000 := by
    rcases hr with ⟨-, h⟩ | ⟨-, h⟩ <;> simp [h]
  have hfun : (attempt_patch faithful w).2.dev.eeprom
      = patched_image w.dev.eeprom (validated_of w.dev.eeprom) := funext he
  rw [hfun]
  generalize w.dev.eeprom = m at *
  have hd : (validated_of m).data_size = word m 2 := rfl
  have hh : (validated_of m).hdr_sum = word m (word m 2 + 0x30) := rfl
  have hds : (validated_of m).data_sum = word m (word m 2 + 0x32) := rfl
  have hop : (validated_of m).op = word m 0x31 := rfl
  generalize validated_of m = V at *
  generalize word m 2 = n at *
  refine ⟨by rw [hm]; exact hcapv, ?_, ?_⟩
  · rw [patched_image_code_size m V (by omega), hd]
  · -- the stored word is the new `data_sum`
    have ea : 0x30 + (n + 4 + 25) + 2 = V.data_size + 29 + 0x32 := by omega
    rw [ea, patched_image_data_sum, hh, hds, hd]
    -- the sum over the final image, piece by piece
    have e : n + 4 + 25 = ((3 + (n - 3)) + 4) + 25 := by omega
    rw [e, sumBytes_add, sumBytes_add, sumBytes_add]
    have ea1 : 0x30 + (3 + (n - 3)) = n + 0x30 := by omega
    have ea2 : 0x30 + (3 + (n - 3) + 4) = n + 4 + 0x30 := by omega
    rw [ea1, ea2]
    have p2 := sumBytes_congr (patched_image m V) m (0x30 + 3) (n - 3)
      (fun i hi => patched_image_old m _ _ (by omega) (by omega) (by omega)
        (by rw [hd]; omega))
    have p3 := sumBytes_congr (patched_image m V) m (n + 0x30) 4
      (fun i hi => patched_image_old m _ _ (by omega) (by omega) (by omega)
        (by rw [hd]; omega))
    have p4 := sumBytes_patch (patched_image m V) (n + 4 + 0x30) V.op
      (fun i hi => by rw [← hd]; exact patched_image_blob m V i hi)
    have p1 : sumBytes (patched_image m V) 0x30 3
        = 0x12 + (0xCC00 + n + 4) / 256 % 256 + (0xCC00 + n + 4) % 256 := by
      simp only [sumBytes, Nat.add_zero, Nat.zero_add, Nat.reduceAdd]
      rw [patched_image_30, patched_image_31, patched_image_32, hd,
        Nat.shiftRight_eq_div_pow]
    rw [p1, p2, p3, p4, hop]
    -- the original sum, split the same way
    have e0 : n = 3 + (n - 3) := by omega
    have ea0 : 0x30 + n + 2 = n + 0x32 := by omega
    rw [ea0] at hsum
    have hs0 : sumBytes m 0x30 n = sumBytes m 0x30 3 + sumBytes m (0x30 + 3) (n - 3) := by
      conv_lhs => rw [e0]
      exact sumBytes_add m 0x30 3 (n - 3)
    rw [hs0] at hsum
    rw [data_sum_patched_eq]
    unfold PatternOK at hp
    have b0 := hb (n + 0x30)
    have b1 := hb (n + 0x31)
    have b2 := hb (n + 0x32)
    have b3 := hb (n + 0x33)
    have c1 := hb 0x31
    have c2 := hb 0x32
    simp only [sumBytes, word, data_sum_absorbed, Nat.shiftRight_eq_div_pow, Nat.add_assoc,
      Nat.reduceAdd, Nat.reducePow, Nat.add_zero, Nat.zero_add] at hsum ⊢
    have f1 : (m (n + 48) * 256 + m (n + 49)) / 256 = m (n + 48) := by omega
    have f2 : (m (n + 48) * 256 + m (n + 49)) % 256 = m (n + 49) := by omega
    have f3 : (m (n + 50) * 256 + m (n + 51)) / 256 = m (n + 50) := by omega
    have f4 : (m (n + 50) * 256 + m (n + 51)) % 256 = m (n + 51) := by omega
    have f5 : (m 49 * 256 + m 50) / 256 % 256 = m 49 := by omega
    have f6 : (m 49 * 256 + m 50) % 256 = m 50 := by omega
    have f7 : (52224 + (n + 4)) / 256 % 256 = (52224 + (n + 4)) / 256 := by omega
    rw [f1, f2, f3, f4, f5, f6, f7]
    rw [hp.1] at hsum
    exact data_sum_arith _ _ _ _ _ _ _ _ _ hsum

theorem image_of_lt (l : List (Nat × Nat)) (h : ∀ p ∈ l, p.2 < 256) :
    ∀ x, image_of l x < 256 := by
  intro x
  unfold image_of
  cases hl : l.lookup x with
  | none => simp
  | some v =>
    simp only [Option.getD_some]
    induction l with
    | nil => simp at hl
    | cons p l ih =>
      obtain ⟨a, b⟩ := p
      rw [List.lookup_cons] at hl
      split at hl
      · cases hl
        exact h (a, v) (List.mem_cons_self _ _)
      · exact ih (fun q hq => h q (List.mem_cons_of_mem _ hq)) hl

theorem sample_image_lt : ∀ x, sample_image x < 256 :=
  image_of_lt _ (by decide)

theorem small_image_lt : ∀ x, small_image x < 256 :=
  image_of_lt _ (by decide)

/-- C1 exercised on the minimal image (`n = 5`, capacity 0x800): the run
returns 0 and the word at `0x54` of the final image is the sum of the final
bytes in `[0x30, 0x52)` modulo `2^16`. -/
theorem data_checksum_after_patch_witness :
    (attempt_patch faithful (start small_image)).1 = 0 ∧
    word (attempt_patch faithful (start small_image)).2.dev.eeprom 0x54
      = sumBytes (attempt_patch faithful (start small_image)).2.dev.eeprom 0x30 0x22
        % 65536 :=
  ⟨by decide,
   (data_checksum_after_patch (start small_image) small_image_lt (by decide)
      (by decide)).2.2⟩


theorem hdr_sum_arith (m2 m3 s4 h q r : Nat) (h2 : m2 < 256) (h3 : m3 < 256)
    (_hq : q < 256) (_hr : r < 256)
    (hsum : h = (m2 + (m3 + s4)) % 65536) :
    ((((h + 65536 - m2) % 65536 + 65536 - m3) % 65536 + q) % 65536 + r) % 65536 =
      (q + (r + s4)) % 65536 := by
  omega

/-- C2. Header checksum after a successful patch: on the faithful chip, for an
image of bytes whose stored header checksum (the big-endian word at `0x30 + n`,
`n` the stored `code_size`) is the sum modulo `2^16` of the bytes in
`[2, 0x30)`, if `attempt_patch` returns 0 then the word at `0x30 + n'`
(`n' = n + 29`) of the final image is the sum modulo `2^16` of the final bytes
in `[2, 0x30)`, the final `code_size` word is `n'`, and every header byte other
than the two at addresses 2 and 3 is unchanged. -/
theorem header_checksum_after_patch (w : World Chip) (hb : ∀ x, w.dev.eeprom x < 256)
    (hsum : word w.dev.eeprom (0x30 + word w.dev.eeprom 2)
      = sumBytes w.dev.eeprom 2 0x2E % 65536)
    (hret : (attempt_patch faithful w).1 = 0) :
    word (attempt_patch faithful w).2.dev.eeprom (0x30 + (word w.dev.eeprom 2 + 29))
      = sumBytes (attempt_patch faithful w).2.dev.eeprom 2 0x2E % 65536 ∧
    word (attempt_patch faithful w).2.dev.eeprom 2 = word w.dev.eeprom 2 + 29 ∧
    ∀ x, x < 0x30 → x ≠ 2 → x ≠ 3 →
      (attempt_patch faithful w).2.dev.eeprom x = w.dev.eeprom x := by
  obtain ⟨cap, hr, h5, hle, hp, hm, he⟩ := attempt_patch_success w hb hret
  have hcapv : cap = 0x800 ∨ cap = 0x1000 := by
    rcases hr with ⟨-, h⟩ | ⟨-, h⟩ <;> simp [h]
  have hfun : (attempt_patch faithful w).2.dev.eeprom
      = patched_image w.dev.eeprom (validated_of w.dev.eeprom) := funext he
  rw [hfun]
  generalize w.dev.eeprom = m at *
  have hd : (validated_of m).data_size = word m 2 := rfl
  have hh : (validated_of m).hdr_sum = word m (word m 2 + 0x30) := rfl
  generalize validated_of m = V at *
  have hn : word m 2 = m 2 * 256 + m 3 := rfl
  generalize word m 2 = n at *
  have b2 := hb 2
  have b3 := hb 3
  refine ⟨?_, ?_, fun x h1 h2 h3 => patched_image_old m V x h2 h3 (Or.inl h1)
    (by rw [hd]; omega)⟩
  · -- the stored word is the new `hdr_sum`
    have ea : 0x30 + (n + 29) = V.data_size + 29 + 0x30 := by omega
    rw [ea, patched_image_hdr_sum, hh, hd]
    have e : (0x2E : Nat) = 2 + 44 := rfl
    rw [e, sumBytes_add]
    have p2 := sumBytes_congr (patched_image m V) m (2 + 2) 44
      (fun i hi => patched_image_old m _ _ (by omega) (by omega) (by omega)
        (by rw [hd]; omega))
    have p1 : sumBytes (patched_image m V) 2 2 = (n + 29) / 256 % 256 + (n + 29) % 256 := by
      simp only [sumBytes, Nat.add_zero, Nat.zero_add, Nat.reduceAdd]
      rw [patched_image_2, patched_image_3, hd, Nat.shiftRight_eq_div_pow]
    rw [p1, p2]
    have ea0 : 0x30 + n = n + 0x30 := by omega
    rw [ea0, e, sumBytes_add] at hsum
    have q1 : sumBytes m 2 2 = m 2 + m 3 := by simp [sumBytes]
    rw [q1] at hsum
    have hq : n >>> 8 = m 2 := by rw [Nat.shiftRight_eq_div_pow]; omega
    have hr' : n % 256 = m 3 := by omega
    have f7 : (n + 29) / 256 % 256 = (n + 29) / 256 := by omega
    simp only [hdr_sum_reduced, hq, hr', Nat.shiftRight_eq_div_pow, Nat.reducePow, f7,
      Nat.add_assoc] at hsum ⊢
    exact hdr_sum_arith _ _ _ _ _ _ b2 b3 (by omega) (by omega) hsum
  · rw [patched_image_code_size m V (by omega), hd]

/-- C2 exercised on the minimal image (`n = 5`): the run returns 0 and the
word at `0x52` of the final image is the sum of the final bytes in `[2, 0x30)`
modulo `2^16`. -/
theorem header_checksum_after_patch_witness :
    (attempt_patch faithful (start small_image)).1 = 0 ∧
    word (attempt_patch faithful (start small_image)).2.dev.eeprom 0x52
      = sumBytes (attempt_patch faithful (start small_image)).2.dev.eeprom 2 0x2E % 65536 :=
  ⟨by decide,
   (header_checksum_after_patch (start small_image) small_image_lt (by decide)
      (by decide)).1⟩


/-- C3. End-to-end layout: on the faithful chip, for every image of bytes with
stored `code_size` `n` on which `attempt_patch` returns 0, the final
`code_size` word at address 2 is `n + 4 + 25`, the final byte at `0x30` is
`0x12`, and the final word at `0x31` (the value of `patch_offset`) is
`0xCC00 + n + 4`, a 16-bit value, which is the CODE address
`0xCC00 + a - 0x30` of the EEPROM address `a = 0x30 + n + 4`, where the first
byte of the patch (`0xEF`) now is. -/
theorem end_to_end_layout (w : World Chip) (hb : ∀ x, w.dev.eeprom x < 256)
    (hret : (attempt_patch faithful w).1 = 0) :
    word (attempt_patch faithful w).2.dev.eeprom 2 = word w.dev.eeprom 2 + 4 + 25 ∧
    (attempt_patch faithful w).2.dev.eeprom 0x30 = 0x12 ∧
    word (attempt_patch faithful w).2.dev.eeprom 0x31 = 0xCC00 + word w.dev.eeprom 2 + 4 ∧
    0xCC00 + word w.dev.eeprom 2 + 4 < 65536 ∧
    0xCC00 + word w.dev.eeprom 2 + 4 = 0xCC00 + (0x30 + word w.dev.eeprom 2 + 4) - 0x30 ∧
    (attempt_patch faithful w).2.dev.eeprom (0x30 + word w.dev.eeprom 2 + 4) = 0xEF ∧
    audio_format_patch.length = 25 ∧ audio_format_patch.head? = some 0xEF := by
  obtain ⟨cap, hr, h5, hle, hp, hm, he⟩ := attempt_patch_success w hb hret
  have hcapv : cap = 0x800 ∨ cap = 0x1000 := by
    rcases hr with ⟨-, h⟩ | ⟨-, h⟩ <;> simp [h]
  have hfun : (attempt_patch faithful w).2.dev.eeprom
      = patched_image w.dev.eeprom (validated_of w.dev.eeprom) := funext he
  rw [hfun]
  have hd : (validated_of w.dev.eeprom).data_size = word w.dev.eeprom 2 := rfl
  refine ⟨?_, patched_image_30 _ _, ?_, by omega, by omega, ?_, rfl, rfl⟩
  · rw [patched_image_code_size _ _ (by rw [hd]; omega), hd]
  · rw [patched_image_operand _ _ (by rw [hd]; omega), hd]
  · have ea : 0x30 + word w.dev.eeprom 2 + 4
        = (validated_of w.dev.eeprom).data_size + 4 + 0x30 + 0 := by rw [hd]; omega
    rw [ea, patched_image_blob _ _ 0 (by decide)]
    simp [audio_format_patch_with, audio_format_patch]

/-- C3 exercised on the sample image: capacity 0x800 and `n = 0x0100` give
`patch_offset = 0xCD04` at `0x31`, the final `code_size` `0x011D` and `0x12`
at `0x30`. -/
theorem end_to_end_layout_witness :
    (attempt_patch faithful (start sample_image)).1 = 0 ∧
    (attempt_patch faithful (start sample_image)).2.max_eeprom_address = 0x800 ∧
    word sample_image 2 = 0x0100 ∧
    word (attempt_patch faithful (start sample_image)).2.dev.eeprom 2 = 0x011D ∧
    (attempt_patch faithful (start sample_image)).2.dev.eeprom 0x30 = 0x12 ∧
    word (attempt_patch faithful (start sample_image)).2.dev.eeprom 0x31 = 0xCD04 :=
  ⟨by decide, by decide, by decide,
   (end_to_end_layout (start sample_image) sample_image_lt (by decide)).1,
   (end_to_end_layout (start sample_image) sample_image_lt (by decide)).2.1,
   (end_to_end_layout (start sample_image) sample_image_lt (by decide)).2.2.1⟩

/-- C4. Relocated operand is preserved: on the faithful chip, for every image
of bytes with stored `code_size` `n` on which `attempt_patch` returns 0, the 25
final bytes at `[0x30 + n + 4, 0x30 + n + 29)` are those of the template
`audio_format_patch`, except that bytes 22 and 23 hold the original bytes at
`0x31` and `0x32`; bytes 21 and 24 of the template are `0x90` (`mov DPTR`) and
`0x22` (`ret`); and the four bytes at `[0x30 + n, 0x30 + n + 4)`, the two old
checksum words, are unchanged. -/
theorem relocated_operand_preserved (w : World Chip) (hb : ∀ x, w.dev.eeprom x < 256)
    (hret : (attempt_patch faithful w).1 = 0) :
    (∀ i, i < 25 →
      (attempt_patch faithful w).2.dev.eeprom (0x30 + word w.dev.eeprom 2 + 4 + i) =
        if i = 22 then w.dev.eeprom 0x31
        else if i = 23 then w.dev.eeprom 0x32
        else audio_format_patch.getD i 0) ∧
    audio_format_patch.length = 25 ∧
    audio_format_patch.getD 21 0 = 0x90 ∧ audio_format_patch.getD 24 0 = 0x22 ∧
    (∀ i, i < 4 →
      (attempt_patch faithful w).2.dev.eeprom (0x30 + word w.dev.eeprom 2 + i) =
        w.dev.eeprom (0x30 + word w.dev.eeprom 2 + i)) := by
  obtain ⟨cap, hr, h5, hle, hp, hm, he⟩ := attempt_patch_success w hb hret
  have hfun : (attempt_patch faithful w).2.dev.eeprom
      = patched_image w.dev.eeprom (validated_of w.dev.eeprom) := funext he
  rw [hfun]
  have hd : (validated_of w.dev.eeprom).data_size = word w.dev.eeprom 2 := rfl
  have hop : (validated_of w.dev.eeprom).op = w.dev.eeprom 0x31 * 256 + w.dev.eeprom 0x32 := rfl
  have c1 := hb 0x31
  have c2 := hb 0x32
  have h1 : (w.dev.eeprom 0x31 * 256 + w.dev.eeprom 0x32) >>> 8 % 256 = w.dev.eeprom 0x31 := by
    rw [Nat.shiftRight_eq_div_pow]; omega
  have h2 : (w.dev.eeprom 0x31 * 256 + w.dev.eeprom 0x32) % 256 = w.dev.eeprom 0x32 := by
    omega
  refine ⟨fun i hi => ?_, rfl, rfl, rfl, fun i hi => ?_⟩
  · have ea : 0x30 + word w.dev.eeprom 2 + 4 + i
        = (validated_of w.dev.eeprom).data_size + 4 + 0x30 + i := by rw [hd]; omega
    rw [ea, patched_image_blob _ _ i hi, hop]
    simp only [audio_format_patch_with, audio_format_patch, List.length_cons, List.length_nil,
      Nat.reduceAdd, Nat.reduceSub, h1, h2]
    interval_cases i <;> rfl
  · exact patched_image_old _ _ _ (by omega) (by omega) (by omega) (by rw [hd]; omega)

/-- C4 exercised on the sample image (`n = 0x100`, original operand `12 34`):
the final bytes at `0x14A`, `0x14B` (template bytes 22, 23) are `0x12`, `0x34`. -/
theorem relocated_operand_preserved_witness :
    (attempt_patch faithful (start sample_image)).1 = 0 ∧
    (attempt_patch faithful (start sample_image)).2.dev.eeprom 0x14A = 0x12 ∧
    (attempt_patch faithful (start sample_image)).2.dev.eeprom 0x14B = 0x34 :=
  ⟨by decide,
   (relocated_operand_preserved (start sample_image) sample_image_lt (by decide)).1 22
     (by decide),
   (relocated_operand_preserved (start sample_image) sample_image_lt (by decide)).1 23
     (by decide)⟩


/-! ## C7 - C10: the validation on the faithful chip -/

/-- A run on the faithful chip that the image does not pass: the code, no
write-EEPROM command, unchanged content. -/
theorem attempt_patch_rejected (w : World Chip) (hb : ∀ x, w.dev.eeprom x < 256) (c : Int)
    (hv : validate_image w.dev.eeprom = Sum.inl c) :
    (attempt_patch faithful w).1 = c ∧
    (∀ e ∈ issued w (attempt_patch faithful w).2, ∀ rep, e = Event.SetFeature rep →
      rep.cmd ≠ 0xE6) ∧
    (attempt_patch faithful w).2.dev.eeprom = w.dev.eeprom := by
  obtain ⟨w1, h1, e1, -, -, -⟩ := attempt_patch_validate_faithful w hb
  rw [hv] at h1
  refine ⟨?_, (no_write_of_inl faithful w w1 c h1).2, ?_⟩
  · rw [attempt_patch_of_inl faithful w w1 c h1]
  · rw [attempt_patch_of_inl faithful w w1 c h1]; exact e1

/-- C7, as the code has it. Size-too-large abort: on the faithful chip, for an
image of bytes recognised with capacity `cap` (0x800 or 0x1000) whose
`code_size` `n` exceeds `cap - 0x38 - 25`, `attempt_patch` issues no
write-EEPROM command and leaves the content unchanged; it returns -7 when both
checksum words can be read, that is when `(n + 0x30) mod 2^16` and
`(n + 0x32) mod 2^16` are below `cap`; otherwise the capacity guard of
`read_eeprom` stops it before the size check, with -5 for the first word and -6
for the second. -/
theorem size_too_large_abort (w : World Chip) (hb : ∀ x, w.dev.eeprom x < 256) (cap : Nat)
    (hr : Recognised w.dev.eeprom cap)
    (hbig : cap - 0x38 - audio_format_patch.length < word w.dev.eeprom 2) :
    (attempt_patch faithful w).1 =
      (if (word w.dev.eeprom 2 + 0x30) % 65536 ≥ cap then -5
       else if (word w.dev.eeprom 2 + 0x32) % 65536 ≥ cap then -6
       else -7) ∧
    (∀ e ∈ issued w (attempt_patch faithful w).2, ∀ rep, e = Event.SetFeature rep →
      rep.cmd ≠ 0xE6) ∧
    (attempt_patch faithful w).2.dev.eeprom = w.dev.eeprom := by
  have hcapv : cap = 0x800 ∨ cap = 0x1000 := by
    rcases hr with ⟨-, h⟩ | ⟨-, h⟩ <;> simp [h]
  have hlen : audio_format_patch.length = 25 := rfl
  rw [hlen] at hbig
  have hv : validate_image w.dev.eeprom =
      Sum.inl (if (word w.dev.eeprom 2 + 0x30) % 65536 ≥ cap then -5
       else if (word w.dev.eeprom 2 + 0x32) % 65536 ≥ cap then -6
       else -7) := by
    unfold validate_image
    rw [(recognised_iff _ cap).1 hr]
    simp only
    rw [if_neg (by omega)]
    by_cases h1 : (word w.dev.eeprom 2 + 0x30) % 65536 ≥ cap
    · rw [if_pos h1, if_pos h1]
    · rw [if_neg h1, if_neg h1]
      by_cases h2 : (word w.dev.eeprom 2 + 0x32) % 65536 ≥ cap
      · rw [if_pos h2, if_pos h2]
      · rw [if_neg h2, if_neg h2, if_pos (by omega)]
  exact attempt_patch_rejected w hb _ hv

/-- C7 as stated fails: the image `oversize_image` is recognised with capacity
0x800 and its `code_size` `0x07D0` exceeds `0x800 - 0x38 - 25`, yet the run
returns -5, not -7. -/
theorem size_too_large_counterexample :
    Recognised oversize_image 0x800 ∧
    0x800 - 0x38 - 25 < word oversize_image 2 ∧
    (attempt_patch faithful (start oversize_image)).1 = -5 ∧
    (attempt_patch faithful (start oversize_image)).1 ≠ -7 :=
  ⟨Or.inl ⟨by decide, rfl⟩, by decide, by decide, by decide⟩

theorem large_image_lt : ∀ x, large_image x < 256 :=
  image_of_lt _ (by decide)

/-- C7 exercised: `large_image` (capacity 0x800, `code_size = 0x07B0`, one more
than fits) makes the run return -7 without any write-EEPROM command. -/
theorem size_too_large_abort_witness :
    0x800 - 0x38 - audio_format_patch.length < word large_image 2 ∧
    (attempt_patch faithful (start large_image)).1 = -7 ∧
    (∀ e ∈ issued (start large_image) (attempt_patch faithful (start large_image)).2,
      ∀ rep, e = Event.SetFeature rep → rep.cmd ≠ 0xE6) :=
  ⟨by decide,
   (size_too_large_abort (start large_image) large_image_lt 0x800
      (Or.inl ⟨by decide, rfl⟩) (by decide)).1,
   (size_too_large_abort (start large_image) large_image_lt 0x800
      (Or.inl ⟨by decide, rfl⟩) (by decide)).2.1⟩

/-- C8. Instruction-pattern acceptance: on the faithful chip, for an image of
bytes with a recognised signature that passes the size checks
(`5 ≤ n ≤ cap - 0x38 - 25`), the validation hands over to the writing part if
and only if the bytes at `0x30`, `0x33`, `0x34` are `0x90`, `0xEF`, `0xF0`
(with any bytes `hi`, `lo` at `0x31`, `0x32`); the relocation target it hands
over is `hi * 256 + lo`; and `attempt_patch` returns -9 if and only if the
pattern is not there. -/
theorem pattern_acceptance (w : World Chip) (hb : ∀ x, w.dev.eeprom x < 256) (cap : Nat)
    (hr : Recognised w.dev.eeprom cap) (h5 : 5 ≤ word w.dev.eeprom 2)
    (hle : word w.dev.eeprom 2 + 0x38 + audio_format_patch.length ≤ cap) :
    ((∃ v, (attempt_patch_validate faithful w).1 = Sum.inr v) ↔
      (w.dev.eeprom 0x30 = 0x90 ∧ w.dev.eeprom 0x33 = 0xEF ∧ w.dev.eeprom 0x34 = 0xF0)) ∧
    (∀ v, (attempt_patch_validate faithful w).1 = Sum.inr v →
      v.op = w.dev.eeprom 0x31 * 256 + w.dev.eeprom 0x32) ∧
    ((attempt_patch faithful w).1 = -9 ↔
      ¬ (w.dev.eeprom 0x30 = 0x90 ∧ w.dev.eeprom 0x33 = 0xEF ∧ w.dev.eeprom 0x34 = 0xF0)) := by
  have hlen : audio_format_patch.length = 25 := rfl
  rw [hlen] at hle
  obtain ⟨w1, h1, -⟩ := attempt_patch_validate_faithful w hb
  obtain ⟨w2, h2, -⟩ := attempt_patch_faithful w hb
  rw [h1, h2]
  by_cases hp : PatternOK w.dev.eeprom
  · have hv := validate_image_of_valid _ cap hr h5 (by omega) hp
    rw [hv]
    refine ⟨⟨fun _ => hp, fun _ => ⟨_, rfl⟩⟩, fun v hv' => ?_, ⟨fun h => ?_, fun h => ?_⟩⟩
    · cases hv'; rfl
    · simp at h
    · exact absurd hp h
  · have hv := validate_image_of_mismatch _ cap hr h5 (by omega) hp
    rw [hv]
    refine ⟨⟨fun h => ?_, fun h => absurd h hp⟩, fun v hv' => ?_, ⟨fun _ => hp, fun _ => rfl⟩⟩
    · obtain ⟨v, hv'⟩ := h
      cases hv'
    · cases hv'

/-- C8 exercised on the sample image, whose code starts `90 12 34 EF F0`: the
validation hands over, and the relocation target is `0x1234`. -/
theorem pattern_acceptance_witness :
    (attempt_patch_validate faithful (start sample_image)).1
      = Sum.inr (validated_of sample_image) ∧
    (validated_of sample_image).op = 0x12 * 256 + 0x34 :=
  ⟨by decide,
   (pattern_acceptance (start sample_image) sample_image_lt 0x800
      (Or.inl ⟨by decide, rfl⟩) (by decide) (by decide)).2.1 (validated_of sample_image)
      (by decide)⟩

/-- C9 as stated fails: `swapped_image`, valid but for its code block starting
`EF 90 12 34 F0`, is rejected with -9 at the pattern check. -/
theorem pattern_witness_counterexample :
    Recognised swapped_image 0x800 ∧ word swapped_image 2 = 5 ∧
    swapped_image 0x30 = 0xEF ∧ swapped_image 0x31 = 0x90 ∧ swapped_image 0x32 = 0x12 ∧
    swapped_image 0x33 = 0x34 ∧ swapped_image 0x34 = 0xF0 ∧
    (attempt_patch_validate faithful (start swapped_image)).1 = Sum.inl (-9) ∧
    (attempt_patch faithful (start swapped_image)).1 = -9 :=
  ⟨Or.inl ⟨by decide, rfl⟩, by decide, by decide, by decide, by decide, by decide, by decide,
   by decide, by decide⟩

/-- C9, as the code has it: on the faithful chip, an image of bytes with a
recognised signature that passes the size checks and whose code block starts
`90 12 34 EF F0` passes the pattern check, and the relocation target handed
over is `0x1234`. -/
theorem pattern_witness (w : World Chip) (hb : ∀ x, w.dev.eeprom x < 256) (cap : Nat)
    (hr : Recognised w.dev.eeprom cap) (h5 : 5 ≤ word w.dev.eeprom 2)
    (hle : word w.dev.eeprom 2 + 0x38 + audio_format_patch.length ≤ cap)
    (h30 : w.dev.eeprom 0x30 = 0x90) (h31 : w.dev.eeprom 0x31 = 0x12)
    (h32 : w.dev.eeprom 0x32 = 0x34) (h33 : w.dev.eeprom 0x33 = 0xEF)
    (h34 : w.dev.eeprom 0x34 = 0xF0) :
    (∃ v, (attempt_patch_validate faithful w).1 = Sum.inr v ∧ v.op = 0x1234) ∧
    (attempt_patch faithful w).1 = 0 := by
  have hlen : audio_format_patch.length = 25 := rfl
  rw [hlen] at hle
  obtain ⟨w1, h1, -⟩ := attempt_patch_validate_faithful w hb
  obtain ⟨w2, h2, -⟩ := attempt_patch_faithful w hb
  have hv := validate_image_of_valid _ cap hr h5 (by omega) ⟨h30, h33, h34⟩
  rw [h1, h2, hv]
  refine ⟨⟨_, rfl, ?_⟩, rfl⟩
  show w.dev.eeprom 0x31 * 256 + w.dev.eeprom 0x32 = 0x1234
  rw [h31, h32]

/-- C9 exercised on the minimal image, whose code is `90 12 34 EF F0`. -/
theorem pattern_witness_witness :
    (∃ v, (attempt_patch_validate faithful (start small_image)).1 = Sum.inr v ∧ v.op = 0x1234) ∧
    (attempt_patch faithful (start small_image)).1 = 0 :=
  pattern_witness (start small_image) small_image_lt 0x800 (Or.inl ⟨by decide, rfl⟩)
    (by decide) (by decide) (by decide) (by decide) (by decide) (by decide) (by decide)

/-- The generic mismatch: when the first code byte is
neither `0x90` nor `0x12`, the run returns -9 and the last line it prints is
"Unexpected bytestream, don't know how to patch this". -/
theorem generic_mismatch_diagnostic (w : World Chip) (hb : ∀ x, w.dev.eeprom x < 256)
    (cap : Nat) (hr : Recognised w.dev.eeprom cap) (h5 : 5 ≤ word w.dev.eeprom 2)
    (hle : word w.dev.eeprom 2 + 0x38 + audio_format_patch.length ≤ cap)
    (h90 : w.dev.eeprom 0x30 ≠ 0x90) (h12 : w.dev.eeprom 0x30 ≠ 0x12) :
    (attempt_patch faithful w).1 = -9 ∧
    (attempt_patch faithful w).2.trace.getLast? =
      some (Event.stderr Msg.unexpected_bytestream) := by
  have hlen : audio_format_patch.length = 25 := rfl
  rw [hlen] at hle
  have hp : ¬ PatternOK w.dev.eeprom := fun h => h90 h.1
  have hv := validate_image_of_mismatch _ cap hr h5 (by omega) hp
  obtain ⟨w2, h2, -, -, -, ht⟩ := attempt_patch_faithful w hb
  rw [h2, hv]
  refine ⟨rfl, ?_⟩
  rw [ht hv, if_neg (fun h => h12 h.1)]

/-- C10 as stated fails: `lcall_image` has a recognised signature, a `code_size`
that passes the size checks, both checksums correct and a code block that
begins with the marker byte `0x12` (`12 CC 10 00 F0`); the run returns -9
without a write, but the line "This device may have already been patched." is
not printed: the last line is the generic "Unexpected bytestream, don't know
how to patch this", because line 419 also wants `0xEF` at `0x33`. -/
theorem already_patched_counterexample :
    Recognised lcall_image 0x800 ∧ 5 ≤ word lcall_image 2 ∧
    word lcall_image 2 + 0x38 + audio_format_patch.length ≤ 0x800 ∧
    lcall_image 0x30 = 0x12 ∧
    word lcall_image 0x35 = sumBytes lcall_image 2 0x2E % 65536 ∧
    word lcall_image 0x37 = sumBytes lcall_image 0x30 5 % 65536 ∧
    (attempt_patch faithful (start lcall_image)).1 = -9 ∧
    Event.stderr Msg.may_have_been_patched ∉
      issued (start lcall_image) (attempt_patch faithful (start lcall_image)).2 ∧
    (attempt_patch faithful (start lcall_image)).2.trace.getLast? =
      some (Event.stderr Msg.unexpected_bytestream) :=
  ⟨Or.inl ⟨by decide, rfl⟩, by decide, by decide, by decide, by decide, by decide, by decide,
    by decide, by decide⟩

/-- C10, as the code has it. Already-patched diagnostic: on the faithful chip,
for an image of bytes with a recognised signature that passes the size checks
and whose code block starts with `0x12` where `0x90` is expected,
`attempt_patch` returns -9, issues no write-EEPROM command and leaves the
content unchanged; the last line it prints is "This device may have already
been patched." if and only if the fourth code byte, at `0x33`, is `0xEF` as in
a valid image, and otherwise it is the generic "Unexpected bytestream, don't
know how to patch this"; and for every such image `u` whose first code byte is
neither `0x90` nor `0x12` the run, with the same exit code -9, ends on that
generic line. -/
theorem already_patched_diagnostic (w : World Chip) (hb : ∀ x, w.dev.eeprom x < 256)
    (cap : Nat) (hr : Recognised w.dev.eeprom cap) (h5 : 5 ≤ word w.dev.eeprom 2)
    (hle : word w.dev.eeprom 2 + 0x38 + audio_format_patch.length ≤ cap)
    (h30 : w.dev.eeprom 0x30 = 0x12) :
    (attempt_patch faithful w).1 = -9 ∧
    (∀ e ∈ issued w (attempt_patch faithful w).2, ∀ rep, e = Event.SetFeature rep →
      rep.cmd ≠ 0xE6) ∧
    (attempt_patch faithful w).2.dev.eeprom = w.dev.eeprom ∧
    ((attempt_patch faithful w).2.trace.getLast? =
        some (Event.stderr Msg.may_have_been_patched) ↔ w.dev.eeprom 0x33 = 0xEF) ∧
    (w.dev.eeprom 0x33 ≠ 0xEF →
      (attempt_patch faithful w).2.trace.getLast? =
        some (Event.stderr Msg.unexpected_bytestream)) ∧
    (∀ (u : World Chip) (ucap : Nat), (∀ x, u.dev.eeprom x < 256) →
      Recognised u.dev.eeprom ucap → 5 ≤ word u.dev.eeprom 2 →
      word u.dev.eeprom 2 + 0x38 + audio_format_patch.length ≤ ucap →
      u.dev.eeprom 0x30 ≠ 0x90 → u.dev.eeprom 0x30 ≠ 0x12 →
      (attempt_patch faithful u).1 = -9 ∧
      (attempt_patch faithful u).2.trace.getLast? =
        some (Event.stderr Msg.unexpected_bytestream)) := by
  have hlen : audio_format_patch.length = 25 := rfl
  have hp : ¬ PatternOK w.dev.eeprom := by
    intro h
    have := h.1
    omega
  have hv := validate_image_of_mismatch _ cap hr h5 (by rw [hlen] at hle; omega) hp
  obtain ⟨w2, h2, -, -, -, ht⟩ := attempt_patch_faithful w hb
  obtain ⟨r1, r2, r3⟩ := attempt_patch_rejected w hb _ hv
  refine ⟨r1, r2, r3, ?_, ?_, fun u ucap ub ur u5 ule u90 u12 =>
    generic_mismatch_diagnostic u ub ucap ur u5 ule u90 u12⟩
  · rw [h2, ht hv]
    by_cases h33 : w.dev.eeprom 0x33 = 0xEF
    · rw [if_pos ⟨h30, h33⟩]
      exact ⟨fun _ => h33, fun _ => rfl⟩
    · rw [if_neg (fun h => h33 h.2)]
      exact ⟨fun h => (by cases h), fun h => absurd h h33⟩
  · intro h33
    rw [h2, ht hv, if_neg (fun h => h33 h.2)]

theorem marked_image_lt : ∀ x, marked_image x < 256 :=
  image_of_lt _ (by decide)

theorem lcall_image_lt : ∀ x, lcall_image x < 256 :=
  image_of_lt _ (by decide)

/-- C10 exercised on `marked_image`, whose code block starts `12 CC 10 EF F0`,
and on `lcall_image`, whose code block starts `12 CC 10 00 F0`. -/
theorem already_patched_diagnostic_witness :
    (attempt_patch faithful (start marked_image)).1 = -9 ∧
    (attempt_patch faithful (start marked_image)).2.trace.getLast? =
      some (Event.stderr Msg.may_have_been_patched) ∧
    (attempt_patch faithful (start lcall_image)).2.trace.getLast? =
      some (Event.stderr Msg.unexpected_bytestream) :=
  ⟨(already_patched_diagnostic (start marked_image) marked_image_lt 0x800
      (Or.inl ⟨by decide, rfl⟩) (by decide) (by decide) (by decide)).1,
   (already_patched_diagnostic (start marked_image) marked_image_lt 0x800
      (Or.inl ⟨by decide, rfl⟩) (by decide) (by decide) (by decide)).2.2.2.1.2 (by decide),
   (already_patched_diagnostic (start lcall_image) lcall_image_lt 0x800
      (Or.inl ⟨by decide, rfl⟩) (by decide) (by decide) (by decide)).2.2.2.2.1 (by decide)⟩

/-! ## Commands handed to the transport -/

theorem Only.only_refl (P : feature_report → Prop) (w : World σ) : Only P w w :=
  ⟨[], by simp⟩

theorem Only.only_trans {P : feature_report → Prop} {w w1 w2 : World σ} (h1 : Only P w w1)
    (h2 : Only P w1 w2) : Only P w w2 := by
  obtain ⟨l1, e1, p1⟩ := h1
  obtain ⟨l2, e2, p2⟩ := h2
  refine ⟨l1 ++ l2, by rw [e2, e1, List.append_assoc], ?_⟩
  intro e he
  rcases List.mem_append.1 he with h | h
  · exact p1 e h
  · exact p2 e h

theorem Only.only_mono {P Q : feature_report → Prop} {w w' : World σ} (h : Only P w w')
    (hPQ : ∀ rep, P rep → Q rep) : Only Q w w' := by
  obtain ⟨l, e, p⟩ := h
  exact ⟨l, e, fun ev hev rep hrep => hPQ rep (p ev hev rep hrep)⟩

theorem Only.only_issued {P : feature_report → Prop} {w w' : World σ} (h : Only P w w') :
    ∀ e ∈ issued w w', ∀ rep, (e = Event.SetFeature rep ∨ e = Event.GetFeature rep) → P rep := by
  obtain ⟨l, e, p⟩ := h
  have : issued w w' = l := by simp [issued, e]
  rw [this]; exact p

theorem only_fprintf (P : feature_report → Prop) (m : Msg) (w : World σ) :
    Only P w (fprintf m w) :=
  ⟨[Event.stderr m], rfl, by
    intro e he rep hrep
    simp at he; subst he
    rcases hrep with h | h <;> cases h⟩

theorem only_set (P : feature_report → Prop) (d : Device σ) (rep : feature_report) (w : World σ)
    (h : P rep) : Only P w (HidD_SetFeature d rep w).2 :=
  ⟨[Event.SetFeature rep], rfl, by
    intro e he r hr
    simp at he; subst he
    rcases hr with hr | hr
    · cases hr; exact h
    · cases hr⟩

theorem only_get (P : feature_report → Prop) (d : Device σ) (rep : feature_report) (w : World σ)
    (h : P rep) : Only P w (HidD_GetFeature d rep w).2 :=
  ⟨[Event.GetFeature rep], rfl, by
    intro e he r hr
    simp at he; subst he
    rcases hr with hr | hr
    · cases hr
    · cases hr; exact h⟩

theorem read_eeprom_only (P : feature_report → Prop) (d : Device σ) (sz a : Nat) (w : World σ)
    (hP : P (read_eeprom_report w.max_eeprom_address a)) :
    Only P w (read_eeprom d sz a w).2 := by
  unfold read_eeprom
  split
  · exact Only.only_refl P w
  · have hs := only_set P d (read_eeprom_report w.max_eeprom_address a) w hP
    dsimp only
    rcases h : HidD_SetFeature d (read_eeprom_report w.max_eeprom_address a) w with ⟨_ | _, w1⟩
    · rw [h] at hs; exact hs.only_trans (only_fprintf P _ _)
    · rw [h] at hs
      have hg := only_get P d (read_eeprom_report w.max_eeprom_address a) w1 hP
      rcases h2 : HidD_GetFeature d (read_eeprom_report w.max_eeprom_address a) w1 with ⟨_ | r, w2⟩
      · rw [h2] at hg; simp only [h2]; exact hs.only_trans (hg.only_trans (only_fprintf P _ _))
      · rw [h2] at hg; simp only [h2]; exact hs.only_trans hg

theorem read_xdata_byte_only (P : feature_report → Prop) (d : Device σ) (a : Nat) (w : World σ)
    (hP : P (read_xdata_report a)) :
    Only P w (read_xdata_byte d a w).2 := by
  unfold read_xdata_byte
  have hs := only_set P d (read_xdata_report a) w hP
  dsimp only
  rcases h : HidD_SetFeature d (read_xdata_report a) w with ⟨_ | _, w1⟩
  · rw [h] at hs; exact hs.only_trans (only_fprintf P _ _)
  · rw [h] at hs
    have hg := only_get P d (read_xdata_report a) w1 hP
    rcases h2 : HidD_GetFeature d (read_xdata_report a) w1 with ⟨_ | r, w2⟩
    · rw [h2] at hg; simp only [h2]; exact hs.only_trans (hg.only_trans (only_fprintf P _ _))
    · rw [h2] at hg; simp only [h2]; exact hs.only_trans hg

theorem write_xdata_byte_only (P : feature_report → Prop) (d : Device σ) (a v : Nat)
    (w : World σ) (hP : P (write_xdata_report a v)) :
    Only P w (write_xdata_byte d a v w).2 := by
  unfold write_xdata_byte
  have hs := only_set P d (write_xdata_report a v) w hP
  rcases h : HidD_SetFeature d (write_xdata_report a v) w with ⟨_ | _, w1⟩
  · rw [h] at hs; exact hs.only_trans (only_fprintf P _ _)
  · rw [h] at hs; exact hs

theorem read_eeprom_max (d : Device σ) (sz a : Nat) (w : World σ) :
    (read_eeprom d sz a w).2.max_eeprom_address = w.max_eeprom_address :=
  (read_eeprom_step (fun _ => True) d sz a w).1

theorem write_eeprom_byte_only (P : feature_report → Prop) (d : Device σ) (a v : Nat)
    (w : World σ) (hW : P (write_eeprom_report w.max_eeprom_address a v))
    (hR : P (read_eeprom_report w.max_eeprom_address a)) :
    Only P w (write_eeprom_byte d a v w).2 := by
  unfold write_eeprom_byte
  split
  · exact Only.only_refl _ w
  · have hs := only_set P d (write_eeprom_report w.max_eeprom_address a v) w hW
    have hm : (HidD_SetFeature d (write_eeprom_report w.max_eeprom_address a v) w).2.max_eeprom_address
        = w.max_eeprom_address := rfl
    rcases h : HidD_SetFeature d (write_eeprom_report w.max_eeprom_address a v) w with ⟨_ | _, w1⟩
    · rw [h] at hs; exact hs.only_trans (only_fprintf _ _ _)
    · rw [h] at hs hm
      have hr := read_eeprom_only P d 1 a w1 (by rw [hm]; exact hR)
      unfold read_eeprom_byte
      rcases h2 : read_eeprom d 1 a w1 with ⟨_ | b, w2⟩
      · rw [h2] at hr; simp only [h2]; exact hs.only_trans hr
      · rw [h2] at hr; simp only [h2]
        split
        · exact hs.only_trans (hr.only_trans (only_fprintf _ _ _))
        · exact hs.only_trans hr

/-! ## C12: write verification -/

/-- C12. Write verification: for every device, byte `v` and address `a` below
the capacity, `write_eeprom_byte a v` returns success exactly when the write
frame was accepted by `HidD_SetFeature` and the `read_eeprom_byte a` made in
the state right after it succeeded and returned `v`; so if the read fails or
reads back another byte, the result is failure. -/
theorem write_verification (d : Device σ) (a v : Nat) (w : World σ)
    (ha : a < w.max_eeprom_address) :
    ((write_eeprom_byte d a v w).1 = true ↔
      (HidD_SetFeature d (write_eeprom_report w.max_eeprom_address a v) w).1 = true ∧
      (read_eeprom_byte d a
        (HidD_SetFeature d (write_eeprom_report w.max_eeprom_address a v) w).2).1 = some v) ∧
    (∀ b, (read_eeprom_byte d a
        (HidD_SetFeature d (write_eeprom_report w.max_eeprom_address a v) w).2).1 = b →
      b ≠ some v → (write_eeprom_byte d a v w).1 = false) := by
  have key : (write_eeprom_byte d a v w).1 = true ↔
      (HidD_SetFeature d (write_eeprom_report w.max_eeprom_address a v) w).1 = true ∧
      (read_eeprom_byte d a
        (HidD_SetFeature d (write_eeprom_report w.max_eeprom_address a v) w).2).1 = some v := by
    unfold write_eeprom_byte
    rw [if_neg (by omega)]
    rcases h : HidD_SetFeature d (write_eeprom_report w.max_eeprom_address a v) w with ⟨_ | _, w1⟩
    · simp
    · rcases h2 : read_eeprom_byte d a w1 with ⟨_ | b, w2⟩
      · simp [h2]
      · by_cases hb : b = v
        · simp [h2, hb]
        · simp [h2, hb]
  refine ⟨key, ?_⟩
  intro b hb hne
  cases hres : (write_eeprom_byte d a v w).1
  · rfl
  · exact absurd (hb.symm.trans (key.1 hres).2) hne

theorem write_verification_witness :
    0x40 < (start small_image).max_eeprom_address ∧
    (write_eeprom_byte faithful 0x40 0x55 (start small_image)).1 = true ∧
    (write_eeprom_byte write_protected 0x40 0x55 (start small_image)).1 = false :=
  ⟨by decide,
   ((write_verification faithful 0x40 0x55 (start small_image) (by decide)).1).2
     ⟨by decide, by decide⟩,
   (write_verification write_protected 0x40 0x55 (start small_image) (by decide)).2
     (some 0) (by decide) (by decide)⟩

/-! ## C13: capacity check -/

/-- C13. Capacity check: for every device and every address `a` at or above
`max_eeprom_address`, `read_eeprom` of width 1, 2 and 4, `write_eeprom_byte` and
`write_eeprom_word` return failure and leave the whole state, the trace of
transport calls included, as it was: no set-feature or get-feature call is made. -/
theorem capacity_check (d : Device σ) (a v : Nat) (w : World σ)
    (ha : w.max_eeprom_address ≤ a) :
    read_eeprom_byte d a w = (none, w) ∧ read_eeprom_word d a w = (none, w) ∧
    read_eeprom_dword d a w = (none, w) ∧ write_eeprom_byte d a v w = (false, w) ∧
    write_eeprom_word d a v w = (false, w) ∧
    issued w (read_eeprom_byte d a w).2 = [] ∧ issued w (read_eeprom_word d a w).2 = [] ∧
    issued w (read_eeprom_dword d a w).2 = [] ∧ issued w (write_eeprom_byte d a v w).2 = [] ∧
    issued w (write_eeprom_word d a v w).2 = [] := by
  have hr : ∀ sz, read_eeprom d sz a w = (none, w) := fun sz => by
    unfold read_eeprom; rw [if_pos ha]
  have hw : ∀ x, write_eeprom_byte d a x w = (false, w) := fun x => by
    unfold write_eeprom_byte; rw [if_pos ha]
  have hww : write_eeprom_word d a v w = (false, w) := by
    unfold write_eeprom_word; rw [hw]
  have hi : issued w w = [] := by simp [issued]
  refine ⟨hr 1, hr 2, hr 4, hw v, hww, ?_, ?_, ?_, ?_, ?_⟩
  · rw [read_eeprom_byte, hr]; exact hi
  · rw [read_eeprom_word, hr]; exact hi
  · rw [read_eeprom_dword, hr]; exact hi
  · rw [hw]; exact hi
  · rw [hww]; exact hi

theorem capacity_check_witness :
    write_eeprom_word faithful 0x800 0x1234 (start small_image) = (false, start small_image) ∧
    issued (start small_image) (read_eeprom_dword faithful 0x800 (start small_image)).2 = [] :=
  ⟨(capacity_check faithful 0x800 0x1234 (start small_image) (by decide)).2.2.2.2.1,
   (capacity_check faithful 0x800 0x1234 (start small_image) (by decide)).2.2.2.2.2.2.2.1⟩

/-! ## The sequence of write-EEPROM commands -/

theorem eeprom_writes_append (l1 l2 : List Event) :
    eeprom_writes (l1 ++ l2) = eeprom_writes l1 ++ eeprom_writes l2 := by
  induction l1 with
  | nil => rfl
  | cons e l ih =>
    cases e with
    | SetFeature rep =>
      by_cases h : rep.cmd = 0xE6
      · simp [eeprom_writes, h, ih]
      · simp [eeprom_writes, h, ih]
    | GetFeature rep => simpa [eeprom_writes] using ih
    | stderr m => simpa [eeprom_writes] using ih

theorem Wrote.wrote_refl (w : World σ) : Wrote [] w w := ⟨[], by simp, rfl⟩

theorem Wrote.wrote_trans {L1 L2 : List (Nat × Nat)} {w w1 w2 : World σ} (h1 : Wrote L1 w w1)
    (h2 : Wrote L2 w1 w2) : Wrote (L1 ++ L2) w w2 := by
  obtain ⟨l1, e1, p1⟩ := h1
  obtain ⟨l2, e2, p2⟩ := h2
  exact ⟨l1 ++ l2, by rw [e2, e1, List.append_assoc], by rw [eeprom_writes_append, p1, p2]⟩

theorem Wrote.wrote_issued {L : List (Nat × Nat)} {w w' : World σ} (h : Wrote L w w') :
    eeprom_writes (issued w w') = L := by
  obtain ⟨l, e, p⟩ := h
  have : issued w w' = l := by simp [issued, e]
  rw [this]; exact p

/-- Events without a write-EEPROM command contribute nothing to the sequence. -/
theorem wrote_of_ext {w w' : World σ} (h : Ext (fun _ => False) w w') : Wrote [] w w' := by
  obtain ⟨l, e, p⟩ := h
  refine ⟨l, e, ?_⟩
  clear e
  induction l with
  | nil => rfl
  | cons ev l ih =>
    have ih := ih (fun e he => p e (List.mem_cons_of_mem _ he))
    cases ev with
    | SetFeature rep =>
      have hc : rep.cmd ≠ 0xE6 := fun hc => p _ (List.mem_cons_self _ _) rep rfl hc
      simp [eeprom_writes, hc, ih]
    | GetFeature rep => simpa [eeprom_writes] using ih
    | stderr m => simpa [eeprom_writes] using ih

theorem wrote_fprintf (m : Msg) (w : World σ) : Wrote [] w (fprintf m w) :=
  wrote_of_ext (step_fprintf _ m w).2

theorem read_eeprom_wrote (d : Device σ) (sz a : Nat) (w : World σ) :
    Wrote [] w (read_eeprom d sz a w).2 :=
  wrote_of_ext (read_eeprom_step _ d sz a w).2

/-- A `write_eeprom_byte` that returns success has issued exactly one
write-EEPROM command, for its address and byte. -/
theorem write_eeprom_byte_wrote (d : Device σ) (a v : Nat) (w : World σ)
    (h : (write_eeprom_byte d a v w).1 = true) :
    Wrote [(a % 65536, v % 256)] w (write_eeprom_byte d a v w).2 := by
  unfold write_eeprom_byte at h ⊢
  split at h
  · cases h
  · rename_i hlt
    rw [if_neg hlt]
    have hs : Wrote [(a % 65536, v % 256)] w
        (HidD_SetFeature d (write_eeprom_report w.max_eeprom_address a v) w).2 :=
      ⟨[Event.SetFeature (write_eeprom_report w.max_eeprom_address a v)], rfl, by
        simp only [eeprom_writes, report_address_write]
        simp [write_eeprom_report]⟩
    rcases h1 : HidD_SetFeature d (write_eeprom_report w.max_eeprom_address a v) w with ⟨_ | _, w1⟩
    · rw [h1] at h; cases h
    · rw [h1] at h hs
      simp only at h hs ⊢
      have hr := read_eeprom_wrote d 1 a w1
      unfold read_eeprom_byte at h ⊢
      rcases h2 : read_eeprom d 1 a w1 with ⟨_ | b, w2⟩
      · rw [h2] at h; cases h
      · rw [h2] at h hr; simp only at h ⊢
        split at h
        · cases h
        · rename_i hb
          rw [if_neg hb]
          exact hs.wrote_trans hr

/-- A `write_eeprom_word` that returns success has issued exactly two
write-EEPROM commands: the high byte at the address, then the low byte at the
next address. -/
theorem write_eeprom_word_wrote (d : Device σ) (a v : Nat) (w : World σ)
    (h : (write_eeprom_word d a v w).1 = true) :
    Wrote [(a % 65536, (v >>> 8) % 256), ((a + 1) % 65536, v % 256)] w
      (write_eeprom_word d a v w).2 := by
  unfold write_eeprom_word at h ⊢
  have h1 := write_eeprom_byte_wrote d a ((v >>> 8) % 256) w
  rcases e1 : write_eeprom_byte d a ((v >>> 8) % 256) w with ⟨_ | _, w1⟩
  · rw [e1] at h; cases h
  · rw [e1] at h h1; simp only at h ⊢
    have h2 := write_eeprom_byte_wrote d ((a + 1) % 65536) (v % 256) w1
    rcases e2 : write_eeprom_byte d ((a + 1) % 65536) (v % 256) w1 with ⟨_ | _, w2⟩
    · rw [e2] at h; cases h
    · rw [e2] at h2; simp only
      have := (h1 rfl).wrote_trans (h2 rfl)
      simpa [Nat.mod_mod] using this

/-! ## C15: the wire format of the command frames -/

theorem address_split (a : Nat) (ha : a < 65536) :
    (a >>> 8) % 256 = a >>> 8 ∧ a % 256 = a &&& 0xFF ∧ (a >>> 8) * 256 + (a &&& 0xFF) = a := by
  have h1 : a &&& 0xFF = a % 256 := Nat.and_pow_two_sub_one_eq_mod a 8
  rw [h1, Nat.shiftRight_eq_div_pow]
  omega

/-- C15. Command frame wire format: for every 16-bit address `a`, byte `v` and
capacity `c` in {0x800, 0x1000}, each of the four frames the program builds is
the 9 bytes report id 0, opcode (E5 read EEPROM, E6 write EEPROM, B5 read XDATA,
B6 write XDATA), `a >> 8`, `a & 0xFF`, five payload bytes; write frames carry
`v` in payload byte 0, EEPROM frames carry `c >> 12` (0 for 0x800, 1 for 0x1000)
in payload byte 4, all other payload bytes are zero; the two address bytes
recombine to `a`; and these frames are the only ones the four bus functions
hand to the transport, on any device. -/
theorem frame_wire_format (a v c : Nat) (ha : a < 65536) (hv : v < 256)
    (hc : c = 0x800 ∨ c = 0x1000) :
    (read_eeprom_report c a).bytes = [0, 0xE5, a >>> 8, a &&& 0xFF, 0, 0, 0, 0, c >>> 12] ∧
    (write_eeprom_report c a v).bytes = [0, 0xE6, a >>> 8, a &&& 0xFF, v, 0, 0, 0, c >>> 12] ∧
    (read_xdata_report a).bytes = [0, 0xB5, a >>> 8, a &&& 0xFF, 0, 0, 0, 0, 0] ∧
    (write_xdata_report a v).bytes = [0, 0xB6, a >>> 8, a &&& 0xFF, v, 0, 0, 0, 0] ∧
    (a >>> 8) * 256 + (a &&& 0xFF) = a ∧ a >>> 8 < 256 ∧ a &&& 0xFF < 256 ∧
    (c = 0x800 → c >>> 12 = 0) ∧ (c = 0x1000 → c >>> 12 = 1) ∧
    (∀ (σ : Type) (d : Device σ) (w : World σ) (sz : Nat), w.max_eeprom_address = c →
      Only (fun rep => rep = read_eeprom_report c a) w (read_eeprom d sz a w).2 ∧
      Only (fun rep => rep = write_eeprom_report c a v ∨ rep = read_eeprom_report c a) w
        (write_eeprom_byte d a v w).2 ∧
      Only (fun rep => rep = read_xdata_report a) w (read_xdata_byte d a w).2 ∧
      Only (fun rep => rep = write_xdata_report a v) w (write_xdata_byte d a v w).2) := by
  obtain ⟨h1, h2, h3⟩ := address_split a ha
  have hsel : (c >>> 12) % 256 = c >>> 12 := by
    rcases hc with rfl | rfl <;> decide
  have hv' : v % 256 = v := Nat.mod_eq_of_lt hv
  have hlo : a &&& 0xFF < 256 := by rw [← h2]; omega
  have hhi : a >>> 8 < 256 := by rw [← h1]; omega
  refine ⟨?_, ?_, ?_, ?_, h3, hhi, hlo, ?_, ?_, ?_⟩
  · simp [feature_report.bytes, read_eeprom_report, h1, h2, hsel]
  · simp [feature_report.bytes, write_eeprom_report, h1, h2, hsel, hv']
  · simp [feature_report.bytes, read_xdata_report, h1, h2]
  · simp [feature_report.bytes, write_xdata_report, h1, h2, hv']
  · rintro rfl; decide
  · rintro rfl; decide
  · intro σ d w sz hw
    subst hw
    exact ⟨read_eeprom_only _ d sz a w rfl,
      write_eeprom_byte_only _ d a v w (Or.inl rfl) (Or.inr rfl),
      read_xdata_byte_only _ d a w rfl, write_xdata_byte_only _ d a v w rfl⟩

theorem frame_wire_format_witness :
    (write_eeprom_report 0x1000 0x0123 0xAB).bytes = [0, 0xE6, 1, 0x23, 0xAB, 0, 0, 0, 1] ∧
    (read_xdata_report 0xC4C5).bytes = [0, 0xB5, 0xC4, 0xC5, 0, 0, 0, 0, 0] :=
  ⟨(frame_wire_format 0x0123 0xAB 0x1000 (by decide) (by decide) (Or.inr rfl)).2.1,
   (frame_wire_format 0xC4C5 0 0x800 (by decide) (by decide) (Or.inl rfl)).2.2.1⟩

/-! ## C14: big-endian word round trip -/

/-- C14. Big-endian word round trip: on the faithful chip, for every address
`a` with `a + 1` below the capacity and every 16-bit value `v`,
`write_eeprom_word a v` succeeds, its write-EEPROM commands are exactly the
high byte `v >> 8` to `a` followed by the low byte `v & 0xFF` to `a + 1`, and a
`read_eeprom_word a` made afterwards returns `v`; the value read is decoded
as `data[0] * 256 + data[1]`. -/
theorem word_round_trip (a v : Nat) (w : World Chip) (h : a + 1 < w.max_eeprom_address)
    (hmax : w.max_eeprom_address ≤ 65536) (hv : v < 65536) :
    (write_eeprom_word faithful a v w).1 = true ∧
    eeprom_writes (issued w (write_eeprom_word faithful a v w).2) =
      [(a, v >>> 8), (a + 1, v &&& 0xFF)] ∧
    (read_eeprom_word faithful a (write_eeprom_word faithful a v w).2).1 = some v ∧
    (∀ rep, decode 2 rep = data_byte rep 0 * 256 + data_byte rep 1) := by
  obtain ⟨w', hw, he, -, hm⟩ := faithful_write_eeprom_word a v w h hmax
  obtain ⟨h1, h2, h3⟩ := address_split v hv
  have hok : (write_eeprom_word faithful a v w).1 = true := by rw [hw]
  have hwr := (write_eeprom_word_wrote faithful a v w hok).wrote_issued
  have ha : a % 65536 = a := by omega
  have ha1 : (a + 1) % 65536 = a + 1 := by omega
  rw [ha, ha1, h1, h2] at hwr
  refine ⟨hok, hwr, ?_, decode_two⟩
  rw [hw]
  obtain ⟨w2, hr, -⟩ := faithful_read_eeprom 2 a w' (by omega) (by omega)
  rw [read_eeprom_word, hr, decode_two]
  have e0 := he a
  have e1 := he (a + 1)
  rw [if_neg (by omega), if_pos rfl] at e0
  rw [if_pos rfl] at e1
  simp only [data_byte, List.getD_cons_zero, List.getD_cons_succ, e0, e1, Nat.mod_mod]
  rw [Nat.shiftRight_eq_div_pow]
  have hsplit : v / 2 ^ 8 % 256 * 256 + v % 256 = v := by omega
  rw [hsplit]

theorem word_round_trip_witness :
    (write_eeprom_word faithful 0x7FE 0xBEEF (start small_image)).1 = true ∧
    eeprom_writes (issued (start small_image)
      (write_eeprom_word faithful 0x7FE 0xBEEF (start small_image)).2) =
      [(0x7FE, 0xBE), (0x7FF, 0xEF)] ∧
    (read_eeprom_word faithful 0x7FE
      (write_eeprom_word faithful 0x7FE 0xBEEF (start small_image)).2).1 = some 0xBEEF :=
  ⟨(word_round_trip 0x7FE 0xBEEF (start small_image) (by decide) (by decide) (by norm_num)).1,
   (word_round_trip 0x7FE 0xBEEF (start small_image) (by decide) (by decide) (by norm_num)).2.1,
   (word_round_trip 0x7FE 0xBEEF (start small_image) (by decide) (by decide) (by norm_num)).2.2.1⟩

/-! ## C17, C11: the gates in front of the patch -/

theorem identify_ms2109_only (d : Device σ) (w : World σ) :
    Only (fun rep => rep.cmd = 0xB5) w (identify_ms2109 d w).2 := by
  unfold identify_ms2109
  have h0 := read_xdata_byte_only (fun rep => rep.cmd = 0xB5) d 0xF800 w rfl
  rcases e0 : read_xdata_byte d 0xF800 w with ⟨_ | id0, w1⟩ <;> rw [e0] at h0 <;> simp only
  · exact h0.only_trans (only_fprintf _ _ _)
  have h1 := read_xdata_byte_only (fun rep => rep.cmd = 0xB5) d 0xF801 w1 rfl
  rcases e1 : read_xdata_byte d 0xF801 w1 with ⟨_ | id1, w2⟩ <;> rw [e1] at h1 <;> simp only
  · exact h0.only_trans (h1.only_trans (only_fprintf _ _ _))
  have h2 := read_xdata_byte_only (fun rep => rep.cmd = 0xB5) d 0xF802 w2 rfl
  rcases e2 : read_xdata_byte d 0xF802 w2 with ⟨_ | id2, w3⟩ <;> rw [e2] at h2 <;> simp only
  · exact h0.only_trans (h1.only_trans (h2.only_trans (only_fprintf _ _ _)))
  split
  · exact h0.only_trans (h1.only_trans h2)
  · exact h0.only_trans (h1.only_trans (h2.only_trans (only_fprintf _ _ _)))

theorem identify_ms2109_iff (d : Device σ) (w : World σ) :
    (identify_ms2109 d w).1 = true ↔
      (read_xdata_byte d 0xF800 w).1 = some 0xA7 ∧
      (read_xdata_byte d 0xF801 (read_xdata_byte d 0xF800 w).2).1 = some 0x10 ∧
      (read_xdata_byte d 0xF802
        (read_xdata_byte d 0xF801 (read_xdata_byte d 0xF800 w).2).2).1 = some 0x9A := by
  unfold identify_ms2109
  rcases e0 : read_xdata_byte d 0xF800 w with ⟨_ | id0, w1⟩ <;> simp only
  · simp
  rcases e1 : read_xdata_byte d 0xF801 w1 with ⟨_ | id1, w2⟩ <;> simp only
  · simp
  rcases e2 : read_xdata_byte d 0xF802 w2 with ⟨_ | id2, w3⟩ <;> simp only
  · simp
  split
  · rename_i h; simp [h.1, h.2.1, h.2.2]
  · rename_i h
    simp only [Option.some.injEq]
    exact ⟨fun hf => (by cases hf), fun hid => absurd hid h⟩

theorem has_mono_descriptor_only (d : Device σ) (w : World σ) :
    Only (fun rep => rep.cmd = 0xB5) w (has_mono_descriptor d w).2 := by
  unfold has_mono_descriptor
  have h0 := read_xdata_byte_only (fun rep => rep.cmd = 0xB5) d 0xC4C5 w rfl
  rcases e0 : read_xdata_byte d 0xC4C5 w with ⟨_ | ch, w1⟩ <;> rw [e0] at h0 <;> simp only
  · exact h0.only_trans (only_fprintf _ _ _)
  have h1 := read_xdata_byte_only (fun rep => rep.cmd = 0xB5) d 0xC4C9 w1 rfl
  rcases e1 : read_xdata_byte d 0xC4C9 w1 with ⟨_ | r0, w2⟩ <;> rw [e1] at h1 <;> simp only
  · exact h0.only_trans (h1.only_trans (only_fprintf _ _ _))
  have h2 := read_xdata_byte_only (fun rep => rep.cmd = 0xB5) d 0xC4CA w2 rfl
  rcases e2 : read_xdata_byte d 0xC4CA w2 with ⟨_ | r1, w3⟩ <;> rw [e2] at h2 <;> simp only
  · exact h0.only_trans (h1.only_trans (h2.only_trans (only_fprintf _ _ _)))
  have h3 := read_xdata_byte_only (fun rep => rep.cmd = 0xB5) d 0xC4CB w3 rfl
  rcases e3 : read_xdata_byte d 0xC4CB w3 with ⟨_ | r2, w4⟩ <;> rw [e3] at h3 <;> simp only
  · exact h0.only_trans (h1.only_trans (h2.only_trans (h3.only_trans (only_fprintf _ _ _))))
  have h03 := h0.only_trans (h1.only_trans (h2.only_trans h3))
  split
  · exact h03.only_trans (only_fprintf _ _ _)
  split
  · exact h03.only_trans (only_fprintf _ _ _)
  · exact h03

theorem has_mono_descriptor_iff (d : Device σ) (w : World σ) :
    (has_mono_descriptor d w).1 = true ↔
      (read_xdata_byte d 0xC4C5 w).1 = some 1 ∧
      (read_xdata_byte d 0xC4C9 (read_xdata_byte d 0xC4C5 w).2).1 = some 0x00 ∧
      (read_xdata_byte d 0xC4CA
        (read_xdata_byte d 0xC4C9 (read_xdata_byte d 0xC4C5 w).2).2).1 = some 0x77 ∧
      (read_xdata_byte d 0xC4CB
        (read_xdata_byte d 0xC4CA
          (read_xdata_byte d 0xC4C9 (read_xdata_byte d 0xC4C5 w).2).2).2).1 = some 0x01 := by
  unfold has_mono_descriptor
  rcases e0 : read_xdata_byte d 0xC4C5 w with ⟨_ | ch, w1⟩ <;> simp only
  · simp
  rcases e1 : read_xdata_byte d 0xC4C9 w1 with ⟨_ | r0, w2⟩ <;> simp only
  · simp
  rcases e2 : read_xdata_byte d 0xC4CA w2 with ⟨_ | r1, w3⟩ <;> simp only
  · simp
  rcases e3 : read_xdata_byte d 0xC4CB w3 with ⟨_ | r2, w4⟩ <;> simp only
  · simp
  simp only [Option.some.injEq]
  by_cases hc : ch = 1
  · by_cases hr : r0 = 0x00 ∧ r1 = 0x77 ∧ r2 = 0x01
    · obtain ⟨a, b, c⟩ := hr
      simp [hc, a, b, c]
    · rw [if_neg (by simp [hc]), if_pos (by tauto)]
      simp only [Bool.false_eq_true, false_iff]
      tauto
  · rw [if_pos hc]
    simp only [Bool.false_eq_true, false_iff]
    tauto

/-- What `main` returns once the device was found, in terms of the part after
`find_device`. -/
theorem main_of_found (d : Device σ) (h : Host) (w : World σ) (hf : h.found = true)
    (ret : Int) (w' : World σ) (hret : ret ≠ 0)
    (hm : main_ret d (fprintf Msg.found_device (fprintf Msg.searching_for_device w)) = (ret, w')) :
    main d h w = (ret, w') := by
  unfold main
  simp only [hf, Bool.true_eq_false, if_false, hm, hret, false_and]

theorem only_not_eeprom {w w' : World σ} (h : Only (fun rep => rep.cmd = 0xB5) w w') :
    ∀ e ∈ issued w w', ∀ rep, (e = Event.SetFeature rep ∨ e = Event.GetFeature rep) →
      rep.cmd ≠ 0xE5 ∧ rep.cmd ≠ 0xE6 ∧ rep.cmd ≠ 0xB6 := by
  intro e he rep hrep
  have := h.only_issued e he rep hrep
  simp only at this
  rw [this]
  decide

/-- C17. Chip identity gate: on any device, `identify_ms2109` returns success
if and only if the reads of XDATA `0xF800`, `0xF801`, `0xF802`, made one after
the other, succeed and return `A7`, `10`, `9A`; and when it fails in a run that
found the device, `main` returns -200 and every report it handed to the
transport is a read-XDATA one: no EEPROM command (E5, E6) and no XDATA write
(B6) was issued. -/
theorem chip_identity_gate (d : Device σ) (h : Host) (w : World σ) (hf : h.found = true) :
    ((identify_ms2109 d w).1 = true ↔
      (read_xdata_byte d 0xF800 w).1 = some 0xA7 ∧
      (read_xdata_byte d 0xF801 (read_xdata_byte d 0xF800 w).2).1 = some 0x10 ∧
      (read_xdata_byte d 0xF802
        (read_xdata_byte d 0xF801 (read_xdata_byte d 0xF800 w).2).2).1 = some 0x9A) ∧
    ((identify_ms2109 d
        (fprintf Msg.found_device (fprintf Msg.searching_for_device w))).1 = false →
      (main d h w).1 = -200 ∧
      ∀ e ∈ issued w (main d h w).2, ∀ rep,
        (e = Event.SetFeature rep ∨ e = Event.GetFeature rep) →
        rep.cmd ≠ 0xE5 ∧ rep.cmd ≠ 0xE6 ∧ rep.cmd ≠ 0xB6) := by
  refine ⟨identify_ms2109_iff d w, fun hid => ?_⟩
  have ho := identify_ms2109_only d (fprintf Msg.found_device (fprintf Msg.searching_for_device w))
  have hm : main_ret d (fprintf Msg.found_device (fprintf Msg.searching_for_device w)) =
      (-200, fprintf Msg.could_not_confirm_chip (identify_ms2109 d
        (fprintf Msg.found_device (fprintf Msg.searching_for_device w))).2) := by
    unfold main_ret
    rcases e : identify_ms2109 d (fprintf Msg.found_device (fprintf Msg.searching_for_device w))
      with ⟨_ | _, w1⟩
    · rfl
    · rw [e] at hid; cases hid
  rw [main_of_found d h w hf _ _ (by decide) hm]
  refine ⟨rfl, only_not_eeprom ?_⟩
  exact (only_fprintf _ _ _).only_trans ((only_fprintf _ _ _).only_trans
    (ho.only_trans (only_fprintf _ _ _)))

theorem chip_identity_gate_witness :
    (identify_ms2109 faithful (chip_world small_image mono_xdata)).1 = true ∧
    (main faithful host_ok (start small_image)).1 = -200 :=
  ⟨(chip_identity_gate faithful host_ok (chip_world small_image mono_xdata) rfl).1.2
     ⟨by decide, by decide, by decide⟩,
   ((chip_identity_gate faithful host_ok (start small_image) rfl).2 (by decide)).1⟩

/-- C11. Re-run guard: on any device and whatever the EEPROM holds, when the
device was found and chip identification succeeds but the reads of XDATA
`0xC4C5`, `0xC4C9`, `0xC4CA`, `0xC4CB` do not give one channel and the rate
bytes `00 77 01` (in particular when they give 2 and `80 BB 00`),
`has_mono_descriptor` returns false, `main` returns -300, and every report it
handed to the transport is a read-XDATA one: no EEPROM read or write command
and no XDATA write was issued. -/
theorem rerun_guard (d : Device σ) (h : Host) (w : World σ) (hf : h.found = true)
    (hid : (identify_ms2109 d
      (fprintf Msg.found_device (fprintf Msg.searching_for_device w))).1 = true)
    (w1 : World σ)
    (hw1 : w1 = (identify_ms2109 d
      (fprintf Msg.found_device (fprintf Msg.searching_for_device w))).2)
    (hno : ¬ ((read_xdata_byte d 0xC4C5 w1).1 = some 1 ∧
      (read_xdata_byte d 0xC4C9 (read_xdata_byte d 0xC4C5 w1).2).1 = some 0x00 ∧
      (read_xdata_byte d 0xC4CA
        (read_xdata_byte d 0xC4C9 (read_xdata_byte d 0xC4C5 w1).2).2).1 = some 0x77 ∧
      (read_xdata_byte d 0xC4CB
        (read_xdata_byte d 0xC4CA
          (read_xdata_byte d 0xC4C9 (read_xdata_byte d 0xC4C5 w1).2).2).2).1 = some 0x01)) :
    (has_mono_descriptor d w1).1 = false ∧ (main d h w).1 = -300 ∧
    ∀ e ∈ issued w (main d h w).2, ∀ rep,
      (e = Event.SetFeature rep ∨ e = Event.GetFeature rep) →
      rep.cmd ≠ 0xE5 ∧ rep.cmd ≠ 0xE6 ∧ rep.cmd ≠ 0xB6 := by
  have hmono : (has_mono_descriptor d w1).1 = false := by
    cases hres : (has_mono_descriptor d w1).1
    · rfl
    · exact absurd ((has_mono_descriptor_iff d w1).1 hres) hno
  have ho := identify_ms2109_only d (fprintf Msg.found_device (fprintf Msg.searching_for_device w))
  have hd := has_mono_descriptor_only d w1
  rw [← hw1] at ho
  have hm : main_ret d (fprintf Msg.found_device (fprintf Msg.searching_for_device w)) =
      (-300, fprintf Msg.could_not_find_mono (has_mono_descriptor d w1).2) := by
    unfold main_ret
    rcases e : identify_ms2109 d (fprintf Msg.found_device (fprintf Msg.searching_for_device w))
      with ⟨_ | _, w2⟩
    · rw [e] at hid; cases hid
    · rw [e] at hw1; simp only at hw1 ⊢; subst hw1
      rcases e2 : has_mono_descriptor d w1 with ⟨_ | _, w3⟩
      · rfl
      · rw [e2] at hmono; cases hmono
  rw [main_of_found d h w hf _ _ (by decide) hm]
  refine ⟨hmono, rfl, only_not_eeprom ?_⟩
  exact (only_fprintf _ _ _).only_trans ((only_fprintf _ _ _).only_trans
    (ho.only_trans (hd.only_trans (only_fprintf _ _ _))))

theorem rerun_guard_witness :
    (read_xdata_byte faithful 0xC4C5
      (identify_ms2109 faithful (fprintf Msg.found_device (fprintf Msg.searching_for_device
        (chip_world small_image stereo_xdata)))).2).1 = some 2 ∧
    (main faithful host_ok (chip_world small_image stereo_xdata)).1 = -300 ∧
    (main faithful host_ok (chip_world small_image mono_xdata)).1 = 0 :=
  ⟨by decide,
   (rerun_guard faithful host_ok (chip_world small_image stereo_xdata) rfl (by decide) _ rfl
     (by decide)).2.1,
   by decide⟩

/-! ## C16: EEPROM identification -/

/-- The shape of `identify_eeprom`: after the look at the XDATA mirror, which
leaves a world `w1`, it is decided by up to three signature reads. -/
theorem identify_eeprom_reads (d : Device σ) (w : World σ) :
    ∃ w1 : World σ,
      identify_eeprom d w =
        if ((read_eeprom_word d 0 w1).1 = some 0xA55A ∧ w1.max_eeprom_address = 0x800)
            ∨ ((read_eeprom_word d 0 w1).1 = some 0x9669 ∧ w1.max_eeprom_address = 0x1000) then
          (true, (read_eeprom_word d 0 w1).2)
        else if (read_eeprom_word d 0
            (set_max_eeprom_address 0x800 (read_eeprom_word d 0 w1).2)).1 = some 0xA55A then
          (true, (read_eeprom_word d 0
            (set_max_eeprom_address 0x800 (read_eeprom_word d 0 w1).2)).2)
        else if (read_eeprom_word d 0 (set_max_eeprom_address 0x1000 (read_eeprom_word d 0
            (set_max_eeprom_address 0x800 (read_eeprom_word d 0 w1).2)).2)).1 = some 0x9669 then
          (true, (read_eeprom_word d 0 (set_max_eeprom_address 0x1000 (read_eeprom_word d 0
            (set_max_eeprom_address 0x800 (read_eeprom_word d 0 w1).2)).2)).2)
        else
          (false, fprintf Msg.failed_recognize_signature
            (read_eeprom_word d 0 (set_max_eeprom_address 0x1000 (read_eeprom_word d 0
              (set_max_eeprom_address 0x800 (read_eeprom_word d 0 w1).2)).2)).2) := by
  unfold identify_eeprom
  dsimp only
  generalize (if (read_xdata_word d 0xCBD0 w).1 = some 0xA55A then
      set_max_eeprom_address 0x800 (read_xdata_word d 0xCBD0 w).2
    else if (read_xdata_word d 0xCBD0 w).1 = some 0x9669 then
      set_max_eeprom_address 0x1000 (read_xdata_word d 0xCBD0 w).2
    else (read_xdata_word d 0xCBD0 w).2) = w1
  refine ⟨w1, ?_⟩
  have hm : (read_eeprom_word d 0 w1).2.max_eeprom_address = w1.max_eeprom_address :=
    read_eeprom_max d 2 0 w1
  rw [hm]

/-- C16. EEPROM identification: on any device, `identify_eeprom` returns
success only in a state that is the result of a read of the signature word at
EEPROM address 0 made under capacity 0x800 and yielding `0xA55A`, or made under
capacity 0x1000 and yielding `0x9669`, and that capacity is the one left in
`max_eeprom_address`; and for a device whose answer to the signature read is
fixed by the capacity in force (`s0` under 0x800, `s1` under 0x1000), it fails
if and only if `s0` is not `0xA55A` and `s1` is not `0x9669`, whatever the read of
the XDATA mirror at `0xCBD0` gives. -/
theorem eeprom_identification (d : Device σ) (w : World σ) :
    ((identify_eeprom d w).1 = true →
      ∃ w0 : World σ, (identify_eeprom d w).2 = (read_eeprom_word d 0 w0).2 ∧
        (identify_eeprom d w).2.max_eeprom_address = w0.max_eeprom_address ∧
        ((w0.max_eeprom_address = 0x800 ∧ (read_eeprom_word d 0 w0).1 = some 0xA55A) ∨
         (w0.max_eeprom_address = 0x1000 ∧ (read_eeprom_word d 0 w0).1 = some 0x9669))) ∧
    (∀ s0 s1 : Option Nat,
      (∀ w0 : World σ, w0.max_eeprom_address = 0x800 → (read_eeprom_word d 0 w0).1 = s0) →
      (∀ w0 : World σ, w0.max_eeprom_address = 0x1000 → (read_eeprom_word d 0 w0).1 = s1) →
      ((identify_eeprom d w).1 = false ↔ s0 ≠ some 0xA55A ∧ s1 ≠ some 0x9669)) := by
  obtain ⟨w1, hid⟩ := identify_eeprom_reads d w
  rw [hid]
  constructor
  · intro hok
    split at hok
    · rename_i hc
      rw [if_pos hc]
      refine ⟨w1, rfl, read_eeprom_max d 2 0 w1, ?_⟩
      rcases hc with hc | hc
      · exact Or.inl ⟨hc.2, hc.1⟩
      · exact Or.inr ⟨hc.2, hc.1⟩
    rename_i hc
    rw [if_neg hc]
    split at hok
    · rename_i hc2
      rw [if_pos hc2]
      exact ⟨_, rfl, read_eeprom_max d 2 0 _, Or.inl ⟨rfl, hc2⟩⟩
    rename_i hc2
    rw [if_neg hc2]
    split at hok
    · rename_i hc3
      rw [if_pos hc3]
      exact ⟨_, rfl, read_eeprom_max d 2 0 _, Or.inr ⟨rfl, hc3⟩⟩
    · cases hok
  · intro s0 s1 h0 h1
    have e2 := h0 (set_max_eeprom_address 0x800 (read_eeprom_word d 0 w1).2) rfl
    have e3 := h1 (set_max_eeprom_address 0x1000 (read_eeprom_word d 0
      (set_max_eeprom_address 0x800 (read_eeprom_word d 0 w1).2)).2) rfl
    rw [e2, e3]
    by_cases hc : ((read_eeprom_word d 0 w1).1 = some 0xA55A ∧ w1.max_eeprom_address = 0x800)
        ∨ ((read_eeprom_word d 0 w1).1 = some 0x9669 ∧ w1.max_eeprom_address = 0x1000)
    · rw [if_pos hc]
      have hs : s0 = some 0xA55A ∨ s1 = some 0x9669 := by
        rcases hc with hc | hc
        · exact Or.inl ((h0 w1 hc.2).symm.trans hc.1)
        · exact Or.inr ((h1 w1 hc.2).symm.trans hc.1)
      simp only [Bool.true_eq_false, false_iff]
      tauto
    · rw [if_neg hc]
      by_cases hc2 : s0 = some 0xA55A
      · rw [if_pos hc2]
        simp only [Bool.true_eq_false, false_iff]
        tauto
      · rw [if_neg hc2]
        by_cases hc3 : s1 = some 0x9669
        · rw [if_pos hc3]
          simp only [Bool.true_eq_false, false_iff]
          tauto
        · rw [if_neg hc3]
          simp only [true_iff]
          exact ⟨hc2, hc3⟩

theorem selector_chip_read (k : Nat) (hk : k = 0x800 ∨ k = 0x1000) (w0 : World Unit)
    (h : w0.max_eeprom_address = k) :
    (read_eeprom_word selector_chip 0 w0).1 = some (if k = 0x1000 then 0x9669 else 0xFFFF) := by
  rcases hk with rfl | rfl <;>
    simp [read_eeprom_word, read_eeprom, h, HidD_SetFeature, HidD_GetFeature, selector_chip,
      read_eeprom_report] <;> decide

theorem eeprom_identification_witness :
    (identify_eeprom selector_chip
      { dev := (), max_eeprom_address := 0x800, trace := [] }).1 = true ∧
    ∃ w0 : World Unit,
      (identify_eeprom selector_chip { dev := (), max_eeprom_address := 0x800, trace := [] }).2
        = (read_eeprom_word selector_chip 0 w0).2 ∧
      (identify_eeprom selector_chip
        { dev := (), max_eeprom_address := 0x800, trace := [] }).2.max_eeprom_address
        = w0.max_eeprom_address ∧
      ((w0.max_eeprom_address = 0x800 ∧
          (read_eeprom_word selector_chip 0 w0).1 = some 0xA55A) ∨
       (w0.max_eeprom_address = 0x1000 ∧
          (read_eeprom_word selector_chip 0 w0).1 = some 0x9669)) :=
  ⟨eq_true_of_ne_false fun hf => (((eeprom_identification selector_chip
      { dev := (), max_eeprom_address := 0x800, trace := [] }).2 (some 0xFFFF) (some 0x9669)
      (fun w0 h => selector_chip_read 0x800 (Or.inl rfl) w0 h)
      (fun w0 h => selector_chip_read 0x1000 (Or.inr rfl) w0 h)).1 hf).2 rfl,
   (eeprom_identification selector_chip
      { dev := (), max_eeprom_address := 0x800, trace := [] }).1 (by decide)⟩

/-! ## The writing part in two stages -/

theorem attempt_patch_write_eq_stage (d : Device σ) (v : Validated) (w : World σ) :
    attempt_patch_write d v w =
      match attempt_patch_stage d v w with
      | (Sum.inl c, w) => (c, w)
      | (Sum.inr patch_offset, w) => attempt_patch_activate d patch_offset w := by
  unfold attempt_patch_write attempt_patch_stage attempt_patch_activate
  dsimp only
  rcases write_patch d (audio_format_patch_with v.op) ((v.data_size + 4) % 65536)
    (fprintf Msg.adding_patch_code w) with ⟨_ | ds, w1⟩ <;> dsimp only
  rcases write_eeprom_word d ((ds + 0x30) % 65536)
    (((hdr_sum_reduced v.hdr_sum v.data_size + ds >>> 8) % 65536 + ds % 256) % 65536)
    (fprintf Msg.updating_header_checksum w1) with ⟨_ | _, w2⟩ <;> dsimp only
  rcases write_eeprom_word d ((ds + 0x32) % 65536)
    (data_sum_patched (data_sum_absorbed v.hdr_sum v.data_sum)
      ((0xCC00 + (v.data_size + 4) % 65536) % 65536))
    (fprintf Msg.updating_data_checksum w2) with ⟨_ | _, w3⟩ <;> dsimp only
  rcases write_eeprom_word d 2 ds (fprintf Msg.updating_code_size w3) with ⟨_ | _, w4⟩ <;>
    dsimp only

theorem patch_writes_fst : ∀ (bs : List Nat) (a : Nat),
    (patch_writes bs a).map Prod.fst = (List.range bs.length).map (fun i => a + i)
  | [], _ => rfl
  | b :: bs, a => by
    rw [patch_writes, List.map_cons, patch_writes_fst bs (a + 1), List.length_cons,
      List.range_succ_eq_map, List.map_cons, List.map_map]
    refine congrArg₂ _ rfl (List.map_congr_left fun i _ => ?_)
    simp only [Function.comp_apply]
    omega

/-- The loop writing the patch, when it completes on any device, has issued
one write-EEPROM command per byte, at consecutive addresses from
`data_size + 0x30` on. -/
theorem write_patch_wrote (d : Device σ) :
    ∀ (bs : List Nat) (ds : Nat) (w : World σ), (write_patch d bs ds w).1 ≠ none →
      ds + 0x30 + bs.length ≤ 65536 →
      Wrote (patch_writes (bs.map (fun b => b % 256)) (ds + 0x30)) w (write_patch d bs ds w).2 := by
  intro bs
  induction bs with
  | nil =>
    intro ds w _ _
    exact Wrote.wrote_refl w
  | cons b bs ih =>
    intro ds w h hlen
    simp only [List.length_cons] at hlen
    simp only [write_patch] at h ⊢
    have h1 := write_eeprom_byte_wrote d ((ds + 0x30) % 65536) b w
    rcases e1 : write_eeprom_byte d ((ds + 0x30) % 65536) b w with ⟨_ | _, w1⟩ <;>
      rw [e1] at h h1 <;> simp only at h h1 ⊢
    · exact absurd rfl h
    · have hmod : (ds + 1) % 65536 = ds + 1 := by omega
      have hmod2 : (ds + 0x30) % 65536 % 65536 = ds + 0x30 := by omega
      rw [hmod] at h ⊢
      rw [hmod2] at h1
      have h2 := ih (ds + 1) w1 h (by omega)
      have := (h1 trivial).wrote_trans h2
      simp only [List.map_cons, patch_writes]
      have e : ds + 1 + 0x30 = ds + 0x30 + 1 := by omega
      rw [e] at this
      exact this

/-- The writing part up to the new `code_size`, when it gets there on any
device for a `data_size` that passed the size check, has written, in this
order, the 25 bytes of the patch, the header checksum, the data checksum and
the `code_size` field; and it hands `0xCC00 + data_size + 4` to the activation. -/
theorem attempt_patch_stage_wrote (d : Device σ) (v : Validated) (w : World σ) (po : Nat)
    (w' : World σ) (h : attempt_patch_stage d v w = (Sum.inr po, w'))
    (hn : v.data_size + 81 ≤ 0x1000) :
    po = 0xCC00 + v.data_size + 4 ∧
    ∃ L, Wrote L w w' ∧ L.map Prod.fst ++ [0x30, 0x31, 0x32] = write_order v.data_size := by
  unfold attempt_patch_stage at h
  simp only at h
  have hd4 : (v.data_size + 4) % 65536 = v.data_size + 4 := by omega
  rw [hd4] at h
  have s0 := write_patch_wrote d (audio_format_patch_with v.op) (v.data_size + 4)
    (fprintf Msg.adding_patch_code w)
  rcases h1 : write_patch d (audio_format_patch_with v.op) (v.data_size + 4)
    (fprintf Msg.adding_patch_code w) with ⟨_ | ds, w1⟩ <;> rw [h1] at h <;> simp only at h
  · cases h
  rw [h1] at s0
  have hds := (write_patch_spec d (audio_format_patch_with v.op) (v.data_size + 4)
    (fprintf Msg.adding_patch_code w) _ _ h1
    (by rw [audio_format_patch_with_length]; omega)).2 ds rfl
  rw [audio_format_patch_with_length] at hds
  subst hds
  have s1 := s0 (by simp) (by rw [audio_format_patch_with_length]; omega)
  simp only at s1
  generalize ((hdr_sum_reduced v.hdr_sum v.data_size + (v.data_size + 4 + 25) >>> 8) % 65536 +
    (v.data_size + 4 + 25) % 256) % 65536 = hs at h
  generalize data_sum_patched (data_sum_absorbed v.hdr_sum v.data_sum)
    ((0xCC00 + (v.data_size + 4)) % 65536) = dsum at h
  have s2 := write_eeprom_word_wrote d ((v.data_size + 4 + 25 + 0x30) % 65536) hs
    (fprintf Msg.updating_header_checksum w1)
  rcases h2 : write_eeprom_word d ((v.data_size + 4 + 25 + 0x30) % 65536) hs
    (fprintf Msg.updating_header_checksum w1) with ⟨_ | _, w2⟩ <;>
    rw [h2] at h <;> simp only at h
  · cases h
  rw [h2] at s2
  have s3 := write_eeprom_word_wrote d ((v.data_size + 4 + 25 + 0x32) % 65536) dsum
    (fprintf Msg.updating_data_checksum w2)
  rcases h3 : write_eeprom_word d ((v.data_size + 4 + 25 + 0x32) % 65536) dsum
    (fprintf Msg.updating_data_checksum w2) with ⟨_ | _, w3⟩ <;>
    rw [h3] at h <;> simp only at h
  · cases h
  rw [h3] at s3
  have s4 := write_eeprom_word_wrote d 2 (v.data_size + 4 + 25)
    (fprintf Msg.updating_code_size w3)
  rcases h4 : write_eeprom_word d 2 (v.data_size + 4 + 25)
    (fprintf Msg.updating_code_size w3) with ⟨_ | _, w4⟩ <;>
    rw [h4] at h <;> simp only at h
  · cases h
  rw [h4] at s4
  obtain ⟨hpo, rfl⟩ := Prod.mk.inj h
  have hpo := Sum.inr.inj hpo
  have hW := (wrote_fprintf _ w).wrote_trans (s1.wrote_trans
    ((wrote_fprintf _ w1).wrote_trans ((s2 rfl).wrote_trans
    ((wrote_fprintf _ w2).wrote_trans ((s3 rfl).wrote_trans
    ((wrote_fprintf _ w3).wrote_trans (s4 rfl)))))))
  refine ⟨by rw [← hpo]; omega, _, hW, ?_⟩
  · simp only [List.nil_append, List.map_append, patch_writes_fst, List.length_map,
      audio_format_patch_with_length, List.map_cons, List.map_nil, write_order,
      List.append_assoc, List.cons_append]
    have a1 : (v.data_size + 4 + 25 + 0x30) % 65536 % 65536 = 0x30 + v.data_size + 29 := by omega
    have a2 : ((v.data_size + 4 + 25 + 0x30) % 65536 + 1) % 65536 = 0x30 + v.data_size + 30 := by
      omega
    have a3 : (v.data_size + 4 + 25 + 0x32) % 65536 % 65536 = 0x30 + v.data_size + 31 := by omega
    have a4 : ((v.data_size + 4 + 25 + 0x32) % 65536 + 1) % 65536 = 0x30 + v.data_size + 32 := by
      omega
    have a5 : v.data_size + 4 + 0x30 = 0x30 + v.data_size + 4 := by omega
    rw [a1, a2, a3, a4, a5]

/-- The activation, when it completes on any device, has written `0x30`, `0x31`,
`0x32`, in this order: the opcode `0x12` and the big-endian target. -/
theorem attempt_patch_activate_wrote (d : Device σ) (po : Nat) (w : World σ)
    (h : (attempt_patch_activate d po w).1 = 0) :
    Wrote [(0x30, 0x12), (0x31, (po >>> 8) % 256), (0x32, po % 256)] w
      (attempt_patch_activate d po w).2 := by
  unfold attempt_patch_activate at h ⊢
  simp only at h ⊢
  have s5 := write_eeprom_byte_wrote d 0x30 0x12 (fprintf Msg.overwriting_initial_opcode w)
  rcases h5 : write_eeprom_byte d 0x30 0x12 (fprintf Msg.overwriting_initial_opcode w)
    with ⟨_ | _, w5⟩ <;> rw [h5] at h s5 <;> simp only at h s5 ⊢
  · exact absurd h (by decide)
  have s6 := write_eeprom_word_wrote d 0x31 po w5
  rcases h6 : write_eeprom_word d 0x31 po w5 with ⟨_ | _, w6⟩ <;>
    rw [h6] at h s6 <;> simp only at h s6 ⊢
  · exact absurd h (by decide)
  exact (wrote_fprintf _ w).wrote_trans ((s5 trivial).wrote_trans
    ((s6 trivial).wrote_trans (wrote_fprintf _ w6)))

theorem write_order_length (n : Nat) : (write_order n).length = 34 := by
  simp [write_order]

theorem write_order_nodup (n : Nat) : (write_order n).Nodup := by
  unfold write_order
  rw [List.nodup_append]
  refine ⟨(List.nodup_range 25).map (fun i j hij => by simpa using hij), ?_, ?_⟩
  · simp only [List.nodup_cons, List.mem_cons, List.mem_singleton, List.not_mem_nil,
      List.nodup_nil, not_or, not_false_eq_true, and_true]
    omega
  · intro x hx hx2
    simp only [List.mem_map, List.mem_range] at hx
    obtain ⟨i, hi, rfl⟩ := hx
    simp only [List.mem_cons, List.mem_singleton, List.not_mem_nil, or_false] at hx2
    omega

/-- The writing part up to the new `code_size` fails only with -10 to -13. -/
theorem attempt_patch_stage_inl (d : Device σ) (v : Validated) (w : World σ) (c : Int)
    (w' : World σ) (h : attempt_patch_stage d v w = (Sum.inl c, w')) :
    c ∈ [-10, -11, -12, -13] := by
  revert h
  unfold attempt_patch_stage
  dsimp only
  rcases write_patch d (audio_format_patch_with v.op) ((v.data_size + 4) % 65536)
    (fprintf Msg.adding_patch_code w) with ⟨_ | ds, w1⟩ <;> dsimp only
  · intro h; cases h; simp
  rcases write_eeprom_word d ((ds + 0x30) % 65536)
    (((hdr_sum_reduced v.hdr_sum v.data_size + ds >>> 8) % 65536 + ds % 256) % 65536)
    (fprintf Msg.updating_header_checksum w1) with ⟨_ | _, w2⟩ <;> dsimp only
  · intro h; cases h; simp
  rcases write_eeprom_word d ((ds + 0x32) % 65536)
    (data_sum_patched (data_sum_absorbed v.hdr_sum v.data_sum)
      ((0xCC00 + (v.data_size + 4) % 65536) % 65536))
    (fprintf Msg.updating_data_checksum w2) with ⟨_ | _, w3⟩ <;> dsimp only
  · intro h; cases h; simp
  rcases write_eeprom_word d 2 ds (fprintf Msg.updating_code_size w3) with ⟨_ | _, w4⟩ <;>
    dsimp only
  · intro h; cases h; simp
  · intro h; cases h

/-- The writing part, when it returns 0 on any device for a `data_size` that
passed the size check, has issued its write-EEPROM commands at the addresses
of `write_order`, in that order. -/
theorem attempt_patch_write_wrote (d : Device σ) (v : Validated) (w : World σ)
    (h0 : (attempt_patch_write d v w).1 = 0) (hn : v.data_size + 81 ≤ 0x1000) :
    ∃ L, Wrote L w (attempt_patch_write d v w).2 ∧ L.map Prod.fst = write_order v.data_size := by
  rw [attempt_patch_write_eq_stage] at h0 ⊢
  rcases hst : attempt_patch_stage d v w with ⟨c | po, w2⟩ <;> rw [hst] at h0 <;>
    simp only at h0 ⊢
  · subst h0
    exact absurd (attempt_patch_stage_inl d v w _ _ hst) (by decide)
  obtain ⟨-, L, hL, hord⟩ := attempt_patch_stage_wrote d v w po w2 hst hn
  refine ⟨_, hL.wrote_trans (attempt_patch_activate_wrote d po w2 h0), ?_⟩
  rw [← hord]
  simp

/-! ## C18: the order of the writes of a successful run -/

/-- C18. Write order on success: on any device, for every run of
`attempt_patch` that returns 0, with `n` the `code_size` it read at address 2,
the addresses of the write-EEPROM commands it issued are, in this order and
with nothing else, the 34 addresses of `write_order n`: `0x30+n+4 .. 0x30+n+28`
ascending (the patch), `0x30+n+29`, `0x30+n+30` (header checksum), `0x30+n+31`,
`0x30+n+32` (data checksum), `2`, `3` (`code_size`), `0x30`, `0x31`, `0x32` (the
activation); these 34 addresses are pairwise different. -/
theorem write_order_on_success (d : Device σ) (w : World σ) (n : Nat)
    (h0 : (attempt_patch d w).1 = 0)
    (hn : (read_eeprom_word d 2 (identify_eeprom d w).2).1 = some n) :
    (eeprom_writes (issued w (attempt_patch d w).2)).map Prod.fst = write_order n ∧
    write_order n =
      [0x30 + n + 4, 0x30 + n + 5, 0x30 + n + 6, 0x30 + n + 7, 0x30 + n + 8, 0x30 + n + 9,
       0x30 + n + 10, 0x30 + n + 11, 0x30 + n + 12, 0x30 + n + 13, 0x30 + n + 14,
       0x30 + n + 15, 0x30 + n + 16, 0x30 + n + 17, 0x30 + n + 18, 0x30 + n + 19,
       0x30 + n + 20, 0x30 + n + 21, 0x30 + n + 22, 0x30 + n + 23, 0x30 + n + 24,
       0x30 + n + 25, 0x30 + n + 26, 0x30 + n + 27, 0x30 + n + 28,
       0x30 + n + 29, 0x30 + n + 30, 0x30 + n + 31, 0x30 + n + 32, 2, 3, 0x30, 0x31, 0x32] ∧
    (write_order n).length = 34 ∧ (write_order n).Nodup := by
  rcases hv : attempt_patch_validate d w with ⟨c | v, w1⟩
  · obtain ⟨-, hc, -⟩ := attempt_patch_validate_spec d w _ _ hv
    rw [attempt_patch_of_inl d w w1 c hv] at h0
    simp only at h0
    subst h0
    exact absurd (hc 0 rfl) (by decide)
  obtain ⟨e1, -, hr⟩ := attempt_patch_validate_spec d w _ _ hv
  obtain ⟨hvn, h5, hle, hcap⟩ := hr v rfl
  have hnv : v.data_size = n := Option.some.inj (hvn.symm.trans hn)
  have hbound : v.data_size + 81 ≤ 0x1000 := by rcases hcap with hcap | hcap <;> omega
  rw [attempt_patch_of_inr d w w1 v hv] at h0 ⊢
  obtain ⟨L, hL, hord⟩ := attempt_patch_write_wrote d v w1 h0 hbound
  have hall := ((wrote_of_ext e1).wrote_trans hL).wrote_issued
  refine ⟨?_, rfl, write_order_length n, write_order_nodup n⟩
  rw [hall, ← hnv, ← hord]
  simp

theorem write_order_on_success_witness :
    (read_eeprom_word faithful 2 (identify_eeprom faithful (start small_image)).2).1 = some 5 ∧
    (eeprom_writes (issued (start small_image)
      (attempt_patch faithful (start small_image)).2)).map Prod.fst =
      [57, 58, 59, 60, 61, 62, 63, 64, 65, 66, 67, 68, 69, 70, 71, 72, 73, 74, 75, 76, 77, 78,
       79, 80, 81, 82, 83, 84, 85, 2, 3, 48, 49, 50] :=
  ⟨by decide,
   (write_order_on_success faithful (start small_image) 5 (by decide) (by decide)).1⟩

theorem mem_write_order (n a : Nat) :
    a ∈ write_order n ↔
      (0x30 + n + 4 ≤ a ∧ a ≤ 0x30 + n + 32) ∨ a = 2 ∨ a = 3 ∨ a = 0x30 ∨ a = 0x31 ∨ a = 0x32 := by
  simp only [write_order, List.mem_append, List.mem_map, List.mem_range, List.mem_cons,
    List.mem_singleton, List.not_mem_nil, or_false]
  constructor
  · rintro (⟨i, hi, rfl⟩ | h)
    · omega
    · omega
  · intro h
    by_cases hlt : a < 0x30 + n + 4 + 25
    · by_cases hge : 0x30 + n + 4 ≤ a
      · exact Or.inl ⟨a - (0x30 + n + 4), by omega, by omega⟩
      · right; omega
    · right; omega

/-- The writing part on any device, whatever it returns, for a `data_size` that
passed the size check: every write-EEPROM command it issues targets one of
the addresses of `write_order`. -/
theorem attempt_patch_write_within (d : Device σ) (v : Validated) (w : World σ)
    (hn : v.data_size + 81 ≤ 0x1000) :
    Ext (fun a => a ∈ write_order v.data_size) w (attempt_patch_write d v w).2 := by
  have hT : ∀ a, ((0x30 + v.data_size + 4 ≤ a ∧ a ≤ 0x30 + v.data_size + 32) ∨ a = 2 ∨ a = 3 ∨
      a = 0x30 ∨ a = 0x31 ∨ a = 0x32) → a ∈ write_order v.data_size :=
    fun a h => (mem_write_order _ a).2 h
  unfold attempt_patch_write
  simp only
  have hd4 : (v.data_size + 4) % 65536 = v.data_size + 4 := by omega
  rw [hd4]
  have s0 := write_patch_spec d (audio_format_patch_with v.op) (v.data_size + 4)
    (fprintf Msg.adding_patch_code w)
  rcases h1 : write_patch d (audio_format_patch_with v.op) (v.data_size + 4)
    (fprintf Msg.adding_patch_code w) with ⟨_ | ds, w1⟩ <;> simp only
  all_goals
    obtain ⟨s1, hds⟩ := s0 _ _ h1 (by rw [audio_format_patch_with_length]; omega)
    rw [audio_format_patch_with_length] at s1
    have e1 : Ext (fun a => a ∈ write_order v.data_size) w w1 :=
      (step_fprintf _ _ _).2.ext_trans (s1.2.ext_mono (fun a ha => hT a (by omega)))
  · exact e1
  have hds := hds ds rfl
  rw [audio_format_patch_with_length] at hds
  subst hds
  generalize ((hdr_sum_reduced v.hdr_sum v.data_size + (v.data_size + 4 + 25) >>> 8) % 65536 +
    (v.data_size + 4 + 25) % 256) % 65536 = hs
  generalize data_sum_patched (data_sum_absorbed v.hdr_sum v.data_sum)
    ((0xCC00 + (v.data_size + 4)) % 65536) = dsum
  have s2 := (write_eeprom_word_step d ((v.data_size + 4 + 25 + 0x30) % 65536) hs
    (fprintf Msg.updating_header_checksum w1)).2
  rcases h2 : write_eeprom_word d ((v.data_size + 4 + 25 + 0x30) % 65536) hs
    (fprintf Msg.updating_header_checksum w1) with ⟨_ | _, w2⟩ <;> rw [h2] at s2 <;> simp only
  all_goals
    have e2 : Ext (fun a => a ∈ write_order v.data_size) w w2 :=
      e1.ext_trans ((step_fprintf _ _ _).2.ext_trans (s2.ext_mono (fun a ha => hT a (by omega))))
  · exact e2
  have s3 := (write_eeprom_word_step d ((v.data_size + 4 + 25 + 0x32) % 65536) dsum
    (fprintf Msg.updating_data_checksum w2)).2
  rcases h3 : write_eeprom_word d ((v.data_size + 4 + 25 + 0x32) % 65536) dsum
    (fprintf Msg.updating_data_checksum w2) with ⟨_ | _, w3⟩ <;> rw [h3] at s3 <;> simp only
  all_goals
    have e3 : Ext (fun a => a ∈ write_order v.data_size) w w3 :=
      e2.ext_trans ((step_fprintf _ _ _).2.ext_trans (s3.ext_mono (fun a ha => hT a (by omega))))
  · exact e3
  have s4 := (write_eeprom_word_step d 2 (v.data_size + 4 + 25)
    (fprintf Msg.updating_code_size w3)).2
  rcases h4 : write_eeprom_word d 2 (v.data_size + 4 + 25)
    (fprintf Msg.updating_code_size w3) with ⟨_ | _, w4⟩ <;> rw [h4] at s4 <;> simp only
  all_goals
    have e4 : Ext (fun a => a ∈ write_order v.data_size) w w4 :=
      e3.ext_trans ((step_fprintf _ _ _).2.ext_trans (s4.ext_mono (fun a ha => hT a (by omega))))
  · exact e4
  have s5 := (write_eeprom_byte_step d 0x30 0x12 (fprintf Msg.overwriting_initial_opcode w4)).2
  rcases h5 : write_eeprom_byte d 0x30 0x12
    (fprintf Msg.overwriting_initial_opcode w4) with ⟨_ | _, w5⟩ <;> rw [h5] at s5 <;> simp only
  all_goals
    have e5 : Ext (fun a => a ∈ write_order v.data_size) w w5 :=
      e4.ext_trans ((step_fprintf _ _ _).2.ext_trans (s5.ext_mono (fun a ha => hT a (by omega))))
  · exact e5
  have s6 := (write_eeprom_word_step d 0x31 ((0xCC00 + (v.data_size + 4)) % 65536) w5).2
  rcases h6 : write_eeprom_word d 0x31 ((0xCC00 + (v.data_size + 4)) % 65536) w5
    with ⟨_ | _, w6⟩ <;> rw [h6] at s6 <;> simp only
  all_goals
    have e6 : Ext (fun a => a ∈ write_order v.data_size) w w6 :=
      e5.ext_trans (s6.ext_mono (fun a ha => hT a (by omega)))
  · exact e6
  · exact e6.ext_trans (step_fprintf _ _ _).2

/-! ## C19: the size precondition -/

theorem tight_image_lt : ∀ x, tight_image x < 256 :=
  image_of_lt _ (by decide)

/-- C19. The size precondition is sufficient and tight: on the faithful chip,
for every image of bytes with a recognised signature of capacity `c`
(`0x800` or `0x1000`), the instruction pattern, and a `code_size` `n` with
`5 ≤ n ≤ c - 0x38 - 25`, `attempt_patch` returns 0, so none of its writes is
rejected; the addresses of its write-EEPROM commands are those of
`write_order n`, the values computed without 16-bit wrap-around; each of them
is below `c` and at most `n + 0x50`, which is among them and is at most
`c - 1`, with equality when `n = c - 0x38 - 25`; the `patch_offset` left at
`0x31` is `0xCC00 + n + 4`, which is below `2^16`; and on any device, whatever
the writing part returns for such an `n`, each write-EEPROM command it issues
targets one of these addresses, hence an address below `c`. -/
theorem size_precondition_sufficient (w : World Chip) (hb : ∀ x, w.dev.eeprom x < 256)
    (c : Nat) (hr : Recognised w.dev.eeprom c) (h5 : 5 ≤ word w.dev.eeprom 2)
    (hle : word w.dev.eeprom 2 ≤ c - 0x38 - 25) (hp : PatternOK w.dev.eeprom) :
    (attempt_patch faithful w).1 = 0 ∧
    (eeprom_writes (issued w (attempt_patch faithful w).2)).map Prod.fst =
      write_order (word w.dev.eeprom 2) ∧
    (∀ a ∈ write_order (word w.dev.eeprom 2), a < c ∧ a ≤ word w.dev.eeprom 2 + 0x50) ∧
    word w.dev.eeprom 2 + 0x50 ∈ write_order (word w.dev.eeprom 2) ∧
    word w.dev.eeprom 2 + 0x50 ≤ c - 1 ∧
    (word w.dev.eeprom 2 = c - 0x38 - 25 → word w.dev.eeprom 2 + 0x50 = c - 1) ∧
    word (attempt_patch faithful w).2.dev.eeprom 0x31 = 0xCC00 + word w.dev.eeprom 2 + 4 ∧
    0xCC00 + word w.dev.eeprom 2 + 4 < 65536 ∧
    (∀ (τ : Type) (d : Device τ) (u : World τ) (v : Validated),
      5 ≤ v.data_size → v.data_size ≤ c - 0x38 - 25 →
      ∀ e ∈ issued u (attempt_patch_write d v u).2, ∀ rep, e = Event.SetFeature rep →
        rep.cmd = 0xE6 →
        report_address rep ∈ write_order v.data_size ∧ report_address rep < c) := by
  have hcapv : c = 0x800 ∨ c = 0x1000 := by
    rcases hr with ⟨-, h⟩ | ⟨-, h⟩ <;> simp [h]
  have hfit : word w.dev.eeprom 2 + 81 ≤ c := by omega
  obtain ⟨w1, hval, e1, -, c1, -⟩ := attempt_patch_validate_faithful w hb
  rw [validate_image_of_valid _ c hr h5 hfit hp] at hval
  have m1 : w1.max_eeprom_address = c := c1 c ((recognised_iff _ _).1 hr)
  have hd : (validated_of w.dev.eeprom).data_size = word w.dev.eeprom 2 := rfl
  obtain ⟨w2, hw2, -, -, e2⟩ := attempt_patch_write_faithful (validated_of w.dev.eeprom) w1
    (by rw [m1, hd]; exact hfit) (by rw [m1]; omega)
  obtain ⟨x1, -, -⟩ := attempt_patch_validate_spec faithful w _ _ hval
  have h0 : (attempt_patch_write faithful (validated_of w.dev.eeprom) w1).1 = 0 := by rw [hw2]
  obtain ⟨L, hL, hord⟩ := attempt_patch_write_wrote faithful (validated_of w.dev.eeprom) w1 h0
    (by rw [hd]; omega)
  have hall := ((wrote_of_ext x1).wrote_trans hL).wrote_issued
  rw [attempt_patch_of_inr faithful w w1 _ hval]
  refine ⟨h0, ?_, ?_, ?_, by omega, by omega, ?_, by omega, ?_⟩
  · rw [hall, ← hd, ← hord]; simp
  · intro a ha
    simp only [write_order, List.mem_append, List.mem_map, List.mem_range, List.mem_cons,
      List.mem_singleton, List.not_mem_nil, or_false] at ha
    rcases ha with ⟨i, hi, rfl⟩ | ha
    · omega
    · omega
  · simp [write_order]
    omega
  · rw [hw2]
    have hfun : w2.dev.eeprom = patched_image w1.dev.eeprom (validated_of w.dev.eeprom) :=
      funext e2
    rw [hfun, patched_image_operand _ _ (by rw [hd]; omega), hd]
  · intro τ d u v h5v hlev e he rep hrep hcmd
    have hmem := (attempt_patch_write_within d v u (by omega)).issued_eq.2 e he rep hrep hcmd
    refine ⟨hmem, ?_⟩
    have := (mem_write_order _ _).1 hmem
    omega

theorem size_precondition_sufficient_witness :
    word tight_image 2 = 0x800 - 0x38 - 25 ∧
    (attempt_patch faithful (start tight_image)).1 = 0 ∧
    word tight_image 2 + 0x50 ∈ write_order (word tight_image 2) ∧
    word tight_image 2 + 0x50 = 0x800 - 1 :=
  ⟨by decide,
   (size_precondition_sufficient (start tight_image) tight_image_lt 0x800
      (Or.inl ⟨by decide, rfl⟩) (by decide) (by decide) ⟨rfl, rfl, rfl⟩).1,
   (size_precondition_sufficient (start tight_image) tight_image_lt 0x800
      (Or.inl ⟨by decide, rfl⟩) (by decide) (by decide) ⟨rfl, rfl, rfl⟩).2.2.2.1,
   (size_precondition_sufficient (start tight_image) tight_image_lt 0x800
      (Or.inl ⟨by decide, rfl⟩) (by decide) (by decide) ⟨rfl, rfl, rfl⟩).2.2.2.2.2.1 (by decide)⟩

/-! ## C20: the window before activation -/

/-- On the faithful chip the writing part reaches the window for every
`data_size` that fits, and the chip then holds `window_image`. -/
theorem attempt_patch_stage_faithful (v : Validated) (w : World Chip)
    (hn : v.data_size + 81 ≤ w.max_eeprom_address) (hmax : w.max_eeprom_address ≤ 0x1000) :
    ∃ w', attempt_patch_stage faithful v w = (Sum.inr (0xCC00 + v.data_size + 4), w') ∧
      w'.max_eeprom_address = w.max_eeprom_address ∧
      ∀ x, w'.dev.eeprom x = window_image w.dev.eeprom v x := by
  unfold attempt_patch_stage
  simp only
  have hd4 : (v.data_size + 4) % 65536 = v.data_size + 4 := by omega
  rw [hd4]
  obtain ⟨w1, h1, m1, -, e1⟩ := faithful_write_patch (audio_format_patch_with v.op)
    (v.data_size + 4) (fprintf Msg.adding_patch_code w) (audio_format_patch_with_lt v.op)
    (by rw [audio_format_patch_with_length]; show _ ≤ w.max_eeprom_address; omega)
    (by show w.max_eeprom_address ≤ _; omega)
  rw [audio_format_patch_with_length] at h1 e1
  rw [h1]
  simp only
  have m1' : w1.max_eeprom_address = w.max_eeprom_address := m1
  have a1 : (v.data_size + 4 + 25 + 0x30) % 65536 = v.data_size + 4 + 25 + 0x30 := by omega
  have a2 : (v.data_size + 4 + 25 + 0x32) % 65536 = v.data_size + 4 + 25 + 0x32 := by omega
  have a3 : (0xCC00 + (v.data_size + 4)) % 65536 = 0xCC00 + (v.data_size + 4) := by omega
  rw [a1, a2, a3]
  obtain ⟨w2, h2, e2, -, m2⟩ := faithful_write_eeprom_word (v.data_size + 4 + 25 + 0x30)
    (((hdr_sum_reduced v.hdr_sum v.data_size + (v.data_size + 4 + 25) >>> 8) % 65536 +
      (v.data_size + 4 + 25) % 256) % 65536) (fprintf Msg.updating_header_checksum w1)
    (by show _ < w1.max_eeprom_address; omega) (by show w1.max_eeprom_address ≤ _; omega)
  rw [h2]
  simp only
  have m2' : w2.max_eeprom_address = w.max_eeprom_address := m2.trans m1'
  obtain ⟨w3, h3, e3, -, m3⟩ := faithful_write_eeprom_word (v.data_size + 4 + 25 + 0x32)
    (data_sum_patched (data_sum_absorbed v.hdr_sum v.data_sum) (0xCC00 + (v.data_size + 4)))
    (fprintf Msg.updating_data_checksum w2)
    (by show _ < w2.max_eeprom_address; omega) (by show w2.max_eeprom_address ≤ _; omega)
  rw [h3]
  simp only
  have m3' : w3.max_eeprom_address = w.max_eeprom_address := m3.trans m2'
  obtain ⟨w4, h4, e4, -, m4⟩ := faithful_write_eeprom_word 2 (v.data_size + 4 + 25)
    (fprintf Msg.updating_code_size w3)
    (by show _ < w3.max_eeprom_address; omega) (by show w3.max_eeprom_address ≤ _; omega)
  rw [h4]
  simp only
  have ecc : 0xCC00 + (v.data_size + 4) = 0xCC00 + v.data_size + 4 := by omega
  refine ⟨_, by rw [ecc], m4.trans m3', fun x => ?_⟩
  have e29 : v.data_size + 4 + 25 = v.data_size + 29 := by omega
  have f1 : ∀ (m : Msg) (u : World Chip), (fprintf m u).dev = u.dev := fun _ _ => rfl
  unfold window_image
  by_cases hx : x = 0x30 ∨ x = 0x31 ∨ x = 0x32
  · rw [if_pos hx]
    simp only [e4, e3, e2, e1, f1]
    repeat rw [if_neg (by omega)]
  · rw [if_neg hx]
    unfold patched_image
    simp only
    rw [if_neg (by omega), if_neg (by omega), if_neg (by omega)]
    simp only [e4, e3, e2, e1, Function.update_apply, f1, e29, ecc]

theorem window_image_old (m : Nat → Nat) (v : Validated) (x : Nat)
    (h1 : x ≠ 2) (h2 : x ≠ 3) (h4 : x < v.data_size + 4 + 0x30) :
    window_image m v x = m x := by
  unfold window_image
  by_cases hx : x = 0x30 ∨ x = 0x31 ∨ x = 0x32
  · rw [if_pos hx]
  · rw [if_neg hx]
    exact patched_image_old m v x h1 h2 (by omega) h4

theorem window_image_new (m : Nat → Nat) (v : Validated) (x : Nat) (h : 0x33 ≤ x ∨ x < 0x30) :
    window_image m v x = patched_image m v x := by
  unfold window_image
  rw [if_neg (by omega)]

/-- The data checksum in the window: the stored word is the new `data_sum`; the
bytes it should cover still start with the original first instruction. -/
theorem window_image_sums (m : Nat → Nat) (hb : ∀ x, m x < 256) (v : Validated)
    (hv : v = validated_of m) (h5 : 5 ≤ word m 2) (hle : word m 2 + 81 ≤ 0x1000)
    (hp : PatternOK m)
    (hsum : word m (0x30 + word m 2 + 2) = sumBytes m 0x30 (word m 2) % 65536) :
    word (window_image m v) (0x30 + (word m 2 + 29) + 2)
        = sumBytes (window_image m v) 0x30 (word m 2 + 29) % 65536 ↔
      0x90 + m 0x31 + m 0x32
        = 0x12 + (0xCC00 + word m 2 + 4) / 256 + (0xCC00 + word m 2 + 4) % 256 := by
  subst hv
  have hd : (validated_of m).data_size = word m 2 := rfl
  have hh : (validated_of m).hdr_sum = word m (word m 2 + 0x30) := rfl
  have hds : (validated_of m).data_sum = word m (word m 2 + 0x32) := rfl
  have hop : (validated_of m).op = word m 0x31 := rfl
  generalize validated_of m = V at *
  generalize word m 2 = n at *
  have ea : 0x30 + (n + 29) + 2 = V.data_size + 29 + 0x32 := by omega
  have hw : word (window_image m V) (V.data_size + 29 + 0x32)
      = word (patched_image m V) (V.data_size + 29 + 0x32) := by
    unfold word
    rw [window_image_new _ _ _ (by omega), window_image_new _ _ _ (by omega)]
  rw [ea, hw, patched_image_data_sum, hh, hds, hd]
  have e : n + 29 = ((3 + (n - 3)) + 4) + 25 := by omega
  rw [e, sumBytes_add, sumBytes_add, sumBytes_add]
  have ea1 : 0x30 + (3 + (n - 3)) = n + 0x30 := by omega
  have ea2 : 0x30 + (3 + (n - 3) + 4) = n + 4 + 0x30 := by omega
  rw [ea1, ea2]
  have p1 := sumBytes_congr (window_image m V) m 0x30 3
    (fun i hi => window_image_old m _ _ (by omega) (by omega) (by rw [hd]; omega))
  have p2 := sumBytes_congr (window_image m V) m (0x30 + 3) (n - 3)
    (fun i hi => window_image_old m _ _ (by omega) (by omega) (by rw [hd]; omega))
  have p3 := sumBytes_congr (window_image m V) m (n + 0x30) 4
    (fun i hi => window_image_old m _ _ (by omega) (by omega) (by rw [hd]; omega))
  have p4 := sumBytes_patch (window_image m V) (n + 4 + 0x30) V.op
    (fun i hi => by
      rw [window_image_new _ _ _ (by omega), ← hd]; exact patched_image_blob m V i hi)
  rw [p1, p2, p3, p4, hop]
  have e0 : n = 3 + (n - 3) := by omega
  have ea0 : 0x30 + n + 2 = n + 0x32 := by omega
  rw [ea0] at hsum
  have hs0 : sumBytes m 0x30 n = sumBytes m 0x30 3 + sumBytes m (0x30 + 3) (n - 3) := by
    conv_lhs => rw [e0]
    exact sumBytes_add m 0x30 3 (n - 3)
  rw [hs0] at hsum
  rw [data_sum_patched_eq]
  unfold PatternOK at hp
  have b0 := hb (n + 0x30)
  have b1 := hb (n + 0x31)
  have b2 := hb (n + 0x32)
  have b3 := hb (n + 0x33)
  have c1 := hb 0x31
  have c2 := hb 0x32
  simp only [sumBytes, word, data_sum_absorbed, Nat.shiftRight_eq_div_pow, Nat.add_assoc,
    Nat.reduceAdd, Nat.reducePow, Nat.add_zero, Nat.zero_add] at hsum ⊢
  have f1 : (m (n + 48) * 256 + m (n + 49)) / 256 = m (n + 48) := by omega
  have f2 : (m (n + 48) * 256 + m (n + 49)) % 256 = m (n + 49) := by omega
  have f3 : (m (n + 50) * 256 + m (n + 51)) / 256 = m (n + 50) := by omega
  have f4 : (m (n + 50) * 256 + m (n + 51)) % 256 = m (n + 51) := by omega
  have f5 : (m 49 * 256 + m 50) / 256 % 256 = m 49 := by omega
  have f6 : (m 49 * 256 + m 50) % 256 = m 50 := by omega
  rw [f1, f2, f3, f4, f5, f6]
  rw [hp.1] at hsum ⊢
  rw [data_sum_arith _ _ _ _ _ _ _ _ _ hsum]
  generalize sumBytes m 51 (n - 3) = s2
  generalize m (n + 48) = a0 at b0 ⊢
  generalize m (n + 49) = a1 at b1 ⊢
  generalize m (n + 50) = a2 at b2 ⊢
  generalize m (n + 51) = a3 at b3 ⊢
  generalize m 49 = hi at c1 ⊢
  generalize m 50 = lo at c2 ⊢
  omega

theorem coincidence_image_lt : ∀ x, coincidence_image x < 256 :=
  image_of_lt _ (by decide)

/-- C20 as stated fails: `coincidence_image` has both original checksums
correct (header `0x0005`, data `0x02C6`) and passes the validation; when the new
`code_size` `0x22` has been written and the byte at `0x30` is still `0x90`, the
word stored at `0x54` equals the sum of the bytes in `[0x30, 0x52)`: with the
immediate `57 00`, `0x90 + 0x57 + 0x00 = 0x12 + 0xCC + 0x09`. -/
theorem window_checksum_counterexample :
    word coincidence_image 0x35 = sumBytes coincidence_image 2 0x2E % 65536 ∧
    word coincidence_image 0x37 = sumBytes coincidence_image 0x30 5 % 65536 ∧
    (attempt_patch_validate faithful (start coincidence_image)).1
      = Sum.inr (validated_of coincidence_image) ∧
    (attempt_patch_stage faithful (validated_of coincidence_image)
      (attempt_patch_validate faithful (start coincidence_image)).2).1 = Sum.inr 0xCC09 ∧
    word (attempt_patch_stage faithful (validated_of coincidence_image)
      (attempt_patch_validate faithful (start coincidence_image)).2).2.dev.eeprom 2 = 0x22 ∧
    (attempt_patch_stage faithful (validated_of coincidence_image)
      (attempt_patch_validate faithful (start coincidence_image)).2).2.dev.eeprom 0x30 = 0x90 ∧
    word (attempt_patch_stage faithful (validated_of coincidence_image)
      (attempt_patch_validate faithful (start coincidence_image)).2).2.dev.eeprom 0x54
      = sumBytes (attempt_patch_stage faithful (validated_of coincidence_image)
          (attempt_patch_validate faithful (start coincidence_image)).2).2.dev.eeprom 0x30 0x22
        % 65536 := by
  decide

/-- C20, amended. Checksums in the window before activation: on the faithful
chip, for every image of bytes whose stored data checksum is correct and that
passes the validation, the writing part gets past the write of the new
`code_size` `n' = n + 29`; in the state `w2` it has then reached, from which the
rest of the run is the overwrite of the first instruction, the byte at `0x30`
is still `0x90`, and the stored data checksum (the word at `0x30 + n' + 2`)
differs from the sum modulo `2^16` of the bytes in `[0x30, 0x30 + n')` exactly
when `0x90 + hi + lo` differs from `0x12 + p / 256 + p % 256`, where `hi`, `lo` are
the bytes at `0x31`, `0x32` and `p = 0xCC00 + n + 4` is the `patch_offset`. -/
theorem window_data_checksum (w : World Chip) (hb : ∀ x, w.dev.eeprom x < 256)
    (hsum : word w.dev.eeprom (0x30 + word w.dev.eeprom 2 + 2)
      = sumBytes w.dev.eeprom 0x30 (word w.dev.eeprom 2) % 65536)
    (v : Validated) (hv : (attempt_patch_validate faithful w).1 = Sum.inr v)
    (w2 : World Chip)
    (hw2 : w2 = (attempt_patch_stage faithful v (attempt_patch_validate faithful w).2).2) :
    (attempt_patch_stage faithful v (attempt_patch_validate faithful w).2).1
      = Sum.inr (0xCC00 + word w.dev.eeprom 2 + 4) ∧
    attempt_patch faithful w
      = attempt_patch_activate faithful (0xCC00 + word w.dev.eeprom 2 + 4) w2 ∧
    word w2.dev.eeprom 2 = word w.dev.eeprom 2 + 29 ∧
    w2.dev.eeprom 0x30 = 0x90 ∧
    (word w2.dev.eeprom (0x30 + (word w.dev.eeprom 2 + 29) + 2)
        ≠ sumBytes w2.dev.eeprom 0x30 (word w.dev.eeprom 2 + 29) % 65536 ↔
      0x90 + w.dev.eeprom 0x31 + w.dev.eeprom 0x32
        ≠ 0x12 + (0xCC00 + word w.dev.eeprom 2 + 4) / 256
          + (0xCC00 + word w.dev.eeprom 2 + 4) % 256) := by
  obtain ⟨w1, hval, e1, -, c1, -⟩ := attempt_patch_validate_faithful w hb
  rw [hval] at hv hw2 ⊢
  simp only at hv hw2 ⊢
  obtain ⟨cap, hr, h5, hle, hp, hveq⟩ := validate_image_inr _ v hv
  have hcapv : cap = 0x800 ∨ cap = 0x1000 := by
    rcases hr with ⟨-, h⟩ | ⟨-, h⟩ <;> simp [h]
  have m1 : w1.max_eeprom_address = cap := c1 cap ((recognised_iff _ _).1 hr)
  have hd : v.data_size = word w.dev.eeprom 2 := by rw [hveq]; rfl
  obtain ⟨w3, hst, -, e2⟩ := attempt_patch_stage_faithful v w1 (by rw [m1, hd]; exact hle)
    (by rw [m1]; omega)
  rw [hst] at hw2 ⊢
  simp only at hw2 ⊢
  subst hw2
  have hfun : w2.dev.eeprom = window_image w.dev.eeprom v := by
    funext x; rw [e2, e1]
  rw [hfun]
  refine ⟨by rw [hd], ?_, ?_, ?_, ?_⟩
  · rw [attempt_patch_of_inr faithful w w1 v (by rw [hval, hv]), attempt_patch_write_eq_stage,
      hst, hd]
  · have hw : word (window_image w.dev.eeprom v) 2 = word (patched_image w.dev.eeprom v) 2 := by
      unfold word
      rw [window_image_new _ _ _ (by omega), window_image_new _ _ _ (by omega)]
    rw [hw, patched_image_code_size _ _ (by rw [hd]; omega), hd]
  · rw [window_image_old _ _ _ (by omega) (by omega) (by omega)]
    exact hp.1
  · exact not_congr (window_image_sums w.dev.eeprom hb v hveq h5 (by omega) hp hsum)

theorem window_data_checksum_witness :
    (attempt_patch_stage faithful (validated_of small_image)
      (attempt_patch_validate faithful (start small_image)).2).1 = Sum.inr 0xCC09 ∧
    (attempt_patch_stage faithful (validated_of small_image)
      (attempt_patch_validate faithful (start small_image)).2).2.dev.eeprom 0x30 = 0x90 ∧
    word (attempt_patch_stage faithful (validated_of small_image)
      (attempt_patch_validate faithful (start small_image)).2).2.dev.eeprom 0x54
      ≠ sumBytes (attempt_patch_stage faithful (validated_of small_image)
          (attempt_patch_validate faithful (start small_image)).2).2.dev.eeprom 0x30 0x22
        % 65536 :=
  ⟨(window_data_checksum (start small_image) small_image_lt (by decide)
      (validated_of small_image) (by decide) _ rfl).1,
   (window_data_checksum (start small_image) small_image_lt (by decide)
      (validated_of small_image) (by decide) _ rfl).2.2.2.1,
   (window_data_checksum (start small_image) small_image_lt (by decide)
      (validated_of small_image) (by decide) _ rfl).2.2.2.2.2 (by decide)⟩

/-! ## C21: a second run on the patched image -/

theorem getD_lt_of_forall (l : List Nat) (k : Nat) (h : ∀ b ∈ l, b < 256) : l.getD k 0 < 256 := by
  by_cases hk : k < l.length
  · rw [List.getD_eq_getElem l 0 hk]
    exact h _ (List.getElem_mem hk)
  · rw [List.getD_eq_default l 0 (by omega)]
    decide

theorem patched_image_lt (m : Nat → Nat) (hb : ∀ x, m x < 256) (v : Validated) (x : Nat) :
    patched_image m v x < 256 := by
  unfold patched_image
  simp only
  repeat (split; · first | exact Nat.mod_lt _ (by decide) | decide)
  split
  · exact getD_lt_of_forall _ _ (audio_format_patch_with_lt v.op)
  · exact hb x

/-- C21. Patch is not re-applied: on the faithful chip, for every image of
bytes on which `attempt_patch` returned 0, a further run of `attempt_patch` on
a chip holding the resulting image, with `n'` the enlarged `code_size` stored
in it and `c` the capacity found by the first run, returns -9 when `n'` still
passes the size check (`n' ≤ c - 0x38 - 25`) and -7 otherwise, in either case a
negative code; it issues no write-EEPROM command, and the EEPROM content after
this run is the content after the first run. -/
theorem patch_not_reapplied (w : World Chip) (hb : ∀ x, w.dev.eeprom x < 256)
    (hret : (attempt_patch faithful w).1 = 0) (w2 : World Chip)
    (hw2 : w2.dev.eeprom = (attempt_patch faithful w).2.dev.eeprom) :
    (word w2.dev.eeprom 2 ≤ (attempt_patch faithful w).2.max_eeprom_address - 0x38 - 25 →
      (attempt_patch faithful w2).1 = -9) ∧
    ((attempt_patch faithful w).2.max_eeprom_address - 0x38 - 25 < word w2.dev.eeprom 2 →
      (attempt_patch faithful w2).1 = -7) ∧
    (attempt_patch faithful w2).1 < 0 ∧
    word w2.dev.eeprom 2 = word w.dev.eeprom 2 + 29 ∧
    (∀ e ∈ issued w2 (attempt_patch faithful w2).2, ∀ rep, e = Event.SetFeature rep →
      rep.cmd ≠ 0xE6) ∧
    (attempt_patch faithful w2).2.dev.eeprom = (attempt_patch faithful w).2.dev.eeprom := by
  obtain ⟨cap, hr, h5, hle, hp, hm, he⟩ := attempt_patch_success w hb hret
  have hcapv : cap = 0x800 ∨ cap = 0x1000 := by
    rcases hr with ⟨-, h⟩ | ⟨-, h⟩ <;> simp [h]
  have hfun : w2.dev.eeprom = patched_image w.dev.eeprom (validated_of w.dev.eeprom) :=
    hw2.trans (funext he)
  have hd : (validated_of w.dev.eeprom).data_size = word w.dev.eeprom 2 := rfl
  have hb2 : ∀ x, w2.dev.eeprom x < 256 := fun x => by
    rw [hfun]; exact patched_image_lt _ hb _ x
  -- what the second run reads: the same signature, the enlarged size, the `lcall`
  have hsig : word w2.dev.eeprom 0 = word w.dev.eeprom 0 := by
    rw [hfun]
    unfold word
    rw [patched_image_old _ _ _ (by omega) (by omega) (by omega) (by omega),
      patched_image_old _ _ _ (by omega) (by omega) (by omega) (by omega)]
  have hr2 : Recognised w2.dev.eeprom cap := by
    unfold Recognised at hr ⊢
    rw [hsig]; exact hr
  have hn2 : word w2.dev.eeprom 2 = word w.dev.eeprom 2 + 29 := by
    rw [hfun, patched_image_code_size _ _ (by rw [hd]; omega), hd]
  have hop : w2.dev.eeprom 0x30 = 0x12 := by rw [hfun]; exact patched_image_30 _ _
  have hp2 : ¬ PatternOK w2.dev.eeprom := fun h => by
    have := h.1
    rw [hop] at this
    exact absurd this (by decide)
  have hv : validate_image w2.dev.eeprom
      = Sum.inl (if word w2.dev.eeprom 2 ≤ cap - 0x38 - 25 then -9 else -7) := by
    by_cases hfit : word w2.dev.eeprom 2 ≤ cap - 0x38 - 25
    · rw [if_pos hfit]
      exact validate_image_of_mismatch _ cap hr2 (by omega) (by omega) hp2
    · rw [if_neg hfit]
      unfold validate_image
      rw [(recognised_iff _ cap).1 hr2]
      simp only
      rw [if_neg (by omega), if_neg (by omega), if_neg (by omega), if_pos (by omega)]
  obtain ⟨hcode, hnow, hsame⟩ := attempt_patch_rejected w2 hb2 _ hv
  rw [hm, hcode]
  refine ⟨fun h => by rw [if_pos h], fun h => by rw [if_neg (by omega)], ?_, hn2, hnow,
    hsame.trans hw2⟩
  split <;> decide

theorem patch_not_reapplied_witness :
    (attempt_patch faithful (start small_image)).1 = 0 ∧
    (attempt_patch faithful (attempt_patch faithful (start small_image)).2).1 = -9 ∧
    (attempt_patch faithful (start tight_image)).1 = 0 ∧
    (attempt_patch faithful
      (start (attempt_patch faithful (start tight_image)).2.dev.eeprom)).1 = -7 ∧
    (attempt_patch faithful
      (start (attempt_patch faithful (start tight_image)).2.dev.eeprom)).2.dev.eeprom
      = (attempt_patch faithful (start tight_image)).2.dev.eeprom :=
  ⟨by decide,
   (patch_not_reapplied (start small_image) small_image_lt (by decide)
      (attempt_patch faithful (start small_image)).2 rfl).1 (by decide),
   by decide,
   (patch_not_reapplied (start tight_image) tight_image_lt (by decide)
      (start (attempt_patch faithful (start tight_image)).2.dev.eeprom) rfl).2.1 (by decide),
   (patch_not_reapplied (start tight_image) tight_image_lt (by decide)
      (start (attempt_patch faithful (start tight_image)).2.dev.eeprom) rfl).2.2.2.2.2⟩

end MS2109
